import Mathlib

/-! wx2tt: a verification development for `main.go`.

The converter copies a directory tree, renames `.wxml`/`.wxss` files and rewrites
literal substrings inside the renamed files.  This file embeds the program in Lean:

* a Go `string` is the list of its bytes, each byte given by its numeric value;
* the functions of the Go standard library that `main.go` calls follow the standard
  library for a Unix target: `strings.ReplaceAll`, `strings.TrimSuffix`, `filepath.Ext`,
  `filepath.Dir`, `filepath.Base`, `filepath.Join` and `filepath.Walk` loop by loop,
  `filepath.Clean` and `filepath.Rel` by their documented effect on the elements of a path;
* the operating system is an in-memory file system passed explicitly from call to call:
  regular files and directories, no symbolic links, the working directory being the root.
-/

namespace Wx2tt

/-! ## Go strings -/

/-- A Go string: a sequence of bytes, each byte represented by its value. -/
abbrev GoString := List Nat

/-- The bytes of an ASCII literal. -/
def str (s : String) : GoString := s.toList.map Char.toNat

/-- Go `strings.HasPrefix`: `len(s) >= len(prefix) && s[:len(prefix)] == prefix`. -/
def HasPrefix (s pre : GoString) : Bool :=
  decide (pre.length ≤ s.length) && decide (s.take pre.length = pre)

/-- Go `strings.HasSuffix`: `len(s) >= len(suffix) && s[len(s)-len(suffix):] == suffix`. -/
def HasSuffix (s suffix : GoString) : Bool :=
  decide (suffix.length ≤ s.length) && decide (s.drop (s.length - suffix.length) = suffix)

/-- Go `strings.TrimSuffix`: `s[:len(s)-len(suffix)]` when `s` ends in `suffix`, else `s`. -/
def TrimSuffix (s suffix : GoString) : GoString :=
  if HasSuffix s suffix then s.take (s.length - suffix.length) else s

/-- Go `strings.Index`: the index of the first instance of `substr` in `s`;
`none` stands for the result `-1`. -/
def Index : GoString → GoString → Option Nat
  | [], substr => if HasPrefix [] substr then some 0 else none
  | c :: t, substr =>
    if HasPrefix (c :: t) substr then some 0
    else match Index t substr with
      | none => none
      | some i => some (i + 1)

/-- Continuation bytes of UTF-8 lie in `0x80..0xBF` (`locb`, `hicb`). -/
def isCont (b : Nat) : Bool := decide (0x80 ≤ b) && decide (b ≤ 0xBF)

/-- The width returned by Go `utf8.DecodeRuneInString`: the number of bytes of the first
encoded rune of `s`, `1` for an invalid or incomplete encoding, `0` for the empty string.
The three columns of each case are the entry of the table `first` for the leading byte:
its size and the accepted range of the second byte. -/
def runeWidth : GoString → Nat
  | [] => 0
  | s0 :: rest =>
    let entry : Option (Nat × Nat × Nat) :=
      if 0xC2 ≤ s0 ∧ s0 ≤ 0xDF then some (2, 0x80, 0xBF)
      else if s0 = 0xE0 then some (3, 0xA0, 0xBF)
      else if 0xE1 ≤ s0 ∧ s0 ≤ 0xEC then some (3, 0x80, 0xBF)
      else if s0 = 0xED then some (3, 0x80, 0x9F)
      else if 0xEE ≤ s0 ∧ s0 ≤ 0xEF then some (3, 0x80, 0xBF)
      else if s0 = 0xF0 then some (4, 0x90, 0xBF)
      else if 0xF1 ≤ s0 ∧ s0 ≤ 0xF3 then some (4, 0x80, 0xBF)
      else if s0 = 0xF4 then some (4, 0x80, 0x8F)
      else none
    match entry with
    | none => 1
    | some (sz, lo, hi) =>
      if rest.length + 1 < sz then 1
      else match rest with
        | [] => 1
        | s1 :: rest1 =>
          if s1 < lo ∨ hi < s1 then 1
          else if sz ≤ 2 then 2
          else match rest1 with
            | [] => 1
            | s2 :: rest2 =>
              if !isCont s2 then 1
              else if sz ≤ 3 then 3
              else match rest2 with
                | [] => 1
                | s3 :: _ => if !isCont s3 then 1 else 4

/-- Go `utf8.RuneCountInString`, by decoding rune after rune; the first argument bounds the
number of runes and is taken as `len(s)`. -/
def runeCountLoop : Nat → GoString → Nat
  | 0, _ => 0
  | fuel + 1, s =>
    match s with
    | [] => 0
    | _ :: _ => 1 + runeCountLoop fuel (s.drop (runeWidth s))

/-- Go `utf8.RuneCountInString`. -/
def RuneCountInString (s : GoString) : Nat := runeCountLoop s.length s

/-- The loop of Go `strings.Count` for a non-empty `substr`:
`for { i := Index(s, substr); if i == -1 { return n }; n++; s = s[i+len(substr):] }`.
The first argument bounds the number of iterations. -/
def countLoop (substr : GoString) : Nat → GoString → Nat
  | 0, _ => 0
  | fuel + 1, s =>
    match Index s substr with
    | none => 0
    | some i => 1 + countLoop substr fuel (s.drop (i + substr.length))

/-- Go `strings.Count`: the number of non-overlapping instances of `substr` in `s`;
for an empty `substr`, one more than the number of runes of `s`. -/
def Count (s substr : GoString) : Nat :=
  if substr.length = 0 then RuneCountInString s + 1
  else countLoop substr (s.length + 1) s

/-- The replacement loop of Go `strings.Replace`.  `k` is the number of iterations left,
`i` the loop counter and `rest` is `s[start:]`; the value is what is written to the
builder from this iteration on, `b.WriteString(s[start:])` included. -/
def replaceLoop (old new : GoString) : Nat → Nat → GoString → GoString
  | 0, _, rest => rest
  | k + 1, i, rest =>
    let j : Option Nat :=
      if old.length = 0 then (if 0 < i then some (runeWidth rest) else some 0)
      else Index rest old
    match j with
    | none => rest
    | some j => rest.take j ++ new ++ replaceLoop old new k (i + 1) (rest.drop (j + old.length))

/-- Go `strings.Replace(s, old, new, n)`. -/
def Replace (s old new : GoString) (n : Int) : GoString :=
  if old = new ∨ n = 0 then s
  else
    let m := Count s old
    if m = 0 then s
    else
      let n1 : Nat := if n < 0 ∨ (m : Int) < n then m else n.toNat
      replaceLoop old new n1 0 s

/-- Go `strings.ReplaceAll(s, old, new)`, which is `Replace(s, old, new, -1)`. -/
def ReplaceAll (s old new : GoString) : GoString := Replace s old new (-1)

/-! ## Paths -/

/-- The path separator `'/'`. -/
def sep : Nat := 47

/-- The byte `'.'`. -/
def dot : Nat := 46

/-- The loop of Go `filepath.Ext`:
`for i := len(path) - 1; i >= 0 && !os.IsPathSeparator(path[i]); i-- { if path[i] == '.' { return path[i:] } }`
followed by `return ""`.  The argument is `i + 1`. -/
def extLoop (path : GoString) : Nat → GoString
  | 0 => []
  | i + 1 =>
    match path.get? i with
    | none => []
    | some c =>
      if c = sep then []
      else if c = dot then path.drop i
      else extLoop path i

/-- Go `filepath.Ext`: the suffix beginning at the final dot of the final element of
`path`, empty when there is no dot. -/
def Ext (path : GoString) : GoString := extLoop path path.length


/-- The bytes of `path` split at every separator: `"a//b"` gives `"a"`, `""`, `"b"`. -/
def splitPath : GoString → List GoString
  | [] => [[]]
  | c :: t =>
    if c = sep then [] :: splitPath t
    else match splitPath t with
      | [] => [[c]]
      | seg :: segs => (c :: seg) :: segs

/-- Go `strings.Join(elems, "/")`. -/
def joinSep (elems : List GoString) : GoString := List.intercalate [sep] elems

/-- One element of the path under `filepath.Clean`; `stack` holds the elements kept so far,
the last one first.  Empty and `.` elements are dropped, a `..` element removes the element
before it, is dropped at the root of a rooted path, and is kept at the start of a relative
path. -/
def cleanStep (rooted : Bool) (stack : List GoString) (seg : GoString) : List GoString :=
  if seg = [] ∨ seg = [dot] then stack
  else if seg = [dot, dot] then
    match stack with
    | top :: below => if top = [dot, dot] then seg :: stack else below
    | [] => if rooted then [] else [seg]
  else seg :: stack

/-- Go `filepath.Clean` on Unix, by the rules of its documentation: separators are not
repeated, `.` elements and inner `..` elements are eliminated, a rooted path does not begin
with `/..`, the result ends in a separator only when it is the root, and the empty result
is `"."`. -/
def Clean (path : GoString) : GoString :=
  let rooted : Bool := decide (path.head? = some sep)
  let body := joinSep ((splitPath path).foldl (cleanStep rooted) []).reverse
  if rooted then sep :: body
  else if body = [] then [dot]
  else body

/-- Go `filepath.Join`: the non-empty elements from the first one on are joined with
separators and the result is cleaned; `""` when every element is empty. -/
def Join : List GoString → GoString
  | [] => []
  | e :: es => if e = [] then Join es else Clean (joinSep (e :: es))

/-- The scan `for i >= 0 && !os.IsPathSeparator(path[i]) { i-- }` shared by `filepath.Dir`,
`filepath.Base` and `os.MkdirAll`; the argument and the result are `i + 1`. -/
def lastSepLoop (path : GoString) : Nat → Nat
  | 0 => 0
  | i + 1 =>
    match path.get? i with
    | none => 0
    | some c => if c = sep then i + 1 else lastSepLoop path i

/-- Go `filepath.Dir`: all but the last element of `path`, cleaned. -/
def Dir (path : GoString) : GoString :=
  Clean (path.take (lastSepLoop path path.length))

/-- Go `filepath.Base`: the last element of `path`, trailing separators removed first;
`"."` for the empty path and `"/"` for a path of separators only. -/
def Base (path : GoString) : GoString :=
  if path = [] then [dot]
  else
    let p := path.rdropWhile (fun c => decide (c = sep))
    let last := p.drop (lastSepLoop p p.length)
    if last = [] then [sep] else last

/-- The elements of a cleaned path, the leading separator of a rooted path left out. -/
def relElems (p : GoString) : List GoString :=
  let q := if p.head? = some sep then p.drop 1 else p
  if q = [] then [] else splitPath q

/-- The elements of `base` and of `targ` from the first differing one on. -/
def dropCommon : List GoString → List GoString → List GoString × List GoString
  | b :: bs, t :: ts => if t = b then dropCommon bs ts else (b :: bs, t :: ts)
  | bs, ts => (bs, ts)

/-! ## The file system -/

/-- The errors the program can meet: the `errno` values of the system calls it makes, and
the error `filepath.Rel` returns for paths it cannot relate. -/
inductive Error
  | ENOENT
  | ENOTDIR
  | EISDIR
  | EEXIST
  | ENOTEMPTY
  | EINVAL
  | ENAMETOOLONG
  | relError
deriving DecidableEq, Repr

/-- Go `filepath.Rel` on Unix: both paths are cleaned, their common leading elements are
dropped, every element left of the base becomes `..` and the elements left of the target
follow.  It fails when one path is rooted and the other is not, and when the base goes on
with a `..` element. -/
def Rel (basepath targpath : GoString) : Except Error GoString :=
  let base := Clean basepath
  let targ := Clean targpath
  if targ = base then .ok [dot]
  else
    let base := if base = [dot] then [] else base
    let baseSlashed : Bool := decide (base.head? = some sep)
    let targSlashed : Bool := decide (targ.head? = some sep)
    if baseSlashed ≠ targSlashed then .error .relError
    else
      match dropCommon (relElems base) (relElems targ) with
      | ([], ts) => .ok (joinSep ts)
      | (b :: bs, ts) =>
        if b = [dot, dot] then .error .relError
        else .ok (joinSep ((b :: bs).map (fun _ => [dot, dot]) ++ ts))

/-- What `os.FileInfo` tells the program: whether the entry is a directory and its
permission bits. -/
structure FileInfo where
  isDir : Bool
  mode : Nat
deriving DecidableEq, Repr

/-- An entry of the file system: a regular file with its permission bits and content, or a
directory with its permission bits. -/
inductive Inode
  | file (mode : Nat) (data : GoString)
  | dir (mode : Nat)
deriving DecidableEq, Repr

/-- Whether an entry is a directory. -/
def Inode.isDir : Inode → Bool
  | .file _ _ => false
  | .dir _ => true

/-- The location of an entry: the names leading to it from the root directory. -/
abbrev Path := List GoString

/-- The state of the file system: its entries other than the root directory, and the
file mode creation mask of the process.  The working directory is the root. -/
structure FS where
  entries : List (Path × Inode)
  umask : Nat
deriving DecidableEq, Repr

/-- The first entry stored at `p`. -/
def lookupEntry : List (Path × Inode) → Path → Option Inode
  | [], _ => none
  | (q, i) :: es, p => if q = p then some i else lookupEntry es p

/-- The entry at `p`; the root is a directory. -/
def FS.lookup (fs : FS) (p : Path) : Option Inode :=
  if p = [] then some (Inode.dir 0o755) else lookupEntry fs.entries p

/-- Store `i` at `p`, replacing what was there. -/
def FS.set (fs : FS) (p : Path) (i : Inode) : FS :=
  { fs with entries := (p, i) :: fs.entries.filter (fun e => !decide (e.1 = p)) }

/-- Remove the entry at `p`. -/
def FS.remove (fs : FS) (p : Path) : FS :=
  { fs with entries := fs.entries.filter (fun e => !decide (e.1 = p)) }

/-- Permission bits `perm` with the bits of the creation mask cleared. -/
def maskMode (perm umask : Nat) : Nat := perm ^^^ (perm &&& umask)

/-- One element of a path name, looked up in the directory `cur`.  A name of more than
`NAME_MAX` (255) bytes is refused. -/
def step (fs : FS) (cur : Path) (seg : GoString) : Except Error Path :=
  match fs.lookup cur with
  | none => .error .ENOENT
  | some (.file _ _) => .error .ENOTDIR
  | some (.dir _) =>
    if seg = [] ∨ seg = [dot] then .ok cur
    else if seg = [dot, dot] then .ok cur.dropLast
    else if 255 < seg.length then .error .ENAMETOOLONG
    else .ok (cur ++ [seg])

/-- The elements `segs` looked up one after the other from `cur`. -/
def resolveFrom (fs : FS) : Path → List GoString → Except Error Path
  | cur, [] => .ok cur
  | cur, seg :: rest =>
    match step fs cur seg with
    | .error e => .error e
    | .ok next => resolveFrom fs next rest

/-- The location a path name denotes.  Every element but the last must lead to an existing
directory; the last one need not exist. -/
def denote (fs : FS) (path : GoString) : Except Error Path :=
  if path = [] then .error .ENOENT else resolveFrom fs [] (splitPath path)

/-- Path name resolution as the system calls do it: a path name that does not fit, with
its terminating byte, in `PATH_MAX` (4096) bytes is refused; a shorter one leads to the
location it denotes. -/
def resolve (fs : FS) (path : GoString) : Except Error Path :=
  if 4096 ≤ path.length then .error .ENAMETOOLONG else denote fs path

/-- Go `os.Lstat`. -/
def os_Lstat (fs : FS) (path : GoString) : Except Error FileInfo :=
  match resolve fs path with
  | .error e => .error e
  | .ok p =>
    match fs.lookup p with
    | none => .error .ENOENT
    | some (.file m _) => .ok ⟨false, m⟩
    | some (.dir m) => .ok ⟨true, m⟩

/-- Go `os.Stat`; there are no symbolic links, so it is `os.Lstat`. -/
def os_Stat (fs : FS) (path : GoString) : Except Error FileInfo := os_Lstat fs path

/-- Go `os.IsNotExist`, which holds of `ENOENT` only. -/
def os_IsNotExist (r : Except Error FileInfo) : Bool :=
  match r with
  | .error .ENOENT => true
  | _ => false

/-- Bytewise lexicographic order on strings, the order of `sort.Strings`. -/
def strLe : GoString → GoString → Bool
  | [], _ => true
  | _ :: _, [] => false
  | a :: s, b :: t => if a < b then true else if b < a then false else strLe s t

/-- The names of the entries directly inside the directory at `p`. -/
def childNames (es : List (Path × Inode)) (p : Path) : List GoString :=
  es.filterMap (fun e =>
    match e.1.getLast? with
    | none => none
    | some name => if e.1.dropLast = p then some name else none)

/-- The function `readDirNames` of `path/filepath`: the names in a directory, sorted. -/
def readDirNames (fs : FS) (dirname : GoString) : Except Error (List GoString) :=
  match resolve fs dirname with
  | .error e => .error e
  | .ok p =>
    match fs.lookup p with
    | none => .error .ENOENT
    | some (.file _ _) => .error .ENOTDIR
    | some (.dir _) => .ok ((childNames fs.entries p).insertionSort (fun a b => strLe a b = true))

/-- Go `os.Mkdir`. -/
def os_Mkdir (fs : FS) (name : GoString) (perm : Nat) : Except Error FS :=
  match resolve fs name with
  | .error e => .error e
  | .ok p =>
    match fs.lookup p with
    | some _ => .error .EEXIST
    | none => .ok (fs.set p (.dir (maskMode perm fs.umask)))

/-- The parent `path[:i]` that `os.MkdirAll` computes: trailing separators are skipped,
then the last element. -/
def mkdirAllParent (path : GoString) : GoString :=
  let p := path.rdropWhile (fun c => decide (c = sep))
  path.take (lastSepLoop p p.length - 1)

/-- Go `os.MkdirAll`; the recursion is on the parent, a shorter string, and is bounded by
the first argument. -/
def mkdirAllLoop : Nat → FS → GoString → Nat → Except Error FS
  | 0, _, _, _ => .error .EINVAL
  | fuel + 1, fs, path, perm =>
    match os_Stat fs path with
    | .ok info => if info.isDir then .ok fs else .error .ENOTDIR
    | .error _ =>
      let parent := mkdirAllParent path
      let made : Except Error FS :=
        if 0 < parent.length then mkdirAllLoop fuel fs parent perm else .ok fs
      match made with
      | .error e => .error e
      | .ok fs1 =>
        match os_Mkdir fs1 path perm with
        | .ok fs2 => .ok fs2
        | .error e =>
          match os_Lstat fs1 path with
          | .ok info => if info.isDir then .ok fs1 else .error e
          | .error _ => .error e

/-- Go `os.MkdirAll`. -/
def os_MkdirAll (fs : FS) (path : GoString) (perm : Nat) : Except Error FS :=
  mkdirAllLoop (path.length + 1) fs path perm

/-- Go `os.Open`: the location of the opened entry. -/
def os_Open (fs : FS) (name : GoString) : Except Error Path :=
  match resolve fs name with
  | .error e => .error e
  | .ok p =>
    match fs.lookup p with
    | none => .error .ENOENT
    | some _ => .ok p

/-- Go `os.Create`, which is `OpenFile(name, O_RDWR|O_CREATE|O_TRUNC, 0666)`: an existing
file is truncated and keeps its mode, a new file gets mode `0666` less the creation mask. -/
def os_Create (fs : FS) (name : GoString) : Except Error (FS × Path) :=
  match resolve fs name with
  | .error e => .error e
  | .ok p =>
    match fs.lookup p with
    | some (.dir _) => .error .EISDIR
    | some (.file m _) => .ok (fs.set p (.file m []), p)
    | none => .ok (fs.set p (.file (maskMode 0o666 fs.umask) []), p)

/-- Go `io.Copy(dst, src)` on two opened entries: the content of `src` becomes the content
of `dst`. -/
def io_Copy (fs : FS) (dst src : Path) : Except Error FS :=
  match fs.lookup src with
  | none => .error .ENOENT
  | some (.dir _) => .error .EISDIR
  | some (.file _ data) =>
    match fs.lookup dst with
    | some (.file m _) => .ok (fs.set dst (.file m data))
    | _ => .error .EINVAL

/-- Go `ioutil.ReadFile`. -/
def ioutil_ReadFile (fs : FS) (filename : GoString) : Except Error GoString :=
  match resolve fs filename with
  | .error e => .error e
  | .ok p =>
    match fs.lookup p with
    | none => .error .ENOENT
    | some (.dir _) => .error .EISDIR
    | some (.file _ data) => .ok data

/-- Go `ioutil.WriteFile`, which opens with `O_WRONLY|O_CREATE|O_TRUNC` and mode `perm`:
`perm` is used only when the file is created. -/
def ioutil_WriteFile (fs : FS) (filename data : GoString) (perm : Nat) : Except Error FS :=
  match resolve fs filename with
  | .error e => .error e
  | .ok p =>
    match fs.lookup p with
    | some (.dir _) => .error .EISDIR
    | some (.file m _) => .ok (fs.set p (.file m data))
    | none => .ok (fs.set p (.file (maskMode perm fs.umask) data))

/-- Move every entry at or below `old` to the same place at or below `new`. -/
def moveEntries (old new : Path) (es : List (Path × Inode)) : List (Path × Inode) :=
  es.map (fun e => if old <+: e.1 then (new ++ e.1.drop old.length, e.2) else e)

/-- The system call `rename`: a file replaces an existing file, a directory replaces an
existing empty directory, and two names of one entry are left as they are. -/
def sys_rename (fs : FS) (oldpath newpath : GoString) : Except Error FS :=
  match resolve fs oldpath, resolve fs newpath with
  | .error e, _ => .error e
  | .ok _, .error e => .error e
  | .ok po, .ok pn =>
    match fs.lookup po with
    | none => .error .ENOENT
    | some (.file m data) =>
      match fs.lookup pn with
      | some (.dir _) => .error .EISDIR
      | _ => if po = pn then .ok fs else .ok ((fs.remove po).set pn (.file m data))
    | some (.dir _) =>
      if po = pn then .ok fs
      else if po <+: pn ∨ po = [] ∨ pn = [] then .error .EINVAL
      else
        match fs.lookup pn with
        | some (.file _ _) => .error .ENOTDIR
        | some (.dir _) =>
          if childNames fs.entries pn = [] then
            .ok { fs with entries := moveEntries po pn (fs.remove pn).entries }
          else .error .ENOTEMPTY
        | none => .ok { fs with entries := moveEntries po pn fs.entries }

/-- Whether two path names lead to one entry (`os.SameFile` on what `Lstat` returned). -/
def sameFile (fs : FS) (oldname newname : GoString) : Bool :=
  match resolve fs oldname, resolve fs newname with
  | .ok po, .ok pn => decide (po = pn)
  | _, _ => false

/-- Go `os.Rename`: when the new name is an existing directory, the error of `Lstat` on
the old name, or else `EEXIST`, is returned, unless the two names differ and lead to one
entry; in every other case the system call decides. -/
def os_Rename (fs : FS) (oldname newname : GoString) : Except Error FS :=
  match os_Lstat fs newname with
  | .ok fi =>
    if fi.isDir then
      match os_Lstat fs oldname with
      | .error e => .error e
      | .ok _ =>
        if newname = oldname ∨ sameFile fs oldname newname = false then .error .EEXIST
        else sys_rename fs oldname newname
    else sys_rename fs oldname newname
  | .error _ => sys_rename fs oldname newname


/-! ## The program -/

/-- The Go type `ExtensionReplacement`. -/
structure ExtensionReplacement where
  OldExt : GoString
  NewExt : GoString
deriving DecidableEq, Repr

/-- The Go type `TextReplacement`. -/
structure TextReplacement where
  Extension : GoString
  OldStr : GoString
  NewStr : GoString
deriving DecidableEq, Repr

/-- The Go type `FileConverter`. -/
structure FileConverter where
  SourceDirectory : GoString
  DestinationDirectory : GoString
  Extensions : List ExtensionReplacement
  TextReplacements : List TextReplacement
deriving DecidableEq, Repr

/-- A `filepath.WalkFunc` acting on the file system: the path, the file information (absent
when `Lstat` failed), the error met on the way to the entry, and the state.  The value is
the error the function returns and the state it leaves. -/
abbrev WalkFunc := GoString → Option FileInfo → Option Error → FS → Option Error × FS

/-- The loop `for _, name := range names` of `walk`: it stops at the first error. -/
def walkNames (visit : GoString → FS → Option (Option Error × FS)) :
    List GoString → FS → Option (Option Error × FS)
  | [], fs => some (none, fs)
  | name :: names, fs =>
    match visit name fs with
    | none => none
    | some (some e, fs1) => some (some e, fs1)
    | some (none, fs1) => walkNames visit names fs1

/-- The function `walk` of `path/filepath`: the names in a directory are read before the
function is called on the directory.  The first argument bounds the depth of the recursion;
`none` is returned when the bound is reached. -/
def walk (walkFn : WalkFunc) : Nat → GoString → FileInfo → FS → Option (Option Error × FS)
  | 0, _, _, _ => none
  | depth + 1, path, info, fs =>
    if !info.isDir then some (walkFn path (some info) none fs)
    else
      let names := readDirNames fs path
      let err : Option Error :=
        match names with
        | .error e => some e
        | .ok _ => none
      match walkFn path (some info) err fs, names with
      | (some e1, fs1), _ => some (some e1, fs1)
      | (none, fs1), .error _ => some (none, fs1)
      | (none, fs1), .ok ns =>
        walkNames (fun name fs2 =>
          let filename := Join [path, name]
          match os_Lstat fs2 filename with
          | .error e => some (walkFn filename none (some e) fs2)
          | .ok fileInfo => walk walkFn depth filename fileInfo fs2) ns fs1

/-- Go `filepath.Walk`. -/
def Walk (root : GoString) (fn : WalkFunc) (fs : FS) (depth : Nat) :
    Option (Option Error × FS) :=
  match os_Lstat fs root with
  | .error e => some (fn root none (some e) fs)
  | .ok info => walk fn depth root info fs

/-- The method `CopyFile`. -/
def CopyFile (sourcePath destinationPath : GoString) (fs : FS) : Option Error × FS :=
  match os_Open fs sourcePath with
  | .error e => (some e, fs)
  | .ok sourceFile =>
    match os_Create fs destinationPath with
    | .error e => (some e, fs)
    | .ok (fs1, destinationFile) =>
      match io_Copy fs1 destinationFile sourceFile with
      | .error e => (some e, fs1)
      | .ok fs2 => (none, fs2)

/-- The function `CopyDirectory` passes to `filepath.Walk`.  `Walk` passes the file
information whenever it passes no error, so the case without both does not arise. -/
def FileConverter.copyFn (fc : FileConverter) : WalkFunc := fun path info err fs =>
  match err, info with
  | some e, _ => (some e, fs)
  | none, none => (none, fs)
  | none, some info =>
    match Rel fc.SourceDirectory path with
    | .error e => (some e, fs)
    | .ok relativePath =>
      let destinationPath := Join [fc.DestinationDirectory, relativePath]
      if info.isDir then
        match os_MkdirAll fs destinationPath info.mode with
        | .error e => (some e, fs)
        | .ok fs1 => (none, fs1)
      else CopyFile path destinationPath fs

/-- The method `CopyDirectory`. -/
def FileConverter.CopyDirectory (fc : FileConverter) (fs : FS) (depth : Nat) :
    Option (Option Error × FS) :=
  Walk fc.SourceDirectory fc.copyFn fs depth

/-- The loop over `fc.Extensions` in `RenameFiles`: the new path of the first rule whose
`OldExt` is the extension, the loop being left at that rule. -/
def renameTarget (path extension : GoString) : List ExtensionReplacement → Option GoString
  | [] => none
  | replacement :: rest =>
    if extension = replacement.OldExt then
      some (TrimSuffix path replacement.OldExt ++ replacement.NewExt)
    else renameTarget path extension rest

/-- The function `RenameFiles` passes to `filepath.Walk`. -/
def FileConverter.renameFn (fc : FileConverter) : WalkFunc := fun path info err fs =>
  match err, info with
  | some e, _ => (some e, fs)
  | none, none => (none, fs)
  | none, some info =>
    if info.isDir then (none, fs)
    else
      match renameTarget path (Ext path) fc.Extensions with
      | none => (none, fs)
      | some newPath =>
        match os_Rename fs path newPath with
        | .error e => (some e, fs)
        | .ok fs1 => (none, fs1)

/-- The lines the program prints. -/
inductive Msg
  | usage
  | notExist
  | errorCopying (e : Error)
  | renamingCompleted
  | errorRenaming (e : Error)
  | replacementCompleted
  | errorReplacing (e : Error)
  | conversionCompleted
deriving DecidableEq, Repr

/-- What a phase leaves: the lines it printed, the error it returned and the state. -/
structure Outcome where
  output : List Msg
  err : Option Error
  fs : FS
deriving DecidableEq, Repr

/-- The method `RenameFiles`. -/
def FileConverter.RenameFiles (fc : FileConverter) (fs : FS) (depth : Nat) : Option Outcome :=
  match Walk fc.DestinationDirectory fc.renameFn fs depth with
  | none => none
  | some (some e, fs1) => some ⟨[], some e, fs1⟩
  | some (none, fs1) => some ⟨[.renamingCompleted], none, fs1⟩

/-- The loop over `fc.TextReplacements` in `ReplaceTextInFiles`, for the file at `path`
with extension `extension` and mode `mode`: every rule for the extension reads the file,
replaces and writes the file back. -/
def replaceInFile (path extension : GoString) (mode : Nat) :
    List TextReplacement → FS → Option Error × FS
  | [], fs => (none, fs)
  | replacement :: rest, fs =>
    if extension = replacement.Extension then
      match ioutil_ReadFile fs path with
      | .error e => (some e, fs)
      | .ok content =>
        let newContent := ReplaceAll content replacement.OldStr replacement.NewStr
        match ioutil_WriteFile fs path newContent mode with
        | .error e => (some e, fs)
        | .ok fs1 => replaceInFile path extension mode rest fs1
    else replaceInFile path extension mode rest fs

/-- The function `ReplaceTextInFiles` passes to `filepath.Walk`. -/
def FileConverter.replaceFn (fc : FileConverter) : WalkFunc := fun path info err fs =>
  match err, info with
  | some e, _ => (some e, fs)
  | none, none => (none, fs)
  | none, some info =>
    if info.isDir then (none, fs)
    else replaceInFile path (Ext path) info.mode fc.TextReplacements fs

/-- The method `ReplaceTextInFiles`. -/
def FileConverter.ReplaceTextInFiles (fc : FileConverter) (fs : FS) (depth : Nat) :
    Option Outcome :=
  match Walk fc.DestinationDirectory fc.replaceFn fs depth with
  | none => none
  | some (some e, fs1) => some ⟨[], some e, fs1⟩
  | some (none, fs1) => some ⟨[.replacementCompleted], none, fs1⟩

/-- The content the loop of `ReplaceTextInFiles` computes for a file with extension
`extension` whose content is `content`: every rule for the extension replaces in what the
rules before it left. -/
def rewriteContent (extension : GoString) : List TextReplacement → GoString → GoString
  | [], content => content
  | replacement :: rest, content =>
    if extension = replacement.Extension then
      rewriteContent extension rest (ReplaceAll content replacement.OldStr replacement.NewStr)
    else rewriteContent extension rest content

/-- The content of a file with extension `e` as the specification words it: the left fold,
in list order, over exactly the rules whose `Extension` is `e`, of replacing `OldStr` by
`NewStr` in the content reached so far. -/
def foldMatchingRules (rules : List TextReplacement) (e : GoString) (content : GoString) :
    GoString :=
  (rules.filter (fun r => decide (r.Extension = e))).foldl
    (fun c r => ReplaceAll c r.OldStr r.NewStr) content

/-- The extension rules of `main`. -/
def mainExtensions : List ExtensionReplacement :=
  [⟨str (".wxml"), str (".ttml")⟩, ⟨str (".wxss"), str (".ttss")⟩]

/-- The text rules of `main`. -/
def mainTextReplacements : List TextReplacement :=
  [⟨str (".ttml"), str ("wx:"), str ("tt:")⟩,
   ⟨str (".ttss"), str (".wxss"), str (".ttss")⟩,
   ⟨str (".js"), str ("wx."), str ("tt.")⟩,
   ⟨str (".ttml"), str (".wxml"), str (".ttml")⟩,
   ⟨str (".ts"), str ("wx."), str ("tt.")⟩]

/-- The destination directory `main` computes from its argument. -/
def destinationOf (sourceDirectory : GoString) : GoString :=
  Join [Dir sourceDirectory, Base sourceDirectory ++ str ("_tt")]

/-- The phases of a run. -/
inductive Phase
  | copy
  | rename
  | replace
deriving DecidableEq, Repr

/-- What a run of `main` leaves: the lines printed, the phases invoked, and the state. -/
structure Run where
  output : List Msg
  phases : List Phase
  fs : FS
deriving DecidableEq, Repr

/-- The function `main`; `args` is `os.Args`, the program name first.  The last argument
bounds the depth of the three walks; `none` is returned when the bound is reached. -/
def main (args : List GoString) (fs : FS) (depth : Nat) : Option Run :=
  if args.length < 2 then some ⟨[.usage], [], fs⟩
  else
    let sourceDirectory := args.getD 1 []
    let destinationDirectory := destinationOf sourceDirectory
    if os_IsNotExist (os_Stat fs sourceDirectory) then some ⟨[.notExist], [], fs⟩
    else
      let converter : FileConverter :=
        { SourceDirectory := sourceDirectory
          DestinationDirectory := destinationDirectory
          Extensions := mainExtensions
          TextReplacements := mainTextReplacements }
      match converter.CopyDirectory fs depth with
      | none => none
      | some (some e, fs1) => some ⟨[.errorCopying e], [.copy], fs1⟩
      | some (none, fs1) =>
        match converter.RenameFiles fs1 depth with
        | none => none
        | some ⟨out2, some e, fs2⟩ => some ⟨out2 ++ [.errorRenaming e], [.copy, .rename], fs2⟩
        | some ⟨out2, none, fs2⟩ =>
          match converter.ReplaceTextInFiles fs2 depth with
          | none => none
          | some ⟨out3, some e, fs3⟩ =>
            some ⟨out2 ++ out3 ++ [.errorReplacing e], [.copy, .rename, .replace], fs3⟩
          | some ⟨out3, none, fs3⟩ =>
            some ⟨out2 ++ out3 ++ [.conversionCompleted], [.copy, .rename, .replace], fs3⟩

/-! ## Notions for the statements about whole trees -/

/-- A name an entry can have: not empty, without a separator, neither `.` nor `..`, and of
at most `NAME_MAX` (255) bytes. -/
def plainName (n : GoString) : Prop :=
  n ≠ [] ∧ sep ∉ n ∧ n ≠ [dot] ∧ n ≠ [dot, dot] ∧ n.length ≤ 255

instance (n : GoString) : Decidable (plainName n) := by
  unfold plainName; infer_instance

/-- Whether there is an entry at `p`, and whether it is a directory. -/
def FS.kind (fs : FS) (p : Path) : Option Bool := (fs.lookup p).map Inode.isDir

/-- A well-formed state: no location is stored twice, names are plain, and every entry
lies in a directory. -/
def FS.wf (fs : FS) : Prop :=
  (fs.entries.map Prod.fst).Nodup ∧
  ∀ e ∈ fs.entries, e.1 ≠ [] ∧ (∀ n ∈ e.1, plainName n) ∧ fs.kind e.1.dropLast = some true

instance (fs : FS) : Decidable fs.wf := by
  unfold FS.wf; infer_instance

/-- Whether a path name is rooted. -/
def isRooted (path : GoString) : Bool := decide (path.head? = some sep)

/-- The elements `filepath.Clean` keeps of a path name, in order. -/
def cleanSegs (path : GoString) : List GoString :=
  ((splitPath path).foldl (cleanStep (isRooted path)) []).reverse

/-- A function of a walk that hands back the error it is given. -/
def passesErrors (fn : WalkFunc) : Prop :=
  ∀ (p : GoString) (i : Option FileInfo) (e : Error) (s : FS), (fn p i (some e) s).1 ≠ none

/-- The path name `filepath.Clean` builds from the elements it keeps. -/
def cleanStr (rooted : Bool) (segs : List GoString) : GoString :=
  if rooted then sep :: joinSep segs
  else if joinSep segs = [] then [dot]
  else joinSep segs

/-- The name of the converted copy of a regular file named `n`, in the words of the
specification: a name that ends in `.wxml` ends in `.ttml` instead, a name that ends in
`.wxss` ends in `.ttss` instead, and any other name is kept. -/
def convertedName (n : GoString) : GoString :=
  if n.drop (n.length - 5) = str (".wxml") then n.take (n.length - 5) ++ str (".ttml")
  else if n.drop (n.length - 5) = str (".wxss") then n.take (n.length - 5) ++ str (".ttss")
  else n

/-- The relative path of the converted copy of the entry at the relative path `q`, in the
words of the specification: the path itself for a directory, the path with its last name
converted for a regular file. -/
def convertedPath (isFile : Bool) (q : Path) : Path :=
  if isFile then
    match q.getLast? with
    | some n => q.dropLast ++ [convertedName n]
    | none => q
  else q

/-- The shape of the elements `filepath.Clean` keeps, the last one first: no element is
empty, `.` or holds a separator, a `..` element has only `..` elements before it, and
there is none in a rooted path. -/
def cleanStack (rooted : Bool) : List GoString → Prop
  | [] => True
  | x :: below =>
    x ≠ [] ∧ x ≠ [dot] ∧ sep ∉ x ∧
      (x = [dot, dot] → rooted = false ∧ ∀ y ∈ below, y = [dot, dot]) ∧
      cleanStack rooted below

/-- The setting of a copy from the source root `S` to the destination root `D`, in the
state `fs0` the run starts from: the state is well-formed, the source path name denotes the
directory at `S`, the destination path name denotes `D` (in a state where it can be
followed), and no entry of the source tree other than its root lies at, above or below
`D`. -/
structure CopySetting (fc : FileConverter) (fs0 : FS) (S D : Path) : Prop where
  wf0 : fs0.wf
  source : denote fs0 fc.SourceDirectory = .ok S
  sdir : fs0.kind S = some true
  dne : fc.DestinationDirectory ≠ []
  dest : ∃ fsx, resolveFrom fsx [] (cleanSegs fc.DestinationDirectory) = .ok D
  apart : ∀ x, x ≠ [] → (fs0.kind (S ++ x)).isSome → ¬ (S ++ x) <+: D ∧ ¬ D <+: S ++ x

/-- The kind of the entry the copy leaves at a place of the destination: the kind of the
source entry when there is one, else the kind of the entry that was there. -/
def mergeKind (src old : Option Bool) : Option Bool :=
  match src with
  | some b => some b
  | none => old

/-- The name a regular file had when its converted copy is named `k` and the conversion
changed the name: `s.wxml` for `s.ttml`, and `s.wxss` for `s.ttss`. -/
def sourceName (k : GoString) : Option GoString :=
  if k.drop (k.length - 5) = str (".ttml") then some (k.take (k.length - 5) ++ str (".wxml"))
  else if k.drop (k.length - 5) = str (".ttss") then
    some (k.take (k.length - 5) ++ str (".wxss"))
  else none

/-- What a renaming of the regular files of the directory at `par` leaves at the name `k`,
`fsA` being the state before: nothing when `k` was a regular file whose name is converted
to another one; the regular file whose name is converted to `k` when there was one; and
what was there in every other case. -/
def renamedEntry (fsA : FS) (par : Path) (k : GoString) : Option Inode :=
  if convertedName k ≠ k ∧ fsA.kind (par ++ [k]) = some false then none
  else
    match sourceName k with
    | some m =>
      if fsA.kind (par ++ [m]) = some false then fsA.lookup (par ++ [m])
      else fsA.lookup (par ++ [k])
    | none => fsA.lookup (par ++ [k])

/-- What is at the name `k` of the directory at `par` while the names `ns` of the directory
are gone through, the names `todo` being left: as `renamedEntry`, for the regular files
among the names already dealt with. -/
def partialEntry (fsA : FS) (par : Path) (ns todo : List GoString) (k : GoString) :
    Option Inode :=
  if (k ∈ ns ∧ k ∉ todo) ∧ convertedName k ≠ k ∧ fsA.kind (par ++ [k]) = some false then none
  else
    match sourceName k with
    | some m =>
      if (m ∈ ns ∧ m ∉ todo) ∧ fsA.kind (par ++ [m]) = some false then fsA.lookup (par ++ [m])
      else fsA.lookup (par ++ [k])
    | none => fsA.lookup (par ++ [k])

/-- An entry named `k` after the text rules `rules` have been applied to it: a directory
as it was, a regular file with the content `rewriteContent` gives for the extension of the
name. -/
def rewrittenEntry (rules : List TextReplacement) (k : GoString) : Inode → Inode
  | .file m c => .file m (rewriteContent (Ext k) rules c)
  | .dir m => .dir m

/-! ## The scenarios of the specification -/

/-- The converter `main` builds for the source directory `proj`. -/
def demoConverter : FileConverter :=
  { SourceDirectory := str ("proj")
    DestinationDirectory := str ("proj_tt")
    Extensions := mainExtensions
    TextReplacements := mainTextReplacements }

/-- A destination tree after the renaming phase: `a/index.ttml` and `app.js` still hold
the text of their sources. -/
def demoRenamed : FS :=
  { entries :=
      [([str ("proj_tt")], .dir 0o755),
       ([str ("proj_tt"), str ("a")], .dir 0o755),
       ([str ("proj_tt"), str ("a"), str ("index.ttml")],
          .file 0o644 (str ("<view wx:if=\x22x\x22></view>"))),
       ([str ("proj_tt"), str ("app.js")], .file 0o644 (str ("wx.request(\x7b\x7d)"))),
       ([str ("proj_tt"), str ("README.WXML")], .file 0o644 (str ("wx notes")))]
    umask := 0o022 }

/-- The source tree of the scenarios: `proj` holds `a/index.wxml`, an executable script
`run.sh`, `app.js` and `b.wxss`. -/
def demoSource : FS :=
  { entries :=
      [([str ("proj")], .dir 0o755),
       ([str ("proj"), str ("a")], .dir 0o755),
       ([str ("proj"), str ("a"), str ("index.wxml")],
          .file 0o644 (str ("<view wx:if=\x22x\x22></view>"))),
       ([str ("proj"), str ("app.js")], .file 0o644 (str ("wx.request(\x7b\x7d)"))),
       ([str ("proj"), str ("b.wxss")], .file 0o600 (str (".a \x7b\x7d"))),
       ([str ("proj"), str ("run.sh")], .file 0o755 (str ("#!/bin/sh")))]
    umask := 0o022 }

/-- The state after `CopyDirectory` on the source tree of the scenarios. -/
def demoCopied : FS :=
  match demoConverter.CopyDirectory demoSource 3 with
  | some (_, fs) => fs
  | none => demoSource

/-- The state after `RenameFiles` on `demoCopied`. -/
def demoConverted : FS :=
  match demoConverter.RenameFiles demoCopied 3 with
  | some o => o.fs
  | none => demoCopied

/-- The state after `ReplaceTextInFiles` on `demoConverted`. -/
def demoRewritten : FS :=
  match demoConverter.ReplaceTextInFiles demoConverted 3 with
  | some o => o.fs
  | none => demoConverted

/-- A source tree with a directory named `tpl.wxml`, beside a destination left by an
earlier run that holds `old.txt`. -/
def demoStale : FS :=
  { entries :=
      [([str ("proj")], .dir 0o755),
       ([str ("proj"), str ("tpl.wxml")], .dir 0o755),
       ([str ("proj"), str ("tpl.wxml"), str ("x.wxml")], .file 0o644 (str ("<view/>"))),
       ([str ("proj_tt")], .dir 0o755),
       ([str ("proj_tt"), str ("old.txt")], .file 0o644 (str ("old")))]
    umask := 0o022 }

/-- The state after `CopyDirectory` on `demoStale`. -/
def demoStaleCopied : FS :=
  match demoConverter.CopyDirectory demoStale 3 with
  | some (_, fs) => fs
  | none => demoStale

/-- The state after `RenameFiles` on `demoStaleCopied`. -/
def demoStaleConverted : FS :=
  match demoConverter.RenameFiles demoStaleCopied 3 with
  | some o => o.fs
  | none => demoStaleCopied

/-- A destination tree in which the file `z.wxml` lies beside a directory named `z.ttml`,
and `a.wxml` beside them. -/
def demoClash : FS :=
  { entries :=
      [([str ("proj_tt")], .dir 0o755),
       ([str ("proj_tt"), str ("a.wxml")], .file 0o644 (str ("<text/>"))),
       ([str ("proj_tt"), str ("z.ttml")], .dir 0o755),
       ([str ("proj_tt"), str ("z.wxml")], .file 0o644 (str ("<view/>")))]
    umask := 0o022 }

/-- The state after `RenameFiles` on `demoClash`. -/
def demoClashRenamed : FS :=
  match demoConverter.RenameFiles demoClash 3 with
  | some o => o.fs
  | none => demoClash

/-- A table of text rules in which the order matters: on `.txt` files `a` becomes `b`, then
`b` becomes `c`; a third rule is for `.md` files. -/
def demoRules : List TextReplacement :=
  [⟨str (".txt"), str ("a"), str ("b")⟩,
   ⟨str (".md"), str ("#"), str ("=")⟩,
   ⟨str (".txt"), str ("b"), str ("c")⟩]

/-- A converter with the table `demoRules` for the directory `docs`. -/
def docsConverter : FileConverter :=
  { SourceDirectory := str ("src")
    DestinationDirectory := str ("docs")
    Extensions := []
    TextReplacements := demoRules }

/-- The directory `docs` with `notes.txt` and a file `README` without extension. -/
def demoDocs : FS :=
  { entries :=
      [([str ("docs")], .dir 0o755),
       ([str ("docs"), str ("README")], .file 0o644 (str ("ab #"))),
       ([str ("docs"), str ("notes.txt")], .file 0o644 (str ("ab #")))]
    umask := 0o022 }

/-- The state after `ReplaceTextInFiles` on `demoDocs`. -/
def demoDocsRewritten : FS :=
  match docsConverter.ReplaceTextInFiles demoDocs 3 with
  | some o => o.fs
  | none => demoDocs

/-- A destination tree with names of every kind: no extension, the extension `.WXML`, a
file `x.wxml` beside a file `x.ttml`, and a directory `a` with `index.wxml`. -/
def demoNames : FS :=
  { entries :=
      [([str ("proj_tt")], .dir 0o755),
       ([str ("proj_tt"), str ("Makefile")], .file 0o644 (str ("all:"))),
       ([str ("proj_tt"), str ("README.WXML")], .file 0o644 (str ("wx notes"))),
       ([str ("proj_tt"), str ("a")], .dir 0o755),
       ([str ("proj_tt"), str ("a"), str ("index.wxml")],
          .file 0o644 (str ("<view wx:if=\x22x\x22></view>"))),
       ([str ("proj_tt"), str ("b.wxss")], .file 0o600 (str (".a \x7b\x7d"))),
       ([str ("proj_tt"), str ("x.ttml")], .file 0o644 (str ("old"))),
       ([str ("proj_tt"), str ("x.wxml")], .file 0o644 (str ("new")))]
    umask := 0o022 }

/-- The state after `RenameFiles` on `demoNames`. -/
def demoNamesRenamed : FS :=
  match demoConverter.RenameFiles demoNames 3 with
  | some o => o.fs
  | none => demoNames

/-- The converter `main` builds for the source directory `proj/`. -/
def nestedConverter : FileConverter :=
  { SourceDirectory := str ("proj/")
    DestinationDirectory := destinationOf (str ("proj/"))
    Extensions := mainExtensions
    TextReplacements := mainTextReplacements }

/-- The state after `CopyDirectory` from `proj/` on the source tree of the scenarios. -/
def demoInsideCopied : FS :=
  match nestedConverter.CopyDirectory demoSource 3 with
  | some (_, fs) => fs
  | none => demoSource

/-- The state after `RenameFiles` on `demoInsideCopied`. -/
def demoInsideConverted : FS :=
  match nestedConverter.RenameFiles demoInsideCopied 3 with
  | some o => o.fs
  | none => demoInsideCopied

/-- A source tree that holds its own destination, left by an earlier run: `proj` holds
`a.wxml` and the directory `proj_tt` with `old.txt`. -/
def demoNested : FS :=
  { entries :=
      [([str ("proj")], .dir 0o755),
       ([str ("proj"), str ("a.wxml")], .file 0o644 (str ("<view/>"))),
       ([str ("proj"), str ("proj_tt")], .dir 0o755),
       ([str ("proj"), str ("proj_tt"), str ("old.txt")], .file 0o644 (str ("old")))]
    umask := 0o022 }

/-- The state after `CopyDirectory` on `demoNested`. -/
def demoNestedCopied : FS :=
  match nestedConverter.CopyDirectory demoNested 4 with
  | some (_, fs) => fs
  | none => demoNested

/-- The state after `RenameFiles` on `demoNestedCopied`. -/
def demoNestedConverted : FS :=
  match nestedConverter.RenameFiles demoNestedCopied 4 with
  | some o => o.fs
  | none => demoNestedCopied

/-- A name of 255 bytes, the byte `c` repeated. -/
def longName (c : Nat) : GoString := List.replicate 255 c

/-- The place `k` levels deep along directories named `longName 97`. -/
def deepChain : Nat → Path
  | 0 => []
  | k + 1 => deepChain k ++ [longName 97]

/-- A destination root fifteen levels deep. -/
def deepRoot : Path := deepChain 15 ++ [str ("proj_tt")]

/-- A destination tree that lies deep: the path name of its root has 3847 bytes, and it
holds a directory with a name of 255 bytes beside the files `z.js` and `z.ttml`. -/
def deepTree : FS :=
  { entries := (List.range 15).map (fun k => (deepChain (k + 1), Inode.dir 0o755)) ++
      [(deepRoot, .dir 0o755),
       (deepRoot ++ [longName 98], .dir 0o755),
       (deepRoot ++ [str ("z.js")], .file 0o644 (str ("wx.request(\x7b\x7d)"))),
       (deepRoot ++ [str ("z.ttml")], .file 0o644 (str ("<view wx:if=\x22x\x22></view>")))]
    umask := 0o022 }

/-- The converter for the destination `deepRoot`. -/
def deepConverter : FileConverter :=
  { SourceDirectory := str ("proj")
    DestinationDirectory := joinSep deepRoot
    Extensions := mainExtensions
    TextReplacements := mainTextReplacements }

/-! ## Theorems -/

theorem HasPrefix_iff (s pre : GoString) : HasPrefix s pre = true ↔ pre <+: s := by
  unfold HasPrefix
  rw [List.prefix_iff_eq_take]
  simp only [Bool.and_eq_true, decide_eq_true_eq]
  constructor
  · rintro ⟨_, h⟩; exact h.symm
  · intro h
    refine ⟨?_, h.symm⟩
    have := congrArg List.length h
    simp at this
    omega

theorem HasSuffix_iff (s suf : GoString) : HasSuffix s suf = true ↔ suf <:+ s := by
  unfold HasSuffix
  rw [List.suffix_iff_eq_drop]
  simp only [Bool.and_eq_true, decide_eq_true_eq]
  constructor
  · rintro ⟨_, h⟩; exact h.symm
  · intro h
    refine ⟨?_, h.symm⟩
    have := congrArg List.length h
    simp at this
    omega

theorem TrimSuffix_append (stem suf : GoString) : TrimSuffix (stem ++ suf) suf = stem := by
  unfold TrimSuffix
  have h : HasSuffix (stem ++ suf) suf = true := (HasSuffix_iff _ _).2 (List.suffix_append _ _)
  simp [h]

theorem Index_cons (c : Nat) (t sub : GoString) :
    Index (c :: t) sub =
      if sub <+: c :: t then some 0 else (Index t sub).map (· + 1) := by
  rw [Index]
  by_cases h : sub <+: c :: t
  · simp [h, (HasPrefix_iff _ _).2 h]
  · have h2 : HasPrefix (c :: t) sub = false := by
      rw [← Bool.not_eq_true, HasPrefix_iff]; exact h
    simp only [h2, h, if_false]
    cases Index t sub <;> simp

theorem Index_nil (sub : GoString) : Index [] sub = if sub = [] then some 0 else none := by
  rw [Index]
  by_cases h : sub = []
  · subst h; simp [HasPrefix]
  · have : HasPrefix [] sub = false := by
      rw [← Bool.not_eq_true, HasPrefix_iff]; simpa using h
    simp [this, h]

theorem Index_eq_none_iff (s sub : GoString) : Index s sub = none ↔ ¬ sub <:+: s := by
  induction s with
  | nil =>
    rw [Index_nil]
    by_cases h : sub = [] <;> simp [h]
  | cons c t ih =>
    rw [Index_cons, List.infix_cons_iff]
    by_cases h : sub <+: c :: t
    · simp [h]
    · simp [h, ih]

theorem Index_zero_iff (s sub : GoString) : Index s sub = some 0 ↔ sub <+: s := by
  cases s with
  | nil =>
    rw [Index_nil]
    by_cases h : sub = [] <;> simp [h]
  | cons c t =>
    rw [Index_cons]
    by_cases h : sub <+: c :: t
    · simp [h]
    · simp only [h, if_false, iff_false]
      cases Index t sub <;> simp

/-- What a successful `Index` says: the instance is at `j`. -/
theorem Index_some_split (s sub : GoString) (j : Nat) (h : Index s sub = some j) :
    s = s.take j ++ sub ++ s.drop (j + sub.length) := by
  induction s generalizing j with
  | nil =>
    rw [Index_nil] at h
    by_cases hs : sub = []
    · subst hs; simp
    · simp [hs] at h
  | cons c t ih =>
    rw [Index_cons] at h
    by_cases hp : sub <+: c :: t
    · simp only [hp, if_true, Option.some.injEq] at h
      subst h
      obtain ⟨r, hr⟩ := hp
      rw [← hr]; simp
    · simp only [hp, if_false] at h
      cases hi : Index t sub with
      | none => simp [hi] at h
      | some i =>
        simp only [hi, Option.map_some', Option.some.injEq] at h
        subst h
        have := ih i hi
        simp only [List.take_succ_cons, List.cons_append]
        rw [show i + 1 + sub.length = (i + sub.length) + 1 by omega, List.drop_succ_cons]
        exact congrArg (c :: ·) this

theorem Index_some_le (s sub : GoString) (j : Nat) (h : Index s sub = some j) :
    j + sub.length ≤ s.length := by
  induction s generalizing j with
  | nil =>
    rw [Index_nil] at h
    by_cases hs : sub = []
    · subst hs; simp at h; simp [← h]
    · simp [hs] at h
  | cons c t ih =>
    rw [Index_cons] at h
    by_cases hp : sub <+: c :: t
    · simp only [hp, if_true, Option.some.injEq] at h
      subst h
      simpa using hp.length_le
    · simp only [hp, if_false] at h
      cases hi : Index t sub with
      | none => simp [hi] at h
      | some i =>
        simp only [hi, Option.map_some', Option.some.injEq] at h
        subst h
        have := ih i hi
        simp only [List.length_cons]
        omega

theorem countLoop_fuel (old : GoString) (hold : old ≠ []) :
    ∀ (f1 f2 : Nat) (s : GoString), s.length < f1 → s.length < f2 →
      countLoop old f1 s = countLoop old f2 s := by
  intro f1
  induction f1 with
  | zero => intro f2 s h; omega
  | succ f1 ih =>
    intro f2 s h1 h2
    cases f2 with
    | zero => omega
    | succ f2 =>
      simp only [countLoop]
      cases hi : Index s old with
      | none => rfl
      | some i =>
        simp only
        have hle := Index_some_le s old i hi
        have hpos : 0 < old.length := List.length_pos.2 hold
        have hd : (s.drop (i + old.length)).length < s.length := by
          simp only [List.length_drop]; omega
        rw [ih f2 _ (by omega) (by omega)]

theorem replaceLoop_counter (old new : GoString) (hold : old ≠ []) :
    ∀ (k i : Nat) (s : GoString), replaceLoop old new k i s = replaceLoop old new k 0 s := by
  intro k
  have hlen : old.length ≠ 0 := by simpa using hold
  induction k with
  | zero => intro i s; simp [replaceLoop]
  | succ k ih =>
    intro i s
    simp only [replaceLoop, hlen, if_false]
    cases Index s old with
    | none => rfl
    | some j => simp only; rw [ih (i + 1), ih (0 + 1)]

theorem ReplaceAll_eq_loop (s old new : GoString) (hne : old ≠ new) :
    ReplaceAll s old new = replaceLoop old new (Count s old) 0 s := by
  unfold ReplaceAll Replace
  simp only [hne, false_or, show ((-1 : Int) = 0) = False by simp, if_false]
  by_cases hc : Count s old = 0
  · simp [hc, replaceLoop]
  · simp [hc]

/-- The unfolding equation of `ReplaceAll` for a non-empty `old`: the text up to the first
instance, `new`, and the replacement of what follows the instance. -/
theorem ReplaceAll_unfold (s old new : GoString) (hold : old ≠ []) :
    ReplaceAll s old new =
      match Index s old with
      | none => s
      | some j => s.take j ++ new ++ ReplaceAll (s.drop (j + old.length)) old new := by
  by_cases hne : old = new
  · subst hne
    have hself : ∀ t : GoString, ReplaceAll t old old = t := by
      intro t; unfold ReplaceAll Replace; simp
    cases hi : Index s old with
    | none => simp [hself]
    | some j => simp only [hself]; exact Index_some_split s old j hi
  · have hlen : old.length ≠ 0 := by simpa using hold
    rw [ReplaceAll_eq_loop s old new hne]
    cases hi : Index s old with
    | none =>
      have : Count s old = 0 := by
        unfold Count; simp only [hlen, if_false, countLoop, hi]
      simp [this, replaceLoop]
    | some j =>
      have hle := Index_some_le s old j hi
      have hpos : 0 < old.length := List.length_pos.2 hold
      have hd : (s.drop (j + old.length)).length < s.length := by
        simp only [List.length_drop]; omega
      have hcount : Count s old = Count (s.drop (j + old.length)) old + 1 := by
        have e1 : countLoop old (s.length + 1) s
            = 1 + countLoop old s.length (s.drop (j + old.length)) := by
          simp only [countLoop, hi]
        unfold Count
        simp only [hlen, if_false]
        rw [e1, countLoop_fuel old hold s.length ((s.drop (j + old.length)).length + 1) _ hd
          (by omega)]
        omega
      rw [hcount]
      simp only [replaceLoop, hlen, if_false, hi]
      rw [replaceLoop_counter old new hold, ReplaceAll_eq_loop _ old new hne]

theorem ReplaceAll_nil (old new : GoString) (hold : old ≠ []) : ReplaceAll [] old new = [] := by
  rw [ReplaceAll_unfold _ _ _ hold, Index_nil]; simp [hold]

theorem ReplaceAll_at_instance (s old new : GoString) (hold : old ≠ []) (h : old <+: s) :
    ReplaceAll s old new = new ++ ReplaceAll (s.drop old.length) old new := by
  rw [ReplaceAll_unfold _ _ _ hold, (Index_zero_iff s old).2 h]; simp

theorem ReplaceAll_cons_skip (c : Nat) (t old new : GoString) (hold : old ≠ [])
    (h : ¬ old <+: c :: t) : ReplaceAll (c :: t) old new = c :: ReplaceAll t old new := by
  rw [ReplaceAll_unfold _ _ _ hold, Index_cons]
  simp only [h, if_false]
  rw [ReplaceAll_unfold t _ _ hold]
  cases Index t old with
  | none => simp
  | some j =>
    simp only [Option.map_some', List.take_succ_cons, List.cons_append]
    rw [show j + 1 + old.length = (j + old.length) + 1 by omega, List.drop_succ_cons]

/-- A content without an instance of `old` is returned as it is. -/
theorem ReplaceAll_absent (s old new : GoString) (h : ¬ old <:+: s) :
    ReplaceAll s old new = s := by
  have hold : old ≠ [] := by
    rintro rfl; exact h List.nil_infix
  rw [ReplaceAll_unfold _ _ _ hold, (Index_eq_none_iff s old).2 h]

theorem not_prefix_append_of_mismatch (q u x : GoString) (h1 : ¬ u <+: q) (h2 : ¬ q <+: u) :
    ¬ q <+: u ++ x := by
  intro h
  rcases List.prefix_or_prefix_of_prefix h (List.prefix_append u x) with h3 | h3
  · exact h2 h3
  · exact h1 h3

/-- While the first byte of `new` does not occur in `q`, a prefix `q` of the rewritten
content is a prefix of the content itself. -/
theorem prefix_of_prefix_ReplaceAll (old new : GoString) (hold : old ≠ []) (hnew : new ≠ []) :
    ∀ (q : GoString), (∀ b ∈ new.head?, b ∉ q) → ∀ s : GoString,
      q <+: ReplaceAll s old new → q <+: s := by
  intro q
  induction q with
  | nil => intro _ s _; exact List.nil_prefix
  | cons b q ih =>
    intro hB s h
    cases s with
    | nil => rw [ReplaceAll_nil _ _ hold] at h; simp at h
    | cons c t =>
      by_cases hp : old <+: c :: t
      · rw [ReplaceAll_at_instance _ _ _ hold hp] at h
        cases new with
        | nil => exact absurd rfl hnew
        | cons n0 new1 =>
          simp only [List.cons_append, List.cons_prefix_cons] at h
          exact absurd (List.mem_cons_self b q) (h.1 ▸ hB n0 (by simp))
      · rw [ReplaceAll_cons_skip _ _ _ _ hold hp, List.cons_prefix_cons] at h
        rw [List.cons_prefix_cons]
        exact ⟨h.1, ih (fun x hx hm => hB x hx (List.mem_cons_of_mem _ hm)) t h.2⟩

theorem ReplaceAll_none_left_aux (old new q : GoString) (a : Nat) (q1 : GoString)
    (hq : q = a :: q1) (hold : old ≠ []) (hnew : new ≠ [])
    (hA : ∀ u ∈ new.tails, u ≠ [] → ¬ u <+: q ∧ ¬ q <+: u)
    (hB : ∀ b ∈ new.head?, b ∉ q1) :
    ∀ (n : Nat) (s : GoString), s.length ≤ n → (q = old ∨ ¬ q <:+: s) →
      ∀ u : GoString, u <:+ new → ¬ q <:+: u ++ ReplaceAll s old new := by
  intro n
  induction n with
  | zero =>
    intro s hlen _ u
    have hs : s = [] := List.length_eq_zero.1 (Nat.le_zero.1 hlen)
    subst hs
    rw [ReplaceAll_nil _ _ hold]
    induction u with
    | nil => intro _ h; subst hq; simp at h
    | cons b u ihu =>
      intro hu h
      rw [List.append_nil] at h ihu
      rcases List.infix_cons_iff.1 h with h1 | h1
      · have := hA (b :: u) ((List.mem_tails _ _).2 hu) (by simp)
        exact this.2 h1
      · exact ihu ((List.suffix_cons b u).trans hu) h1
  | succ n ih =>
    intro s hlen hs u
    induction u with
    | nil =>
      intro _ h
      rw [List.nil_append] at h
      cases s with
      | nil => rw [ReplaceAll_nil _ _ hold] at h; subst hq; simp at h
      | cons c t =>
        have hlt : t.length ≤ n := by simpa using hlen
        have hst : q = old ∨ ¬ q <:+: t := by
          rcases hs with hs | hs
          · exact Or.inl hs
          · exact Or.inr (fun hi => hs (List.infix_cons hi))
        by_cases hp : old <+: c :: t
        · rw [ReplaceAll_at_instance _ _ _ hold hp] at h
          have hpos : 0 < old.length := List.length_pos.2 hold
          refine ih ((c :: t).drop old.length) ?_ ?_ new (List.suffix_refl _) h
          · simp only [List.length_drop, List.length_cons]; omega
          · rcases hs with hs | hs
            · exact Or.inl hs
            · exact Or.inr (fun hi => hs (hi.trans (List.drop_suffix _ _).isInfix))
        · rw [ReplaceAll_cons_skip _ _ _ _ hold hp] at h
          rcases List.infix_cons_iff.1 h with h1 | h1
          · subst hq
            rw [List.cons_prefix_cons] at h1
            have h2 := prefix_of_prefix_ReplaceAll old new hold hnew q1 hB t h1.2
            have h3 : (a :: q1) <+: c :: t := by
              rw [List.cons_prefix_cons]; exact ⟨h1.1, h2⟩
            rcases hs with hs | hs
            · exact hp (hs ▸ h3)
            · exact hs h3.isInfix
          · exact ih t hlt hst [] (List.nil_suffix) (by simpa using h1)
    | cons b u ihu =>
      intro hu h
      rw [List.cons_append] at h
      rcases List.infix_cons_iff.1 h with h1 | h1
      · have := hA (b :: u) ((List.mem_tails _ _).2 hu) (by simp)
        exact not_prefix_append_of_mismatch q (b :: u) _ this.1 this.2 (by simpa using h1)
      · exact ihu ((List.suffix_cons b u).trans hu) h1

/-- No instance of `q` is left (or introduced) by replacing `old` with `new`, when `q` is
`old` itself or does not occur in the content, provided `q` disagrees with every non-empty
suffix of `new` and the first byte of `new` does not occur in `q` after its first byte. -/
theorem ReplaceAll_none_left (old new q : GoString) (a : Nat) (q1 : GoString)
    (hq : q = a :: q1) (hold : old ≠ []) (hnew : new ≠ [])
    (hA : ∀ u ∈ new.tails, u ≠ [] → ¬ u <+: q ∧ ¬ q <+: u)
    (hB : ∀ b ∈ new.head?, b ∉ q1)
    (s : GoString) (hs : q = old ∨ ¬ q <:+: s) : ¬ q <:+: ReplaceAll s old new := by
  have := ReplaceAll_none_left_aux old new q a q1 hq hold hnew hA hB s.length s (le_refl _) hs []
    List.nil_suffix
  simpa using this

/-! ### The extension -/

theorem extLoop_suffix (path : GoString) : ∀ n : Nat, extLoop path n <:+ path := by
  intro n
  induction n with
  | zero => exact List.nil_suffix
  | succ i ih =>
    simp only [extLoop]
    cases path.get? i with
    | none => exact List.nil_suffix
    | some c =>
      simp only
      split_ifs
      · exact List.nil_suffix
      · exact List.drop_suffix _ _
      · exact ih

theorem Ext_suffix (path : GoString) : Ext path <:+ path := extLoop_suffix path _

/-! ### The file system -/

theorem lookupEntry_filter_ne (es : List (Path × Inode)) (p q : Path) (h : q ≠ p) :
    lookupEntry (es.filter (fun e => !decide (e.1 = p))) q = lookupEntry es q := by
  induction es with
  | nil => rfl
  | cons e es ih =>
    obtain ⟨k, i⟩ := e
    by_cases hk : k = p
    · subst hk
      have : k ≠ q := fun h2 => h h2.symm
      simp [List.filter, lookupEntry, ih, this]
    · rw [List.filter_cons_of_pos (by simpa using hk)]
      simp only [lookupEntry, ih]

theorem lookupEntry_filter_self (es : List (Path × Inode)) (p : Path) :
    lookupEntry (es.filter (fun e => !decide (e.1 = p))) p = none := by
  induction es with
  | nil => rfl
  | cons e es ih =>
    obtain ⟨k, i⟩ := e
    by_cases hk : k = p
    · simp [List.filter, hk, ih]
    · simp [List.filter, lookupEntry, hk, ih]

theorem lookup_set_self (fs : FS) (p : Path) (i : Inode) (hp : p ≠ []) :
    (fs.set p i).lookup p = some i := by
  simp [FS.lookup, FS.set, hp, lookupEntry]

theorem lookup_set_ne (fs : FS) (p q : Path) (i : Inode) (h : q ≠ p) :
    (fs.set p i).lookup q = fs.lookup q := by
  unfold FS.lookup FS.set
  by_cases hq : q = []
  · simp [hq]
  · have : p ≠ q := fun h2 => h h2.symm
    simp only [hq, if_false, lookupEntry, this]
    exact lookupEntry_filter_ne _ _ _ h

theorem lookup_remove_self (fs : FS) (p : Path) (hp : p ≠ []) :
    (fs.remove p).lookup p = none := by
  simp [FS.lookup, FS.remove, hp, lookupEntry_filter_self]

theorem lookup_remove_ne (fs : FS) (p q : Path) (h : q ≠ p) :
    (fs.remove p).lookup q = fs.lookup q := by
  unfold FS.lookup FS.remove
  by_cases hq : q = []
  · simp [hq]
  · simp only [hq, if_false]
    exact lookupEntry_filter_ne _ _ _ h

/-- Two states whose entries are of the same kind everywhere resolve names alike. -/
theorem step_congr (fs fs1 : FS)
    (hk : ∀ q, (fs1.lookup q).map Inode.isDir = (fs.lookup q).map Inode.isDir)
    (cur : Path) (seg : GoString) : step fs1 cur seg = step fs cur seg := by
  have h := hk cur
  unfold step
  cases h1 : fs1.lookup cur with
  | none =>
    cases h2 : fs.lookup cur with
    | none => rfl
    | some j => simp [h1, h2] at h
  | some i =>
    cases h2 : fs.lookup cur with
    | none => simp [h1, h2] at h
    | some j =>
      cases i <;> cases j <;> simp [h1, h2, Inode.isDir] at h ⊢

theorem resolveFrom_congr (fs fs1 : FS)
    (hk : ∀ q, (fs1.lookup q).map Inode.isDir = (fs.lookup q).map Inode.isDir)
    (segs : List GoString) : ∀ cur : Path, resolveFrom fs1 cur segs = resolveFrom fs cur segs := by
  induction segs with
  | nil => intro cur; rfl
  | cons seg rest ih =>
    intro cur
    simp only [resolveFrom, step_congr fs fs1 hk]
    cases step fs cur seg with
    | error e => rfl
    | ok next => exact ih next

theorem resolve_congr (fs fs1 : FS)
    (hk : ∀ q, (fs1.lookup q).map Inode.isDir = (fs.lookup q).map Inode.isDir)
    (path : GoString) : resolve fs1 path = resolve fs path := by
  unfold resolve denote
  split_ifs
  · rfl
  · rfl
  · exact resolveFrom_congr fs fs1 hk _ _

theorem file_path_ne_nil (fs : FS) (p : Path) (m : Nat) (c : GoString)
    (h : fs.lookup p = some (.file m c)) : p ≠ [] := by
  rintro rfl
  simp [FS.lookup] at h

/-- Writing a regular file changes its content and nothing else. -/
theorem replaceInFile_spec (path extension : GoString) (mode : Nat) :
    ∀ (rules : List TextReplacement) (fs : FS) (p : Path) (m : Nat) (content : GoString),
      resolve fs path = .ok p → fs.lookup p = some (.file m content) →
      ∃ fs1, replaceInFile path extension mode rules fs = (none, fs1) ∧
        resolve fs1 path = .ok p ∧
        fs1.lookup p = some (.file m (rewriteContent extension rules content)) ∧
        (∀ q, q ≠ p → fs1.lookup q = fs.lookup q) ∧
        ((∀ r ∈ rules, r.Extension ≠ extension) → fs1 = fs) := by
  intro rules
  induction rules with
  | nil =>
    intro fs p m content hres hfile
    exact ⟨fs, rfl, hres, hfile, fun _ _ => rfl, fun _ => rfl⟩
  | cons r rest ih =>
    intro fs p m content hres hfile
    have hp := file_path_ne_nil fs p m content hfile
    by_cases hx : extension = r.Extension
    · let fs1 := fs.set p (.file m (ReplaceAll content r.OldStr r.NewStr))
      have hkind : ∀ q, (fs1.lookup q).map Inode.isDir = (fs.lookup q).map Inode.isDir := by
        intro q
        by_cases hq : q = p
        · subst hq; simp [fs1, lookup_set_self _ _ _ hp, hfile, Inode.isDir]
        · simp [fs1, lookup_set_ne _ _ _ _ hq]
      have hres1 : resolve fs1 path = .ok p := by
        rw [resolve_congr fs fs1 hkind]; exact hres
      obtain ⟨fs2, h1, h2, h3, h4, _⟩ :=
        ih fs1 p m (ReplaceAll content r.OldStr r.NewStr) hres1 (lookup_set_self _ _ _ hp)
      refine ⟨fs2, ?_, h2, ?_, ?_, ?_⟩
      · rw [replaceInFile, if_pos hx]
        simp only [ioutil_ReadFile, ioutil_WriteFile, hres, hfile]
        exact h1
      · rw [rewriteContent, if_pos hx]; exact h3
      · intro q hq
        rw [h4 q hq]; exact lookup_set_ne _ _ _ _ hq
      · intro hall
        exact absurd hx.symm (hall r (List.mem_cons_self _ _))
    · obtain ⟨fs2, h1, h2, h3, h4, h5⟩ := ih fs p m content hres hfile
      refine ⟨fs2, ?_, h2, ?_, h4, ?_⟩
      · rw [replaceInFile, if_neg hx]
        exact h1
      · rw [rewriteContent, if_neg hx]; exact h3
      · intro hall
        exact h5 (fun r1 hr1 => hall r1 (List.mem_cons_of_mem _ hr1))

/-- The content the code computes is the fold the specification describes. -/
theorem rewriteContent_eq_fold (e : GoString) :
    ∀ (rules : List TextReplacement) (content : GoString),
      rewriteContent e rules content = foldMatchingRules rules e content := by
  intro rules
  induction rules with
  | nil => intro content; rfl
  | cons r rest ih =>
    intro content
    unfold foldMatchingRules at ih ⊢
    by_cases hx : e = r.Extension
    · rw [rewriteContent, if_pos hx, ih]
      simp [List.filter, hx]
    · have hx2 : ¬ r.Extension = e := fun h => hx h.symm
      rw [rewriteContent, if_neg hx, ih]
      simp [List.filter, hx2]

theorem extLoop_append_dot (stem rest : GoString) (h1 : dot ∉ rest) (h2 : sep ∉ rest) :
    ∀ k : Nat, k ≤ rest.length →
      extLoop (stem ++ dot :: rest) (stem.length + 1 + k) = dot :: rest := by
  intro k
  induction k with
  | zero =>
    intro _
    have hget : (stem ++ dot :: rest).get? stem.length = some dot := by
      rw [List.get?_eq_getElem?, List.getElem?_append_right (le_refl _)]
      simp
    have hds : dot ≠ sep := by decide
    simp only [Nat.add_zero, extLoop, hget, hds, if_false, if_true]
    simp
  | succ k ih =>
    intro hk
    have hlt : k < rest.length := hk
    have hget : (stem ++ dot :: rest).get? (stem.length + 1 + k) = some (rest.get ⟨k, hlt⟩) := by
      rw [List.get?_eq_getElem?, List.getElem?_append_right (by omega)]
      rw [show stem.length + 1 + k - stem.length = k + 1 by omega]
      simp [List.getElem?_eq_getElem hlt]
    have hmem : rest.get ⟨k, hlt⟩ ∈ rest := List.get_mem _ _ _
    have hs : rest.get ⟨k, hlt⟩ ≠ sep := fun h => h2 (h ▸ hmem)
    have hd : rest.get ⟨k, hlt⟩ ≠ dot := fun h => h1 (h ▸ hmem)
    rw [show stem.length + 1 + (k + 1) = (stem.length + 1 + k) + 1 by omega]
    simp only [extLoop, hget, hs, hd, if_false]
    exact ih (by omega)

/-- The extension of a path that ends in a dot followed by bytes other than dots and
separators is that ending. -/
theorem Ext_append_dot (stem rest : GoString) (h1 : dot ∉ rest) (h2 : sep ∉ rest) :
    Ext (stem ++ dot :: rest) = dot :: rest := by
  unfold Ext
  have hlen : (stem ++ dot :: rest).length = stem.length + 1 + rest.length := by
    simp only [List.length_append, List.length_cons]; omega
  rw [hlen]
  exact extLoop_append_dot stem rest h1 h2 rest.length (le_refl _)

theorem str_wxml : str (".wxml") = [46, 119, 120, 109, 108] := by decide
theorem str_ttml : str (".ttml") = [46, 116, 116, 109, 108] := by decide
theorem str_wxss : str (".wxss") = [46, 119, 120, 115, 115] := by decide
theorem str_ttss : str (".ttss") = [46, 116, 116, 115, 115] := by decide
theorem str_js : str (".js") = [46, 106, 115] := by decide
theorem str_ts : str (".ts") = [46, 116, 115] := by decide
theorem str_wx_colon : str ("wx:") = [119, 120, 58] := by decide
theorem str_tt_colon : str ("tt:") = [116, 116, 58] := by decide
theorem str_wx_dot : str ("wx.") = [119, 120, 46] := by decide
theorem str_tt_dot : str ("tt.") = [116, 116, 46] := by decide

/-- The content of a `.ttml` file after the rules of `main`. -/
theorem rewriteContent_ttml (C : GoString) :
    rewriteContent (str (".ttml")) mainTextReplacements C =
      ReplaceAll (ReplaceAll C (str ("wx:")) (str ("tt:"))) (str (".wxml")) (str (".ttml")) := by
  simp [rewriteContent, mainTextReplacements, str]

theorem rewriteContent_js (C : GoString) :
    rewriteContent (str (".js")) mainTextReplacements C =
      ReplaceAll C (str ("wx.")) (str ("tt.")) := by
  simp [rewriteContent, mainTextReplacements, str]

theorem rewriteContent_ts (C : GoString) :
    rewriteContent (str (".ts")) mainTextReplacements C =
      ReplaceAll C (str ("wx.")) (str ("tt.")) := by
  simp [rewriteContent, mainTextReplacements, str]

/-- Replacing `wx:` by `tt:` leaves no `wx:`. -/
theorem no_wx_colon_after_first (C : GoString) :
    ¬ str ("wx:") <:+: ReplaceAll C (str ("wx:")) (str ("tt:")) := by
  refine ReplaceAll_none_left (str ("wx:")) (str ("tt:")) (str ("wx:")) 119 [120, 58]
    (by decide) (by decide) (by decide) (by decide) (by decide) C (Or.inl rfl)

/-- Replacing `.wxml` by `.ttml` leaves no `.wxml`. -/
theorem no_wxml_after_second (C : GoString) :
    ¬ str (".wxml") <:+: ReplaceAll C (str (".wxml")) (str (".ttml")) := by
  refine ReplaceAll_none_left (str (".wxml")) (str (".ttml")) (str (".wxml")) 46
    [119, 120, 109, 108] (by decide) (by decide) (by decide) (by decide) (by decide) C
    (Or.inl rfl)

/-- Replacing `.wxml` by `.ttml` introduces no `wx:`. -/
theorem no_wx_colon_after_second (C : GoString) (h : ¬ str ("wx:") <:+: C) :
    ¬ str ("wx:") <:+: ReplaceAll C (str (".wxml")) (str (".ttml")) := by
  refine ReplaceAll_none_left (str (".wxml")) (str (".ttml")) (str ("wx:")) 119 [120, 58]
    (by decide) (by decide) (by decide) (by decide) (by decide) C (Or.inr h)

/-- Replacing `wx.` by `tt.` leaves no `wx.`. -/
theorem no_wx_dot_after (C : GoString) :
    ¬ str ("wx.") <:+: ReplaceAll C (str ("wx.")) (str ("tt.")) := by
  refine ReplaceAll_none_left (str ("wx.")) (str ("tt.")) (str ("wx.")) 119 [120, 46]
    (by decide) (by decide) (by decide) (by decide) (by decide) C (Or.inl rfl)

/-- What the function of `ReplaceTextInFiles` does to a regular file. -/
theorem replaceFn_file (fc : FileConverter) (path : GoString) (info : FileInfo)
    (hfile : info.isDir = false) (fs : FS) (p : Path) (m : Nat) (C : GoString)
    (hres : resolve fs path = .ok p) (hlook : fs.lookup p = some (.file m C)) :
    ∃ fs1, fc.replaceFn path (some info) none fs = (none, fs1) ∧
      resolve fs1 path = .ok p ∧
      fs1.lookup p = some (.file m (rewriteContent (Ext path) fc.TextReplacements C)) ∧
      (∀ q, q ≠ p → fs1.lookup q = fs.lookup q) ∧
      ((∀ r ∈ fc.TextReplacements, r.Extension ≠ Ext path) → fs1 = fs) := by
  obtain ⟨fs1, h1, h2, h3, h4, h5⟩ :=
    replaceInFile_spec path (Ext path) info.mode fc.TextReplacements fs p m C hres hlook
  refine ⟨fs1, ?_, h2, h3, h4, h5⟩
  simp only [FileConverter.replaceFn, hfile]
  exact h1

/-- C8: with the rule table of `main`, rewriting a `.ttml` file a second time changes
nothing: the content the second pass leaves is the content the first pass left. -/
theorem C8_ttml_idempotent (fc : FileConverter)
    (hfc : fc.TextReplacements = mainTextReplacements)
    (path : GoString) (info : FileInfo) (hfile : info.isDir = false)
    (fs : FS) (p : Path) (m : Nat) (C : GoString)
    (hres : resolve fs path = .ok p) (hlook : fs.lookup p = some (.file m C))
    (hext : Ext path = str (".ttml")) :
    ∃ fs1 fs2 C1, fc.replaceFn path (some info) none fs = (none, fs1) ∧
      fs1.lookup p = some (.file m C1) ∧
      C1 = rewriteContent (str (".ttml")) mainTextReplacements C ∧
      fc.replaceFn path (some info) none fs1 = (none, fs2) ∧
      fs2.lookup p = some (.file m C1) ∧
      rewriteContent (str (".ttml")) mainTextReplacements
        (rewriteContent (str (".ttml")) mainTextReplacements C)
        = rewriteContent (str (".ttml")) mainTextReplacements C := by
  obtain ⟨fs1, h1, h2, h3, _, _⟩ := replaceFn_file fc path info hfile fs p m C hres hlook
  obtain ⟨fs2, k1, _, k3, _, _⟩ := replaceFn_file fc path info hfile fs1 p m _ h2 h3
  rw [hfc, hext] at h3 k3
  have hidem : rewriteContent (str (".ttml")) mainTextReplacements
      (rewriteContent (str (".ttml")) mainTextReplacements C)
      = rewriteContent (str (".ttml")) mainTextReplacements C := by
    rw [rewriteContent_ttml, rewriteContent_ttml]
    have hA := no_wx_colon_after_second _ (no_wx_colon_after_first C)
    have hB := no_wxml_after_second (ReplaceAll C (str ("wx:")) (str ("tt:")))
    rw [ReplaceAll_absent _ (str ("wx:")) _ hA, ReplaceAll_absent _ (str (".wxml")) _ hB]
  rw [hidem] at k3
  exact ⟨fs1, fs2, _, h1, h3, rfl, k1, k3, hidem⟩

/-- C8, at the file `a/index.ttml` of the scenario. -/
theorem C8_ttml_idempotent_witness :
    ∃ fs1 fs2 C1, demoConverter.replaceFn (str ("proj_tt/a/index.ttml")) (some ⟨false, 0o644⟩)
        none demoRenamed = (none, fs1) ∧
      fs1.lookup [str ("proj_tt"), str ("a"), str ("index.ttml")] = some (.file 0o644 C1) ∧
      C1 = rewriteContent (str (".ttml")) mainTextReplacements
        (str ("<view wx:if=\x22x\x22></view>")) ∧
      demoConverter.replaceFn (str ("proj_tt/a/index.ttml")) (some ⟨false, 0o644⟩) none fs1
        = (none, fs2) ∧
      fs2.lookup [str ("proj_tt"), str ("a"), str ("index.ttml")] = some (.file 0o644 C1) ∧
      rewriteContent (str (".ttml")) mainTextReplacements
        (rewriteContent (str (".ttml")) mainTextReplacements
          (str ("<view wx:if=\x22x\x22></view>")))
        = rewriteContent (str (".ttml")) mainTextReplacements
          (str ("<view wx:if=\x22x\x22></view>")) :=
  C8_ttml_idempotent demoConverter rfl (str ("proj_tt/a/index.ttml")) ⟨false, 0o644⟩ rfl
    demoRenamed [str ("proj_tt"), str ("a"), str ("index.ttml")] 0o644
    (str ("<view wx:if=\x22x\x22></view>")) rfl (by decide) (by decide)

set_option maxRecDepth 100000 in
/-- C4, at the source tree of the scenarios with creation mask `022`: the copy of the
executable `proj/run.sh` (mode `0755`) has mode `0644`, and the copy of `proj/b.wxss`
(mode `0600`) has mode `0644`, while the copies hold the source contents. -/
theorem C4_copy_does_not_keep_mode :
    demoSource.lookup [str ("proj"), str ("run.sh")] = some (.file 0o755 (str ("#!/bin/sh"))) ∧
    demoSource.lookup [str ("proj"), str ("b.wxss")] = some (.file 0o600 (str (".a \x7b\x7d"))) ∧
    (demoConverter.CopyDirectory demoSource 3).map (fun r =>
        (r.1, r.2.lookup [str ("proj_tt"), str ("run.sh")],
          r.2.lookup [str ("proj_tt"), str ("b.wxss")]))
      = some (none, some (.file 0o644 (str ("#!/bin/sh"))),
          some (.file 0o644 (str (".a \x7b\x7d")))) := by
  decide

set_option maxRecDepth 100000 in
/-- C5, at the argument `proj/`: the destination `main` computes is `proj/proj_tt`, a
directory inside the source, and the run creates it there; likewise the destination of
the argument `.` is `._tt`, inside the directory `.` names, while `proj` gives `proj_tt`. -/
theorem C5_destination_inside_source :
    destinationOf (str ("proj/")) = str ("proj/proj_tt") ∧
    destinationOf (str (".")) = str ("._tt") ∧
    destinationOf (str ("proj")) = str ("proj_tt") ∧
    (main [str ("main"), str ("proj/")] demoSource 3).map (fun r =>
        (r.output, r.fs.lookup [str ("proj"), str ("proj_tt")],
          r.fs.lookup [str ("proj"), str ("proj_tt"), str ("a"), str ("index.ttml")],
          r.fs.lookup [str ("proj_tt")]))
      = some ([.renamingCompleted, .replacementCompleted, .conversionCompleted],
          some (.dir 0o755), some (.file 0o644 (str ("<view tt:if=\x22x\x22></view>"))),
          none) := by
  decide

set_option maxRecDepth 100000 in
/-- C7 as stated fails: with two path arguments, `proj` and `extra`, the run is not refused;
the three phases are invoked on `proj` and the conversion completes. -/
theorem C7_two_arguments_are_accepted :
    (main [str ("main"), str ("proj"), str ("extra")] demoSource 3).map
        (fun r => (r.output, r.phases, r.fs.lookup [str ("proj_tt"), str ("a"), str ("index.ttml")]))
      = some ([.renamingCompleted, .replacementCompleted, .conversionCompleted],
          [.copy, .rename, .replace],
          some (.file 0o644 (str ("<view tt:if=\x22x\x22></view>")))) := by
  decide

theorem usage_not_mem_RenameFiles (fc : FileConverter) (fs : FS) (depth : Nat) (o : Outcome)
    (h : fc.RenameFiles fs depth = some o) : Msg.usage ∉ o.output := by
  unfold FileConverter.RenameFiles at h
  split at h
  · simp at h
  · simp only [Option.some.injEq] at h; subst h; simp
  · simp only [Option.some.injEq] at h; subst h; simp

theorem usage_not_mem_ReplaceTextInFiles (fc : FileConverter) (fs : FS) (depth : Nat)
    (o : Outcome) (h : fc.ReplaceTextInFiles fs depth = some o) : Msg.usage ∉ o.output := by
  unfold FileConverter.ReplaceTextInFiles at h
  split at h
  · simp at h
  · simp only [Option.some.injEq] at h; subst h; simp
  · simp only [Option.some.injEq] at h; subst h; simp

/-- C7, amended: `main` prints the usage line and invokes no phase exactly when no path
argument is supplied; with one or more path arguments it goes on with the first one, the
others being ignored, and never prints the usage line. -/
theorem C7_usage_iff_no_argument (args : List GoString) (fs : FS) (depth : Nat) :
    (args.length < 2 → main args fs depth = some ⟨[.usage], [], fs⟩) ∧
    (2 ≤ args.length →
      main args fs depth = main (args.take 2) fs depth ∧
      ∀ r, main args fs depth = some r → Msg.usage ∉ r.output) := by
  refine ⟨?_, ?_⟩
  · intro h
    simp [main, h]
  · intro h
    have hlt : ¬ args.length < 2 := by omega
    refine ⟨?_, ?_⟩
    · have h2 : ¬ (args.take 2).length < 2 := by
        simp only [List.length_take]; omega
      have hget : (args.take 2).getD 1 [] = args.getD 1 [] := by
        match args, h with
        | a :: b :: rest, _ => rfl
      unfold main
      rw [if_neg hlt, if_neg h2, hget]
    · intro r hr
      unfold main at hr
      rw [if_neg hlt] at hr
      simp only at hr
      split_ifs at hr
      · simp only [Option.some.injEq] at hr; subst hr; simp
      · split at hr
        · simp at hr
        · simp only [Option.some.injEq] at hr; subst hr; simp
        · split at hr
          · simp at hr
          · rename_i fs1 _ out2 e fs2 hren
            simp only [Option.some.injEq] at hr; subst hr
            have := usage_not_mem_RenameFiles _ _ _ _ hren
            simpa using this
          · rename_i fs1 _ out2 fs2 hren
            have h2 := usage_not_mem_RenameFiles _ _ _ _ hren
            split at hr
            · simp at hr
            · rename_i out3 e fs3 hrep
              simp only [Option.some.injEq] at hr; subst hr
              have h3 := usage_not_mem_ReplaceTextInFiles _ _ _ _ hrep
              simp only [List.mem_append, List.mem_singleton, not_or]
              exact ⟨⟨h2, h3⟩, by simp⟩
            · rename_i out3 fs3 hrep
              simp only [Option.some.injEq] at hr; subst hr
              have h3 := usage_not_mem_ReplaceTextInFiles _ _ _ _ hrep
              simp only [List.mem_append, List.mem_singleton, not_or]
              exact ⟨⟨h2, h3⟩, by simp⟩

set_option maxRecDepth 100000 in
/-- C7 amended, at no argument and at the arguments `proj`, `extra`. -/
theorem C7_usage_iff_no_argument_witness :
    main [str ("main")] demoSource 0 = some ⟨[.usage], [], demoSource⟩ ∧
    main [str ("main"), str ("proj"), str ("extra")] demoSource 3
      = main [str ("main"), str ("proj")] demoSource 3 ∧
    ∀ r, main [str ("main"), str ("proj"), str ("extra")] demoSource 3 = some r →
      Msg.usage ∉ r.output :=
  ⟨(C7_usage_iff_no_argument [str ("main")] demoSource 0).1 (by decide),
   ((C7_usage_iff_no_argument [str ("main"), str ("proj"), str ("extra")] demoSource 3).2
      (by decide)).1,
   ((C7_usage_iff_no_argument [str ("main"), str ("proj"), str ("extra")] demoSource 3).2
      (by decide)).2⟩

/-- When `os.Stat` reports `ENOENT` for the source path, `main` prints the "does not exist"
line and returns before any phase is invoked, whatever the bound on the walks. -/
theorem main_of_ENOENT (args : List GoString) (fs : FS) (depth : Nat)
    (hargs : 2 ≤ args.length)
    (hmissing : os_Stat fs (args.getD 1 []) = .error .ENOENT) :
    main args fs depth = some ⟨[.notExist], [], fs⟩ := by
  have hlt : ¬ args.length < 2 := by omega
  have h : os_IsNotExist (os_Stat fs (args.getD 1 [])) = true := by
    rw [hmissing]; rfl
  unfold main
  rw [if_neg hlt]
  exact if_pos h

/-- When `os.Stat` fails on the source path with another error, `main` goes on to
`CopyDirectory`, which fails at once and leaves the file system as it was. -/
theorem main_of_other_error (args : List GoString) (fs : FS) (depth : Nat) (e : Error)
    (hargs : 2 ≤ args.length) (he : os_Stat fs (args.getD 1 []) = .error e)
    (hne : e ≠ .ENOENT) :
    main args fs depth = some ⟨[.errorCopying e], [.copy], fs⟩ := by
  have hlt : ¬ args.length < 2 := by omega
  have h : ¬ os_IsNotExist (os_Stat fs (args.getD 1 [])) = true := by
    rw [he]
    cases e <;> simp [os_IsNotExist] at hne ⊢
  have hl : os_Lstat fs (args.getD 1 []) = .error e := he
  unfold main
  rw [if_neg hlt]
  simp only
  rw [if_neg h]
  simp only [FileConverter.CopyDirectory, Walk, hl, FileConverter.copyFn]

set_option maxRecDepth 100000 in
/-- C10, at the source path `proj/app.js/x`, where `proj/app.js` is a regular file: nothing
is at that path, `os.Stat` fails with `ENOTDIR`, which `os.IsNotExist` does not hold of,
and `main` prints no "does not exist" line but invokes `CopyDirectory`, which reports the
error; the file system is left as it was.  At the missing path `nope` the line is
printed and no phase is invoked. -/
theorem C10_missing_source_reaches_copy :
    demoSource.lookup [str ("proj"), str ("app.js")]
      = some (.file 0o644 (str ("wx.request(\x7b\x7d)"))) ∧
    demoSource.lookup [str ("proj"), str ("app.js"), str ("x")] = none ∧
    os_Stat demoSource (str ("proj/app.js/x")) = .error .ENOTDIR ∧
    main [str ("main"), str ("proj/app.js/x")] demoSource 3
      = some ⟨[.errorCopying .ENOTDIR], [.copy], demoSource⟩ ∧
    main [str ("main"), str ("nope")] demoSource 3 = some ⟨[.notExist], [], demoSource⟩ :=
  ⟨by decide, by decide, rfl, by decide, by decide⟩

/-! ### The bounds of the bounded loops are large enough -/

theorem runeWidth_pos (c : Nat) (t : GoString) : 1 ≤ runeWidth (c :: t) := by
  unfold runeWidth
  simp only
  generalize (if 194 ≤ c ∧ c ≤ 223 then some (2, 128, 191)
    else if c = 224 then some (3, 160, 191)
    else if 225 ≤ c ∧ c ≤ 236 then some (3, 128, 191)
    else if c = 237 then some (3, 128, 159)
    else if 238 ≤ c ∧ c ≤ 239 then some (3, 128, 191)
    else if c = 240 then some (4, 144, 191)
    else if 241 ≤ c ∧ c ≤ 243 then some (4, 128, 191)
    else if c = 244 then some (4, 128, 143) else none : Option (Nat × Nat × Nat)) = entry
  rcases entry with _ | ⟨sz, lo, hi⟩
  · exact le_refl _
  · simp only
    rcases t with _ | ⟨s1, _ | ⟨s2, _ | ⟨s3, r⟩⟩⟩ <;> simp only <;> split_ifs <;> omega

/-- Counting runes does not depend on the bound, once it is the length of the string. -/
theorem runeCountLoop_fuel : ∀ (f1 f2 : Nat) (s : GoString), s.length ≤ f1 → s.length ≤ f2 →
    runeCountLoop f1 s = runeCountLoop f2 s := by
  intro f1
  induction f1 with
  | zero =>
    intro f2 s h1 _
    have hs : s = [] := List.length_eq_zero.1 (Nat.le_zero.1 h1)
    subst hs
    cases f2 <;> rfl
  | succ f1 ih =>
    intro f2 s h1 h2
    cases s with
    | nil => cases f2 <;> rfl
    | cons c t =>
      cases f2 with
      | zero => simp at h2
      | succ f2 =>
        have hw := runeWidth_pos c t
        have hd : ((c :: t).drop (runeWidth (c :: t))).length ≤ t.length := by
          simp only [List.length_drop, List.length_cons]; omega
        simp only [runeCountLoop]
        rw [ih f2 _ (by simp only [List.length_cons] at h1; omega)
          (by simp only [List.length_cons] at h2; omega)]

theorem lastSepLoop_le (path : GoString) : ∀ n : Nat, lastSepLoop path n ≤ n := by
  intro n
  induction n with
  | zero => exact le_refl _
  | succ i ih =>
    simp only [lastSepLoop]
    cases path.get? i with
    | none => exact Nat.zero_le _
    | some c =>
      simp only
      split_ifs
      · exact le_refl _
      · exact Nat.le_succ_of_le ih

theorem mkdirAllParent_length (path : GoString) (h : 0 < (mkdirAllParent path).length) :
    (mkdirAllParent path).length < path.length := by
  unfold mkdirAllParent at h ⊢
  simp only [List.length_take] at h ⊢
  have h1 := lastSepLoop_le (path.rdropWhile (fun c => decide (c = sep)))
    (path.rdropWhile (fun c => decide (c = sep))).length
  have h2 : (path.rdropWhile (fun c => decide (c = sep))).length ≤ path.length :=
    (List.rdropWhile_prefix _ _).length_le
  omega

/-- `os.MkdirAll` does not depend on the bound of its recursion, once it exceeds the length
of the path name. -/
theorem mkdirAllLoop_fuel (perm : Nat) : ∀ (f1 f2 : Nat) (fs : FS) (path : GoString),
    path.length < f1 → path.length < f2 →
      mkdirAllLoop f1 fs path perm = mkdirAllLoop f2 fs path perm := by
  intro f1
  induction f1 with
  | zero => intro f2 fs path h; omega
  | succ f1 ih =>
    intro f2 fs path h1 h2
    cases f2 with
    | zero => omega
    | succ f2 =>
      simp only [mkdirAllLoop]
      by_cases hp : 0 < (mkdirAllParent path).length
      · have hl := mkdirAllParent_length path hp
        rw [if_pos hp, if_pos hp, ih f2 fs _ (by omega) (by omega)]
      · rw [if_neg hp, if_neg hp]

/-! ### Splitting and joining path names -/

theorem splitPath_ne_nil (s : GoString) : splitPath s ≠ [] := by
  induction s with
  | nil => simp [splitPath]
  | cons c t ih =>
    unfold splitPath
    split_ifs
    · simp
    · cases h : splitPath t with
      | nil => exact absurd h ih
      | cons seg segs => simp

theorem splitPath_cons_sep (t : GoString) : splitPath (sep :: t) = [] :: splitPath t := by
  simp [splitPath]

theorem splitPath_cons_ne (c : Nat) (t : GoString) (hc : c ≠ sep) :
    ∃ seg segs, splitPath t = seg :: segs ∧ splitPath (c :: t) = (c :: seg) :: segs := by
  cases h : splitPath t with
  | nil => exact absurd h (splitPath_ne_nil t)
  | cons seg segs =>
    refine ⟨seg, segs, rfl, ?_⟩
    rw [splitPath, if_neg hc, h]

theorem splitPath_append_sep (a b : GoString) :
    splitPath (a ++ sep :: b) = splitPath a ++ splitPath b := by
  induction a with
  | nil => simp [splitPath]
  | cons c a ih =>
    by_cases hc : c = sep
    · subst hc
      simp only [List.cons_append, splitPath_cons_sep, ih]
    · obtain ⟨seg, segs, h1, h2⟩ := splitPath_cons_ne c a hc
      obtain ⟨seg', segs', h3, h4⟩ := splitPath_cons_ne c (a ++ sep :: b) hc
      rw [List.cons_append, h4, h2]
      rw [ih, h1] at h3
      simp only [List.cons_append, List.cons.injEq] at h3
      obtain ⟨e1, e2⟩ := h3
      subst e1 e2
      rfl

theorem splitPath_of_no_sep (n : GoString) (h : sep ∉ n) : splitPath n = [n] := by
  induction n with
  | nil => rfl
  | cons c t ih =>
    have hc : c ≠ sep := fun e => h (e ▸ List.mem_cons_self _ _)
    have ht : sep ∉ t := fun e => h (List.mem_cons_of_mem _ e)
    rw [splitPath, if_neg hc, ih ht]

theorem mem_splitPath_no_sep (s : GoString) : ∀ x ∈ splitPath s, sep ∉ x := by
  induction s with
  | nil => intro x hx; simp [splitPath] at hx; subst hx; simp
  | cons c t ih =>
    intro x hx
    by_cases hc : c = sep
    · subst hc
      rw [splitPath_cons_sep] at hx
      rcases List.mem_cons.1 hx with h | h
      · subst h; simp
      · exact ih x h
    · obtain ⟨seg, segs, h1, h2⟩ := splitPath_cons_ne c t hc
      rw [h2] at hx
      rcases List.mem_cons.1 hx with h | h
      · subst h
        have := ih seg (h1 ▸ List.mem_cons_self _ _)
        intro hm
        rcases List.mem_cons.1 hm with e | e
        · exact hc e.symm
        · exact this e
      · exact ih x (h1 ▸ List.mem_cons_of_mem _ h)

theorem joinSep_cons_cons (a b : GoString) (rest : List GoString) :
    joinSep (a :: b :: rest) = a ++ sep :: joinSep (b :: rest) := by
  simp [joinSep, List.intercalate, List.intersperse]

theorem joinSep_singleton (a : GoString) : joinSep [a] = a := by
  simp [joinSep, List.intercalate, List.intersperse]

theorem joinSep_nil : joinSep [] = [] := by
  simp [joinSep, List.intercalate]

theorem splitPath_joinSep (xs : List GoString) (hne : xs ≠ []) (h : ∀ x ∈ xs, sep ∉ x) :
    splitPath (joinSep xs) = xs := by
  induction xs with
  | nil => exact absurd rfl hne
  | cons a rest ih =>
    cases rest with
    | nil =>
      rw [joinSep_singleton]
      exact splitPath_of_no_sep a (h a (List.mem_cons_self _ _))
    | cons b rest =>
      rw [joinSep_cons_cons, splitPath_append_sep,
        splitPath_of_no_sep a (h a (List.mem_cons_self _ _)),
        ih (by simp) (fun x hx => h x (List.mem_cons_of_mem _ hx))]
      rfl

theorem joinSep_append_singleton (xs : List GoString) (hne : xs ≠ []) (n : GoString) :
    joinSep (xs ++ [n]) = joinSep xs ++ sep :: n := by
  induction xs with
  | nil => exact absurd rfl hne
  | cons a rest ih =>
    cases rest with
    | nil => simp [joinSep_cons_cons, joinSep_singleton]
    | cons b rest =>
      have := ih (by simp)
      simp only [List.cons_append] at this ⊢
      rw [joinSep_cons_cons, this, joinSep_cons_cons]
      simp

theorem joinSep_eq_nil (xs : List GoString) (h : ∀ x ∈ xs, x ≠ []) (he : joinSep xs = []) :
    xs = [] := by
  cases xs with
  | nil => rfl
  | cons a rest =>
    exfalso
    cases rest with
    | nil =>
      rw [joinSep_singleton] at he
      exact h a (List.mem_cons_self _ _) he
    | cons b rest =>
      rw [joinSep_cons_cons] at he
      simp at he

theorem resolveFrom_append (fs : FS) (xs ys : List GoString) :
    ∀ cur : Path, resolveFrom fs cur (xs ++ ys) =
      match resolveFrom fs cur xs with
      | .error e => .error e
      | .ok mid => resolveFrom fs mid ys := by
  induction xs with
  | nil => intro cur; rfl
  | cons x xs ih =>
    intro cur
    simp only [List.cons_append, resolveFrom]
    cases step fs cur x with
    | error e => rfl
    | ok next => exact ih next

/-! ### Cleaning a path name -/

theorem cleanStep_skip (rooted : Bool) (st : List GoString) (seg : GoString)
    (h : seg = [] ∨ seg = [dot]) : cleanStep rooted st seg = st := by
  unfold cleanStep; rw [if_pos h]

theorem cleanStep_push (rooted : Bool) (st : List GoString) (seg : GoString)
    (h1 : seg ≠ []) (h2 : seg ≠ [dot]) (h3 : seg ≠ [dot, dot]) :
    cleanStep rooted st seg = seg :: st := by
  unfold cleanStep
  rw [if_neg (by simp [h1, h2]), if_neg h3]

theorem cleanStep_dotdot_nil (rooted : Bool) :
    cleanStep rooted [] [dot, dot] = if rooted then [] else [[dot, dot]] := by
  unfold cleanStep
  rw [if_neg (by decide), if_pos rfl]

theorem cleanStep_dotdot_cons (rooted : Bool) (top : GoString) (below : List GoString) :
    cleanStep rooted (top :: below) [dot, dot] =
      if top = [dot, dot] then [dot, dot] :: top :: below else below := by
  unfold cleanStep
  rw [if_neg (by decide), if_pos rfl]

theorem cleanStep_inv (rooted : Bool) (st : List GoString) (seg : GoString)
    (hst : cleanStack rooted st) (hseg : sep ∉ seg) :
    cleanStack rooted (cleanStep rooted st seg) := by
  by_cases h1 : seg = [] ∨ seg = [dot]
  · rw [cleanStep_skip _ _ _ h1]; exact hst
  · have h1a : seg ≠ [] := fun e => h1 (Or.inl e)
    have h1b : seg ≠ [dot] := fun e => h1 (Or.inr e)
    by_cases h2 : seg = [dot, dot]
    · subst h2
      cases st with
      | nil =>
        rw [cleanStep_dotdot_nil]
        cases rooted
        · simp [cleanStack, dot, sep]
        · simp [cleanStack]
      | cons top below =>
        rw [cleanStep_dotdot_cons]
        obtain ⟨a1, a2, a3, a4, a5⟩ := hst
        by_cases ht : top = [dot, dot]
        · rw [if_pos ht]
          obtain ⟨b1, b2⟩ := a4 ht
          refine ⟨h1a, h1b, hseg, fun _ => ⟨b1, ?_⟩, a1, a2, a3, a4, a5⟩
          intro y hy
          rcases List.mem_cons.1 hy with e | e
          · rw [e]; exact ht
          · exact b2 y e
        · rw [if_neg ht]; exact a5
    · rw [cleanStep_push _ _ _ h1a h1b h2]
      exact ⟨h1a, h1b, hseg, fun e => absurd e h2, hst⟩

theorem foldl_cleanStep_inv (rooted : Bool) (segs : List GoString) :
    ∀ st : List GoString, cleanStack rooted st → (∀ x ∈ segs, sep ∉ x) →
      cleanStack rooted (segs.foldl (cleanStep rooted) st) := by
  induction segs with
  | nil => intro st h _; exact h
  | cons seg segs ih =>
    intro st h hs
    simp only [List.foldl_cons]
    exact ih _ (cleanStep_inv rooted st seg h (hs seg (List.mem_cons_self _ _)))
      (fun x hx => hs x (List.mem_cons_of_mem _ hx))

theorem cleanStack_cleanSegs (path : GoString) :
    cleanStack (isRooted path) (cleanSegs path).reverse := by
  unfold cleanSegs
  rw [List.reverse_reverse]
  exact foldl_cleanStep_inv _ _ _ trivial (mem_splitPath_no_sep path)

theorem cleanStack_mem (rooted : Bool) (st : List GoString) (h : cleanStack rooted st) :
    ∀ x ∈ st, x ≠ [] ∧ x ≠ [dot] ∧ sep ∉ x := by
  induction st with
  | nil => intro x hx; simp at hx
  | cons a st ih =>
    intro x hx
    obtain ⟨a1, a2, a3, _, a5⟩ := h
    rcases List.mem_cons.1 hx with e | e
    · subst e; exact ⟨a1, a2, a3⟩
    · exact ih a5 x e

/-- Cleaning the elements that cleaning kept keeps them all. -/
theorem foldl_cleanStep_clean (rooted : Bool) (st : List GoString) (h : cleanStack rooted st) :
    st.reverse.foldl (cleanStep rooted) [] = st := by
  induction st with
  | nil => rfl
  | cons x below ih =>
    obtain ⟨a1, a2, a3, a4, a5⟩ := h
    rw [List.reverse_cons, List.foldl_append, ih a5]
    simp only [List.foldl_cons, List.foldl_nil]
    by_cases hx : x = [dot, dot]
    · obtain ⟨b1, b2⟩ := a4 hx
      subst hx
      cases below with
      | nil => rw [cleanStep_dotdot_nil, b1]; rfl
      | cons top below =>
        rw [cleanStep_dotdot_cons, if_pos (b2 top (List.mem_cons_self _ _))]
    · exact cleanStep_push _ _ _ a1 a2 hx

theorem step_skip (fs : FS) (cur next : Path) (seg : GoString) (h : seg = [] ∨ seg = [dot])
    (hs : step fs cur seg = .ok next) : next = cur := by
  unfold step at hs
  split at hs
  · simp at hs
  · simp at hs
  · rw [if_pos h] at hs
    simp only [Except.ok.injEq] at hs
    exact hs.symm

theorem step_dotdot (fs : FS) (cur next : Path) (hs : step fs cur [dot, dot] = .ok next) :
    next = cur.dropLast := by
  unfold step at hs
  split at hs
  · simp at hs
  · simp at hs
  · rw [if_neg (by decide), if_pos rfl] at hs
    simp only [Except.ok.injEq] at hs
    exact hs.symm

theorem step_name (fs : FS) (cur next : Path) (seg : GoString)
    (h1 : seg ≠ []) (h2 : seg ≠ [dot]) (h3 : seg ≠ [dot, dot])
    (hs : step fs cur seg = .ok next) : next = cur ++ [seg] := by
  unfold step at hs
  split at hs
  · simp at hs
  · simp at hs
  · rw [if_neg (by simp [h1, h2]), if_neg h3] at hs
    split_ifs at hs
    simp only [Except.ok.injEq] at hs
    exact hs.symm

/-- A name that a step accepts has at most 255 bytes. -/
theorem step_name_length (fs : FS) (cur next : Path) (seg : GoString)
    (h1 : seg ≠ []) (h2 : seg ≠ [dot]) (h3 : seg ≠ [dot, dot])
    (hs : step fs cur seg = .ok next) : seg.length ≤ 255 := by
  unfold step at hs
  split at hs
  · simp at hs
  · simp at hs
  · rw [if_neg (by simp [h1, h2]), if_neg h3] at hs
    split_ifs at hs with h
    omega

theorem step_ok_dir (fs : FS) (cur next : Path) (seg : GoString)
    (hs : step fs cur seg = .ok next) : fs.kind cur = some true := by
  unfold step at hs
  unfold FS.kind
  split at hs
  · simp at hs
  · simp at hs
  · rename_i m hl
    rw [hl]; rfl

theorem step_of_dir (fs : FS) (cur : Path) (seg : GoString) (h : fs.kind cur = some true) :
    step fs cur seg =
      if seg = [] ∨ seg = [dot] then .ok cur
      else if seg = [dot, dot] then .ok cur.dropLast
      else if 255 < seg.length then .error .ENAMETOOLONG
      else .ok (cur ++ [seg]) := by
  unfold FS.kind at h
  unfold step
  cases hl : fs.lookup cur with
  | none => simp [hl] at h
  | some i =>
    cases i with
    | file m d => simp [hl, Inode.isDir] at h
    | dir m => rfl

theorem root_kind (fs : FS) : fs.kind [] = some true := by
  simp [FS.kind, FS.lookup, Inode.isDir]

theorem resolveFrom_singleton (fs : FS) (cur : Path) (seg : GoString) :
    resolveFrom fs cur [seg] = step fs cur seg := by
  simp only [resolveFrom]
  cases step fs cur seg <;> rfl

theorem clean_resolve_step (fs : FS) (rooted : Bool) (st : List GoString) (seg : GoString)
    (cur next : Path) (hst : cleanStack rooted st)
    (hR : resolveFrom fs [] st.reverse = .ok cur) (hs : step fs cur seg = .ok next) :
    resolveFrom fs [] (cleanStep rooted st seg).reverse = .ok next := by
  by_cases h1 : seg = [] ∨ seg = [dot]
  · rw [cleanStep_skip _ _ _ h1, step_skip fs cur next seg h1 hs]; exact hR
  · have h1a : seg ≠ [] := fun e => h1 (Or.inl e)
    have h1b : seg ≠ [dot] := fun e => h1 (Or.inr e)
    have hpush : resolveFrom fs [] (seg :: st).reverse = .ok next := by
      rw [List.reverse_cons, resolveFrom_append, hR]
      simp only
      rw [resolveFrom_singleton]; exact hs
    by_cases h2 : seg = [dot, dot]
    · subst h2
      have hn := step_dotdot fs cur next hs
      cases st with
      | nil =>
        simp only [List.reverse_nil, resolveFrom, Except.ok.injEq] at hR
        subst hR
        rw [cleanStep_dotdot_nil]
        cases rooted
        · exact hpush
        · simp [resolveFrom, hn]
      | cons top below =>
        rw [cleanStep_dotdot_cons]
        by_cases ht : top = [dot, dot]
        · rw [if_pos ht]; exact hpush
        · rw [if_neg ht]
          obtain ⟨a1, a2, _, _, _⟩ := hst
          rw [List.reverse_cons, resolveFrom_append] at hR
          cases hb : resolveFrom fs [] below.reverse with
          | error e => rw [hb] at hR; simp at hR
          | ok mid =>
            rw [hb] at hR
            simp only at hR
            rw [resolveFrom_singleton] at hR
            have := step_name fs mid cur top a1 a2 ht hR
            rw [hn, this, List.dropLast_concat]
    · rw [cleanStep_push _ _ _ h1a h1b h2]; exact hpush

theorem clean_resolve_fold (fs : FS) (rooted : Bool) (segs : List GoString) :
    ∀ (st : List GoString) (cur Q : Path), cleanStack rooted st → (∀ x ∈ segs, sep ∉ x) →
      resolveFrom fs [] st.reverse = .ok cur → resolveFrom fs cur segs = .ok Q →
      resolveFrom fs [] (segs.foldl (cleanStep rooted) st).reverse = .ok Q := by
  induction segs with
  | nil =>
    intro st cur Q _ _ hR hQ
    simp only [resolveFrom, Except.ok.injEq] at hQ
    subst hQ
    exact hR
  | cons seg segs ih =>
    intro st cur Q hst hs hR hQ
    simp only [resolveFrom] at hQ
    cases hstep : step fs cur seg with
    | error e => rw [hstep] at hQ; simp at hQ
    | ok next =>
      rw [hstep] at hQ
      simp only at hQ
      simp only [List.foldl_cons]
      exact ih _ next Q (cleanStep_inv rooted st seg hst (hs seg (List.mem_cons_self _ _)))
        (fun x hx => hs x (List.mem_cons_of_mem _ hx))
        (clean_resolve_step fs rooted st seg cur next hst hR hstep) hQ

/-- The elements `Clean` keeps lead where the path name leads. -/
theorem resolveFrom_cleanSegs (fs : FS) (path : GoString) (Q : Path)
    (h : resolveFrom fs [] (splitPath path) = .ok Q) :
    resolveFrom fs [] (cleanSegs path) = .ok Q := by
  unfold cleanSegs
  exact clean_resolve_fold fs _ _ [] [] Q trivial (mem_splitPath_no_sep path) rfl h

theorem Clean_eq (path : GoString) :
    Clean path =
      if isRooted path then sep :: joinSep (cleanSegs path)
      else if joinSep (cleanSegs path) = [] then [dot]
      else joinSep (cleanSegs path) := by
  rfl

theorem cleanSegs_mem (path : GoString) :
    ∀ x ∈ cleanSegs path, x ≠ [] ∧ x ≠ [dot] ∧ sep ∉ x := by
  intro x hx
  exact cleanStack_mem _ _ (cleanStack_cleanSegs path) x (List.mem_reverse.2 hx)

/-- The path `Clean` returns, split into elements. -/
theorem splitPath_Clean (path : GoString) :
    splitPath (Clean path) =
      if isRooted path then
        (if cleanSegs path = [] then [[], []] else [] :: cleanSegs path)
      else if cleanSegs path = [] then [[dot]] else cleanSegs path := by
  rw [Clean_eq]
  have hne : ∀ x ∈ cleanSegs path, x ≠ [] := fun x hx => (cleanSegs_mem path x hx).1
  have hns : ∀ x ∈ cleanSegs path, sep ∉ x := fun x hx => (cleanSegs_mem path x hx).2.2
  by_cases hr : isRooted path = true
  · rw [if_pos hr, if_pos hr, splitPath_cons_sep]
    by_cases he : cleanSegs path = []
    · rw [if_pos he, he, joinSep_nil]; rfl
    · rw [if_neg he, splitPath_joinSep _ he hns]
  · rw [if_neg hr, if_neg hr]
    by_cases he : cleanSegs path = []
    · rw [if_pos he, he, joinSep_nil, if_pos rfl]; rfl
    · have : joinSep (cleanSegs path) ≠ [] := fun e => he (joinSep_eq_nil _ hne e)
      rw [if_neg he, if_neg this, splitPath_joinSep _ he hns]

theorem Clean_ne_nil (path : GoString) : Clean path ≠ [] := by
  rw [Clean_eq]
  split_ifs with h1 h2
  · simp
  · simp
  · exact h2

/-- The cleaned path name leads where the path name leads. -/
theorem denote_Clean (fs : FS) (path : GoString) (Q : Path) (h : denote fs path = .ok Q) :
    denote fs (Clean path) = .ok Q := by
  unfold denote at h ⊢
  by_cases hp : path = []
  · rw [if_pos hp] at h; simp at h
  · rw [if_neg hp] at h
    rw [if_neg (Clean_ne_nil path), splitPath_Clean]
    have hc := resolveFrom_cleanSegs fs path Q h
    have hroot := step_of_dir fs [] [] (root_kind fs)
    have hdot := step_of_dir fs [] [dot] (root_kind fs)
    simp only [true_or, or_true, if_true] at hroot hdot
    split_ifs with h1 h2 h3
    · rw [h2] at hc
      simp only [resolveFrom, hroot]
      exact hc
    · simp only [resolveFrom, hroot]
      exact hc
    · rw [h3] at hc
      simp only [resolveFrom, hdot]
      exact hc
    · exact hc

/-! ### Joining a name to a path name -/

theorem plainName_ne_dotdot {n : GoString} (h : plainName n) : n ≠ [dot, dot] := h.2.2.2.1
theorem plainName_length {n : GoString} (h : plainName n) : n.length ≤ 255 := h.2.2.2.2
theorem plainName_ne_dot {n : GoString} (h : plainName n) : n ≠ [dot] := h.2.2.1
theorem plainName_ne_nil {n : GoString} (h : plainName n) : n ≠ [] := h.1
theorem plainName_no_sep {n : GoString} (h : plainName n) : sep ∉ n := h.2.1

theorem isRooted_Clean (path : GoString) : isRooted (Clean path) = isRooted path := by
  rw [Clean_eq]
  by_cases hr : isRooted path = true
  · rw [if_pos hr, hr]; simp [isRooted]
  · rw [if_neg hr]
    have hr2 : isRooted path = false := by simpa using hr
    rw [hr2]
    split_ifs with h2
    · simp [isRooted, dot, sep]
    · cases hc : cleanSegs path with
      | nil => rw [hc, joinSep_nil] at h2; exact absurd rfl h2
      | cons a rest =>
        obtain ⟨a1, _, a3⟩ := cleanSegs_mem path a (hc ▸ List.mem_cons_self _ _)
        cases a with
        | nil => exact absurd rfl a1
        | cons c a =>
          have hc2 : c ≠ sep := fun e => a3 (e ▸ List.mem_cons_self _ _)
          cases rest with
          | nil => simp [joinSep_singleton, isRooted, hc2]
          | cons b rest => simp [joinSep_cons_cons, isRooted, hc2]

theorem cleanSegs_Clean (path : GoString) : cleanSegs (Clean path) = cleanSegs path := by
  have hst := cleanStack_cleanSegs path
  have hfold := foldl_cleanStep_clean _ _ hst
  rw [List.reverse_reverse] at hfold
  have key : ((splitPath (Clean path)).foldl (cleanStep (isRooted path)) []).reverse
      = cleanSegs path := by
    rw [splitPath_Clean]
    split_ifs with h1 h2 h3
    · rw [h2]; simp [cleanStep]
    · simp only [List.foldl_cons]
      rw [cleanStep_skip _ _ _ (Or.inl rfl), hfold, List.reverse_reverse]
    · rw [h3]; simp [cleanStep]
    · rw [hfold, List.reverse_reverse]
  unfold cleanSegs at key ⊢
  rw [isRooted_Clean]
  exact key

theorem isRooted_append (p y : GoString) (hp : p ≠ []) : isRooted (p ++ y) = isRooted p := by
  cases p with
  | nil => exact absurd rfl hp
  | cons c p => simp [isRooted]

theorem cleanSegs_append_name (p n : GoString) (hp : p ≠ []) (hn : plainName n) :
    cleanSegs (p ++ sep :: n) = cleanSegs p ++ [n] := by
  unfold cleanSegs
  rw [isRooted_append p _ hp, splitPath_append_sep, splitPath_of_no_sep n hn.2.1,
    List.foldl_append]
  simp only [List.foldl_cons, List.foldl_nil]
  rw [cleanStep_push _ _ _ hn.1 hn.2.2.1 hn.2.2.2.1, List.reverse_cons]

theorem cleanSegs_append_dot (p : GoString) (hp : p ≠ []) :
    cleanSegs (p ++ sep :: [dot]) = cleanSegs p := by
  unfold cleanSegs
  rw [isRooted_append p _ hp, splitPath_append_sep,
    splitPath_of_no_sep [dot] (by decide), List.foldl_append]
  simp only [List.foldl_cons, List.foldl_nil]
  rw [cleanStep_skip _ _ _ (Or.inr rfl)]

theorem Join_pair (p y : GoString) (hp : p ≠ []) : Join [p, y] = Clean (p ++ sep :: y) := by
  simp [Join, hp, joinSep_cons_cons, joinSep_singleton]

theorem isRooted_Join (p n : GoString) (hp : p ≠ []) :
    isRooted (Join [p, n]) = isRooted p := by
  rw [Join_pair p n hp, isRooted_Clean, isRooted_append p _ hp]

theorem cleanSegs_Join (p n : GoString) (hp : p ≠ []) (hn : plainName n) :
    cleanSegs (Join [p, n]) = cleanSegs p ++ [n] := by
  rw [Join_pair p n hp, cleanSegs_Clean, cleanSegs_append_name p n hp hn]

theorem Join_ne_nil (p y : GoString) (hp : p ≠ []) : Join [p, y] ≠ [] := by
  rw [Join_pair p y hp]; exact Clean_ne_nil _

theorem denote_ne_nil (fs : FS) (p : GoString) (P : Path) (h : denote fs p = .ok P) :
    p ≠ [] := by
  rintro rfl
  simp [denote] at h

theorem denote_eq_resolveFrom (fs : FS) (p : GoString) (hp : p ≠ []) :
    denote fs p = resolveFrom fs [] (splitPath p) := by
  unfold denote; rw [if_neg hp]

theorem step_plain (fs : FS) (cur : Path) (n : GoString) (hk : fs.kind cur = some true)
    (hn : plainName n) : step fs cur n = .ok (cur ++ [n]) := by
  rw [step_of_dir fs cur n hk, if_neg (by simp [hn.1, hn.2.2.1]), if_neg hn.2.2.2.1,
    if_neg (by have := hn.2.2.2.2; omega)]

/-- A name joined to the path name of a directory leads into the directory. -/
theorem denote_Join (fs : FS) (p n : GoString) (P : Path) (h : denote fs p = .ok P)
    (hk : fs.kind P = some true) (hn : plainName n) :
    denote fs (Join [p, n]) = .ok (P ++ [n]) := by
  have hp := denote_ne_nil fs p P h
  rw [Join_pair p n hp]
  apply denote_Clean
  rw [denote_eq_resolveFrom fs p hp] at h
  rw [denote_eq_resolveFrom fs _ (by simp), splitPath_append_sep, resolveFrom_append, h,
    splitPath_of_no_sep n hn.2.1]
  simp only
  rw [resolveFrom_singleton]
  exact step_plain fs P n hk hn

/-- The shape of a cleaned path name whose last element is `n`. -/
theorem Clean_form (c : GoString) (A : List GoString) (n : GoString)
    (h : cleanSegs c = A ++ [n]) :
    ∃ X, Clean c = X ++ n ∧ (X = [] ∨ ∃ Y, X = Y ++ [sep]) := by
  have hn : n ≠ [] := (cleanSegs_mem c n (by rw [h]; simp)).1
  rw [Clean_eq, h]
  by_cases hr : isRooted c = true
  · rw [if_pos hr]
    by_cases hA : A = []
    · subst hA
      rw [List.nil_append, joinSep_singleton]
      exact ⟨[sep], rfl, Or.inr ⟨[], rfl⟩⟩
    · rw [joinSep_append_singleton A hA n]
      exact ⟨sep :: joinSep A ++ [sep], by simp, Or.inr ⟨sep :: joinSep A, rfl⟩⟩
  · rw [if_neg hr]
    by_cases hA : A = []
    · subst hA
      rw [List.nil_append, joinSep_singleton, if_neg hn]
      exact ⟨[], rfl, Or.inl rfl⟩
    · rw [joinSep_append_singleton A hA n, if_neg (by simp)]
      exact ⟨joinSep A ++ [sep], by simp, Or.inr ⟨joinSep A, rfl⟩⟩

theorem Join_form (p n : GoString) (hp : p ≠ []) (hn : plainName n) :
    ∃ X, Join [p, n] = X ++ n ∧ (X = [] ∨ ∃ Y, X = Y ++ [sep]) := by
  have h := cleanSegs_Join p n hp hn
  rw [Join_pair p n hp] at h ⊢
  rw [cleanSegs_Clean] at h
  exact Clean_form _ _ n h

/-! ### The extension of a path name is the extension of its last element -/

theorem extLoop_append (Z n : GoString) (hZ : Z = [] ∨ ∃ Y, Z = Y ++ [sep]) :
    ∀ k : Nat, k ≤ n.length → extLoop (Z ++ n) (Z.length + k) = extLoop n k := by
  intro k
  induction k with
  | zero =>
    intro _
    rcases hZ with rfl | ⟨Y, rfl⟩
    · rfl
    · have hget : (Y ++ [sep] ++ n).get? Y.length = some sep := by
        rw [List.get?_eq_getElem?, List.append_assoc, List.getElem?_append_right (le_refl _)]
        simp
      simp only [List.length_append, List.length_singleton, Nat.add_zero, extLoop, hget, if_true]
  | succ k ih =>
    intro hk
    have hlt : k < n.length := hk
    have hget : (Z ++ n).get? (Z.length + k) = n.get? k := by
      rw [List.get?_eq_getElem?, List.get?_eq_getElem?,
        List.getElem?_append_right (by omega)]
      congr 1; omega
    rw [show Z.length + (k + 1) = (Z.length + k) + 1 by omega]
    simp only [extLoop, hget]
    cases hc : n.get? k with
    | none => rfl
    | some c =>
      simp only
      split_ifs
      · rfl
      · rw [List.drop_append_eq_append_drop]
        simp
      · exact ih (by omega)

theorem Ext_append (Z n : GoString) (hZ : Z = [] ∨ ∃ Y, Z = Y ++ [sep]) :
    Ext (Z ++ n) = Ext n := by
  unfold Ext
  rw [List.length_append]
  exact extLoop_append Z n hZ n.length (le_refl _)

theorem TrimSuffix_append_left (X n e : GoString) (h : e <:+ n) :
    TrimSuffix (X ++ n) e = X ++ TrimSuffix n e := by
  obtain ⟨stem, rfl⟩ := h
  rw [← List.append_assoc, TrimSuffix_append, TrimSuffix_append]

theorem renameTarget_append (X n : GoString) (hX : X = [] ∨ ∃ Y, X = Y ++ [sep])
    (exts : List ExtensionReplacement) :
    renameTarget (X ++ n) (Ext (X ++ n)) exts = (renameTarget n (Ext n) exts).map (X ++ ·) := by
  rw [Ext_append X n hX]
  induction exts with
  | nil => rfl
  | cons r rest ih =>
    simp only [renameTarget]
    by_cases he : Ext n = r.OldExt
    · rw [if_pos he, if_pos he]
      simp only [Option.map_some', Option.some.injEq]
      rw [TrimSuffix_append_left X n r.OldExt (he ▸ Ext_suffix n), List.append_assoc]
    · rw [if_neg he, if_neg he]; exact ih

/-! ### The relative path of a descendant -/

theorem dropCommon_append (A r : List GoString) : dropCommon A (A ++ r) = ([], r) := by
  induction A with
  | nil => cases r <;> rfl
  | cons a A ih => simp [dropCommon, ih]

theorem relElems_nil : relElems [] = [] := by
  simp [relElems]

theorem relElems_Clean (x : GoString) (h : cleanSegs x ≠ []) :
    relElems (Clean x) = cleanSegs x := by
  have hne : ∀ y ∈ cleanSegs x, y ≠ [] := fun y hy => (cleanSegs_mem x y hy).1
  have hns : ∀ y ∈ cleanSegs x, sep ∉ y := fun y hy => (cleanSegs_mem x y hy).2.2
  have hj : joinSep (cleanSegs x) ≠ [] := fun e => h (joinSep_eq_nil _ hne e)
  have hroot := isRooted_Clean x
  rw [Clean_eq] at hroot ⊢
  by_cases hr : isRooted x = true
  · rw [if_pos hr]
    simp only [relElems, List.head?_cons, if_true, List.drop_succ_cons, List.drop_zero, hj,
      if_false]
    exact splitPath_joinSep _ h hns
  · rw [if_neg hr, if_neg hj] at hroot ⊢
    have hr2 : isRooted x = false := by simpa using hr
    rw [hr2] at hroot
    have hh : ¬ (joinSep (cleanSegs x)).head? = some sep := by
      simpa [isRooted] using hroot
    simp only [relElems, hh, if_false, hj]
    exact splitPath_joinSep _ h hns

theorem Clean_eq_dot_iff (x : GoString) : Clean x = [dot] ↔ isRooted x = false ∧ cleanSegs x = [] := by
  constructor
  · intro h
    have h1 : isRooted x = false := by
      rw [← isRooted_Clean, h]; decide
    have h2 := cleanSegs_Clean x
    rw [h] at h2
    exact ⟨h1, by rw [← h2]; decide⟩
  · rintro ⟨h1, h2⟩
    rw [Clean_eq, h1, h2]; rfl

theorem relElems_base (src : GoString) :
    relElems (if Clean src = [dot] then [] else Clean src) = cleanSegs src := by
  by_cases h : Clean src = [dot]
  · rw [if_pos h, relElems_nil, ((Clean_eq_dot_iff src).1 h).2]
  · rw [if_neg h]
    by_cases hc : cleanSegs src = []
    · have hr : isRooted src = true := by
        by_contra hr
        exact h ((Clean_eq_dot_iff src).2 ⟨by simpa using hr, hc⟩)
      rw [Clean_eq, if_pos hr, hc, joinSep_nil]
      simp [relElems]
    · exact relElems_Clean src hc

theorem slashed_base (src : GoString) :
    decide ((if Clean src = [dot] then [] else Clean src).head? = some sep) = isRooted src := by
  by_cases h : Clean src = [dot]
  · rw [if_pos h, ((Clean_eq_dot_iff src).1 h).1]; rfl
  · rw [if_neg h, ← isRooted_Clean src]; rfl

/-- The path of a descendant relative to the root of the walk is made of the names that
lead from the root to it. -/
theorem Rel_descendant (src path : GoString) (r : List GoString)
    (hroot : isRooted path = isRooted src) (hsegs : cleanSegs path = cleanSegs src ++ r) :
    Rel src path = .ok (if r = [] then [dot] else joinSep r) := by
  by_cases hr : r = []
  · subst hr
    rw [List.append_nil] at hsegs
    have : Clean path = Clean src := by rw [Clean_eq, Clean_eq, hroot, hsegs]
    simp [Rel, this]
  · rw [if_neg hr]
    have hne : Clean path ≠ Clean src := by
      intro e
      have := congrArg cleanSegs e
      rw [cleanSegs_Clean, cleanSegs_Clean, hsegs] at this
      exact hr (by simpa using this)
    have hts : cleanSegs path ≠ [] := by rw [hsegs]; simp [hr]
    have h1 := relElems_base src
    have h2 := relElems_Clean path hts
    have h3 := slashed_base src
    have h4 : decide ((Clean path).head? = some sep) = isRooted src := by
      rw [← hroot, ← isRooted_Clean path]; rfl
    unfold Rel
    simp only [hne, if_false, h1, h2, h3, h4, hsegs, dropCommon_append, ne_eq, not_true,
      if_false]

/-! ### Resolving names below a directory -/

theorem resolveFrom_names (fs : FS) (r : List GoString) :
    ∀ D : Path, (∀ n ∈ r, plainName n) →
      (∀ k, k < r.length → fs.kind (D ++ r.take k) = some true) →
      resolveFrom fs D r = .ok (D ++ r) := by
  induction r with
  | nil => intro D _ _; simp [resolveFrom]
  | cons n r ih =>
    intro D hp hk
    have h0 := hk 0 (by simp)
    simp only [List.take_zero, List.append_nil] at h0
    simp only [resolveFrom, step_plain fs D n h0 (hp n (List.mem_cons_self _ _))]
    rw [ih (D ++ [n]) (fun m hm => hp m (List.mem_cons_of_mem _ hm))]
    · simp
    · intro k hk2
      have := hk (k + 1) (by simpa using hk2)
      simpa using this

/-- The destination path `CopyDirectory` computes for the entry at `r` below the source
leads to `r` below the destination. -/
theorem denote_Join_rel (fs : FS) (dst : GoString) (D : Path) (r : List GoString)
    (hD : denote fs dst = .ok D) (hp : ∀ n ∈ r, plainName n)
    (hk : ∀ k, k < r.length → fs.kind (D ++ r.take k) = some true) :
    denote fs (Join [dst, if r = [] then [dot] else joinSep r]) = .ok (D ++ r) := by
  have hdst := denote_ne_nil fs dst D hD
  rw [Join_pair dst _ hdst]
  by_cases hr : r = []
  · subst hr
    rw [if_pos rfl, List.append_nil]
    have : Clean (dst ++ sep :: [dot]) = Clean dst := by
      rw [Clean_eq, Clean_eq, isRooted_append dst _ hdst, cleanSegs_append_dot dst hdst]
    rw [this]
    exact denote_Clean fs dst D hD
  · rw [if_neg hr]
    apply denote_Clean
    rw [denote_eq_resolveFrom fs dst hdst] at hD
    rw [denote_eq_resolveFrom fs _ (by simp), splitPath_append_sep, resolveFrom_append, hD,
      splitPath_joinSep r hr (fun n hn => (hp n hn).2.1)]
    exact resolveFrom_names fs r D hp hk

/-- A path name ending in the name `n` leads to `n` in the directory its front part leads
to; another name in the place of `n` leads to that name in the same directory. -/
theorem denote_sibling (fs : FS) (X n n1 : GoString) (Q : Path)
    (hX : X = [] ∨ ∃ Y, X = Y ++ [sep]) (hn : plainName n) (hn1 : plainName n1)
    (h : denote fs (X ++ n) = .ok Q) :
    ∃ P, Q = P ++ [n] ∧ fs.kind P = some true ∧ denote fs (X ++ n1) = .ok (P ++ [n1]) := by
  rcases hX with rfl | ⟨Y, rfl⟩
  · rw [List.nil_append] at h ⊢
    rw [denote_eq_resolveFrom fs n hn.1, splitPath_of_no_sep n hn.2.1,
      resolveFrom_singleton, step_plain fs [] n (root_kind fs) hn] at h
    simp only [Except.ok.injEq] at h
    refine ⟨[], h.symm, root_kind fs, ?_⟩
    rw [List.nil_append, denote_eq_resolveFrom fs n1 hn1.1, splitPath_of_no_sep n1 hn1.2.1,
      resolveFrom_singleton, step_plain fs [] n1 (root_kind fs) hn1]
    rfl
  · rw [List.append_assoc, List.singleton_append] at h ⊢
    rw [denote_eq_resolveFrom fs _ (by simp), splitPath_append_sep, resolveFrom_append,
      splitPath_of_no_sep n hn.2.1] at h
    cases hm : resolveFrom fs [] (splitPath Y) with
    | error e => rw [hm] at h; simp at h
    | ok mid =>
      rw [hm] at h
      simp only at h
      rw [resolveFrom_singleton] at h
      have hk := step_ok_dir fs mid Q n h
      rw [step_plain fs mid n hk hn] at h
      simp only [Except.ok.injEq] at h
      refine ⟨mid, h.symm, hk, ?_⟩
      rw [denote_eq_resolveFrom fs _ (by simp), splitPath_append_sep, resolveFrom_append, hm,
        splitPath_of_no_sep n1 hn1.2.1]
      simp only
      rw [resolveFrom_singleton, step_plain fs mid n1 hk hn1]

/-- The front part of a path name ending in a name leads to the directory of the name. -/
theorem denote_front (fs : FS) (Y n : GoString) (Q : Path) (hY : Y ≠ [])
    (hn : plainName n) (h : denote fs (Y ++ sep :: n) = .ok Q) :
    ∃ P, Q = P ++ [n] ∧ fs.kind P = some true ∧ denote fs Y = .ok P := by
  rw [denote_eq_resolveFrom fs _ (by simp), splitPath_append_sep, resolveFrom_append,
    splitPath_of_no_sep n hn.2.1] at h
  cases hm : resolveFrom fs [] (splitPath Y) with
  | error e => rw [hm] at h; simp at h
  | ok mid =>
    rw [hm] at h
    simp only at h
    rw [resolveFrom_singleton] at h
    have hk := step_ok_dir fs mid Q n h
    rw [step_plain fs mid n hk hn] at h
    simp only [Except.ok.injEq] at h
    exact ⟨mid, h.symm, hk, by rw [denote_eq_resolveFrom fs Y hY]; exact hm⟩

/-! ### Kinds of entries -/

theorem kind_set_self (fs : FS) (p : Path) (i : Inode) (hp : p ≠ []) :
    (fs.set p i).kind p = some i.isDir := by
  simp [FS.kind, lookup_set_self fs p i hp]

theorem kind_set_ne (fs : FS) (p q : Path) (i : Inode) (h : q ≠ p) :
    (fs.set p i).kind q = fs.kind q := by
  simp [FS.kind, lookup_set_ne fs p q i h]

theorem kind_remove_self (fs : FS) (p : Path) (hp : p ≠ []) : (fs.remove p).kind p = none := by
  simp [FS.kind, lookup_remove_self fs p hp]

theorem kind_remove_ne (fs : FS) (p q : Path) (h : q ≠ p) :
    (fs.remove p).kind q = fs.kind q := by
  simp [FS.kind, lookup_remove_ne fs p q h]

theorem kind_eq_none_iff (fs : FS) (p : Path) : fs.kind p = none ↔ fs.lookup p = none := by
  simp [FS.kind]

theorem kind_dir_iff (fs : FS) (p : Path) : fs.kind p = some true ↔ ∃ m, fs.lookup p = some (.dir m) := by
  unfold FS.kind
  cases h : fs.lookup p with
  | none => simp
  | some i => cases i <;> simp [Inode.isDir]

theorem kind_file_iff (fs : FS) (p : Path) :
    fs.kind p = some false ↔ ∃ m d, fs.lookup p = some (.file m d) := by
  unfold FS.kind
  cases h : fs.lookup p with
  | none => simp
  | some i => cases i <;> simp [Inode.isDir]

/-- Resolution needs directories only: it goes on succeeding when directories stay. -/
theorem step_mono (fs fs1 : FS) (hd : ∀ q, fs.kind q = some true → fs1.kind q = some true)
    (cur next : Path) (seg : GoString) (h : step fs cur seg = .ok next) :
    step fs1 cur seg = .ok next := by
  have hk := step_ok_dir fs cur next seg h
  rw [step_of_dir fs cur seg hk] at h
  rw [step_of_dir fs1 cur seg (hd cur hk)]
  exact h

theorem resolveFrom_mono (fs fs1 : FS)
    (hd : ∀ q, fs.kind q = some true → fs1.kind q = some true) (segs : List GoString) :
    ∀ (cur P : Path), resolveFrom fs cur segs = .ok P → resolveFrom fs1 cur segs = .ok P := by
  induction segs with
  | nil => intro cur P h; exact h
  | cons seg rest ih =>
    intro cur P h
    simp only [resolveFrom] at h ⊢
    cases hs : step fs cur seg with
    | error e => rw [hs] at h; simp at h
    | ok next =>
      rw [hs] at h
      rw [step_mono fs fs1 hd cur next seg hs]
      exact ih next P h

theorem denote_mono (fs fs1 : FS) (hd : ∀ q, fs.kind q = some true → fs1.kind q = some true)
    (s : GoString) (P : Path) (h : denote fs s = .ok P) : denote fs1 s = .ok P := by
  have hs := denote_ne_nil fs s P h
  rw [denote_eq_resolveFrom fs s hs] at h
  rw [denote_eq_resolveFrom fs1 s hs]
  exact resolveFrom_mono fs fs1 hd _ _ _ h

/-! ### Entries and names -/

theorem lookupEntry_isSome_iff (es : List (Path × Inode)) (p : Path) :
    (lookupEntry es p).isSome ↔ p ∈ es.map Prod.fst := by
  induction es with
  | nil => simp [lookupEntry]
  | cons e es ih =>
    obtain ⟨k, i⟩ := e
    by_cases hk : k = p
    · subst hk
      simp only [lookupEntry, if_true, Option.isSome_some, List.map_cons, List.mem_cons,
        true_or]
    · have : ¬ p = k := fun e => hk e.symm
      simp only [lookupEntry, hk, if_false, ih, List.map_cons, List.mem_cons, this, false_or]

theorem lookupEntry_mem (es : List (Path × Inode)) (p : Path) (i : Inode)
    (h : lookupEntry es p = some i) : (p, i) ∈ es := by
  induction es with
  | nil => simp [lookupEntry] at h
  | cons e es ih =>
    obtain ⟨k, j⟩ := e
    by_cases hk : k = p
    · simp only [lookupEntry, hk, if_true, Option.some.injEq] at h
      subst hk
      subst h
      exact List.mem_cons_self _ _
    · simp only [lookupEntry, hk, if_false] at h
      exact List.mem_cons_of_mem _ (ih h)

theorem lookup_isSome_iff (fs : FS) (p : Path) (hp : p ≠ []) :
    (fs.lookup p).isSome ↔ p ∈ fs.entries.map Prod.fst := by
  unfold FS.lookup
  rw [if_neg hp]
  exact lookupEntry_isSome_iff _ _

theorem kind_isSome_iff (fs : FS) (p : Path) (hp : p ≠ []) :
    (fs.kind p).isSome ↔ p ∈ fs.entries.map Prod.fst := by
  rw [← lookup_isSome_iff fs p hp]
  simp [FS.kind]

/-- The name of a location in the directory `p`, when it lies there. -/
theorem childNames_eq (es : List (Path × Inode)) (p : Path) :
    childNames es p = (es.map Prod.fst).filterMap (fun k =>
      match k.getLast? with
      | none => none
      | some name => if k.dropLast = p then some name else none) := by
  unfold childNames
  rw [List.filterMap_map]
  rfl

theorem childName_some (k p : Path) (n : GoString)
    (h : (match k.getLast? with
      | none => none
      | some name => if k.dropLast = p then some name else none) = some n) :
    k = p ++ [n] := by
  cases hk : k.getLast? with
  | none => rw [hk] at h; simp at h
  | some name =>
    rw [hk] at h
    simp only at h
    split_ifs at h with hd
    simp only [Option.some.injEq] at h
    subst h
    have hne : k ≠ [] := by
      rintro rfl; simp at hk
    have := List.dropLast_append_getLast? name hk
    rw [← this, hd]

theorem mem_childNames (es : List (Path × Inode)) (p : Path) (n : GoString) :
    n ∈ childNames es p ↔ (p ++ [n]) ∈ es.map Prod.fst := by
  rw [childNames_eq, List.mem_filterMap]
  constructor
  · rintro ⟨k, hk, h⟩
    rw [← childName_some k p n h]; exact hk
  · intro h
    refine ⟨p ++ [n], h, ?_⟩
    simp

theorem nodup_childNames (es : List (Path × Inode)) (p : Path)
    (h : (es.map Prod.fst).Nodup) : (childNames es p).Nodup := by
  rw [childNames_eq]
  apply List.Nodup.filterMap _ h
  intro a a1 b hb hb1
  rw [Option.mem_def] at hb hb1
  rw [childName_some a p b hb, childName_some a1 p b hb1]

theorem mem_childNames_iff_kind (fs : FS) (p : Path) (n : GoString) :
    n ∈ childNames fs.entries p ↔ (fs.kind (p ++ [n])).isSome := by
  rw [mem_childNames, kind_isSome_iff fs _ (by simp)]

/-! ### Well-formed states -/

theorem wf_parent (fs : FS) (hwf : fs.wf) (p : Path) (hp : p ≠ []) (h : (fs.kind p).isSome) :
    fs.kind p.dropLast = some true ∧ ∀ n ∈ p, plainName n := by
  rw [kind_isSome_iff fs p hp, List.mem_map] at h
  obtain ⟨e, he, rfl⟩ := h
  exact ⟨(hwf.2 e he).2.2, (hwf.2 e he).2.1⟩

/-- In a well-formed state every entry lies below directories only. -/
theorem wf_above (fs : FS) (hwf : fs.wf) (q : Path) :
    ∀ x : Path, x ≠ [] → (fs.kind (q ++ x)).isSome → fs.kind q = some true := by
  intro x
  induction x using List.reverseRecOn with
  | nil => intro h; exact absurd rfl h
  | append_singleton x n ih =>
    intro _ h
    have hp := (wf_parent fs hwf (q ++ (x ++ [n])) (by simp) h).1
    rw [← List.append_assoc, List.dropLast_concat] at hp
    by_cases hx : x = []
    · subst hx; simpa using hp
    · exact ih hx (by rw [hp]; rfl)

theorem wf_names (fs : FS) (hwf : fs.wf) (p : Path) (h : (fs.kind p).isSome) :
    ∀ n ∈ p, plainName n := by
  by_cases hp : p = []
  · subst hp; intro n hn; simp at hn
  · exact (wf_parent fs hwf p hp h).2

/-- Nothing lies below a regular file or below a place where nothing is. -/
theorem wf_below_none (fs : FS) (hwf : fs.wf) (q x : Path) (hx : x ≠ [])
    (h : fs.kind q ≠ some true) : fs.kind (q ++ x) = none := by
  by_contra hne
  exact h (wf_above fs hwf q x hx (Option.ne_none_iff_isSome.1 hne))

theorem wf_set (fs : FS) (hwf : fs.wf) (p : Path) (i : Inode) (hp : p ≠ [])
    (hnames : ∀ n ∈ p, plainName n) (hparent : fs.kind p.dropLast = some true)
    (hdir : fs.kind p = some true → i.isDir = true) : (fs.set p i).wf := by
  have hdl : p.dropLast ≠ p := by
    intro e
    have := congrArg List.length e
    rw [List.length_dropLast] at this
    have : 0 < p.length := List.length_pos.2 hp
    omega
  constructor
  · simp only [FS.set, List.map_cons, List.nodup_cons]
    constructor
    · intro h
      obtain ⟨e, he, hep⟩ := List.mem_map.1 h
      have := (List.mem_filter.1 he).2
      rw [hep] at this
      simp only [decide_True, Bool.not_true] at this
      exact absurd this (by decide)
    · exact (hwf.1.sublist ((List.filter_sublist _).map Prod.fst))
  · intro e he
    simp only [FS.set, List.mem_cons, List.mem_filter] at he
    rcases he with he | ⟨he, hne⟩
    · subst he
      refine ⟨hp, hnames, ?_⟩
      rw [kind_set_ne fs p _ i hdl]; exact hparent
    · obtain ⟨a1, a2, a3⟩ := hwf.2 e he
      refine ⟨a1, a2, ?_⟩
      by_cases hpar : e.1.dropLast = p
      · rw [hpar, kind_set_self fs p i hp]
        rw [hpar] at a3
        rw [hdir a3]
      · rw [kind_set_ne fs p _ i hpar]; exact a3

theorem wf_remove (fs : FS) (hwf : fs.wf) (p : Path)
    (hnd : fs.kind p ≠ some true) : (fs.remove p).wf := by
  constructor
  · simp only [FS.remove]
    exact (hwf.1.sublist ((List.filter_sublist _).map Prod.fst))
  · intro e he
    simp only [FS.remove, List.mem_filter] at he
    obtain ⟨he, hne⟩ := he
    obtain ⟨a1, a2, a3⟩ := hwf.2 e he
    refine ⟨a1, a2, ?_⟩
    have hpar : e.1.dropLast ≠ p := by
      intro e2; rw [e2] at a3; exact hnd a3
    rw [kind_remove_ne fs p _ hpar]; exact a3

/-! ### Resolution by the system calls -/

theorem resolve_denote (fs : FS) (s : GoString) (P : Path) (h : resolve fs s = .ok P) :
    denote fs s = .ok P := by
  unfold resolve at h
  split_ifs at h
  exact h

theorem resolve_length (fs : FS) (s : GoString) (P : Path) (h : resolve fs s = .ok P) :
    s.length < 4096 := by
  unfold resolve at h
  split_ifs at h with hl
  omega

theorem resolve_of_denote (fs : FS) (s : GoString) (hlen : s.length < 4096) :
    resolve fs s = denote fs s := by
  unfold resolve
  rw [if_neg (by omega)]

theorem resolve_long (fs : FS) (s : GoString) (hlen : 4096 ≤ s.length) :
    resolve fs s = .error .ENAMETOOLONG := by
  unfold resolve
  rw [if_pos hlen]

/-- The place a step leads to does not depend on the state. -/
theorem step_unique (fs fs1 : FS) (cur a b : Path) (seg : GoString)
    (h : step fs cur seg = .ok a) (h1 : step fs1 cur seg = .ok b) : a = b := by
  have hk := step_ok_dir fs cur a seg h
  have hk1 := step_ok_dir fs1 cur b seg h1
  rw [step_of_dir fs cur seg hk] at h
  rw [step_of_dir fs1 cur seg hk1] at h1
  split_ifs at h h1 <;> simp_all

theorem resolveFrom_unique (fs fs1 : FS) (segs : List GoString) :
    ∀ (cur a b : Path), resolveFrom fs cur segs = .ok a → resolveFrom fs1 cur segs = .ok b →
      a = b := by
  induction segs with
  | nil =>
    intro cur a b h h1
    simp only [resolveFrom, Except.ok.injEq] at h h1
    rw [← h, ← h1]
  | cons seg rest ih =>
    intro cur a b h h1
    simp only [resolveFrom] at h h1
    cases hs : step fs cur seg with
    | error e => rw [hs] at h; simp at h
    | ok next =>
      cases hs1 : step fs1 cur seg with
      | error e => rw [hs1] at h1; simp at h1
      | ok next1 =>
        rw [hs] at h
        rw [hs1] at h1
        have := step_unique fs fs1 cur next next1 seg hs hs1
        subst this
        exact ih next a b h h1

/-- The place a path name denotes does not depend on the state. -/
theorem denote_unique (fs fs1 : FS) (s : GoString) (a b : Path)
    (h : denote fs s = .ok a) (h1 : denote fs1 s = .ok b) : a = b := by
  have hs := denote_ne_nil fs s a h
  rw [denote_eq_resolveFrom fs s hs] at h
  rw [denote_eq_resolveFrom fs1 s hs] at h1
  exact resolveFrom_unique fs fs1 _ _ _ _ h h1

/-! ### What a system call that succeeded has done -/

theorem os_Lstat_ok (fs : FS) (s : GoString) (info : FileInfo)
    (h : os_Lstat fs s = .ok info) :
    ∃ P, resolve fs s = .ok P ∧ fs.kind P = some info.isDir ∧
      ((info.isDir = true ∧ fs.lookup P = some (.dir info.mode)) ∨
        (info.isDir = false ∧ ∃ d, fs.lookup P = some (.file info.mode d))) := by
  unfold os_Lstat at h
  cases hr : resolve fs s with
  | error e => rw [hr] at h; simp at h
  | ok P =>
    rw [hr] at h
    simp only at h
    cases hl : fs.lookup P with
    | none => rw [hl] at h; simp at h
    | some i =>
      rw [hl] at h
      cases i with
      | file m d =>
        simp only [Except.ok.injEq] at h
        subst h
        exact ⟨P, rfl, by simp [FS.kind, hl, Inode.isDir], Or.inr ⟨rfl, d, hl⟩⟩
      | dir m =>
        simp only [Except.ok.injEq] at h
        subst h
        exact ⟨P, rfl, by simp [FS.kind, hl, Inode.isDir], Or.inl ⟨rfl, hl⟩⟩

theorem os_Lstat_of_kind (fs : FS) (s : GoString) (P : Path) (b : Bool)
    (hres : resolve fs s = .ok P) (hk : fs.kind P = some b) :
    ∃ info, os_Lstat fs s = .ok info ∧ info.isDir = b := by
  unfold FS.kind at hk
  cases hl : fs.lookup P with
  | none => rw [hl] at hk; simp at hk
  | some i =>
    rw [hl] at hk
    cases i with
    | file m d =>
      refine ⟨⟨false, m⟩, by simp only [os_Lstat, hres, hl], ?_⟩
      simpa [Inode.isDir] using hk
    | dir m =>
      refine ⟨⟨true, m⟩, by simp only [os_Lstat, hres, hl], ?_⟩
      simpa [Inode.isDir] using hk

theorem os_Lstat_long (fs : FS) (s : GoString) (hlen : 4096 ≤ s.length) :
    os_Lstat fs s = .error .ENAMETOOLONG := by
  simp only [os_Lstat, resolve_long fs s hlen]

/-- What `readDirNames` returned: the names in the directory, each once. -/
theorem readDirNames_ok (fs : FS) (d : GoString) (ns : List GoString) (hwf : fs.wf)
    (h : readDirNames fs d = .ok ns) :
    ∃ P, resolve fs d = .ok P ∧ fs.kind P = some true ∧ ns.Nodup ∧
      ∀ n, n ∈ ns ↔ (fs.kind (P ++ [n])).isSome := by
  unfold readDirNames at h
  cases hr : resolve fs d with
  | error e => rw [hr] at h; simp at h
  | ok P =>
    rw [hr] at h
    simp only at h
    cases hl : fs.lookup P with
    | none => rw [hl] at h; simp at h
    | some i =>
      rw [hl] at h
      cases i with
      | file m c => simp at h
      | dir m =>
        simp only [Except.ok.injEq] at h
        subst h
        refine ⟨P, rfl, by simp [FS.kind, hl, Inode.isDir], ?_, ?_⟩
        · exact (List.perm_insertionSort _ _).nodup_iff.2 (nodup_childNames _ _ hwf.1)
        · intro n
          rw [(List.perm_insertionSort _ _).mem_iff, mem_childNames_iff_kind]

theorem os_Mkdir_ok (fs fs1 : FS) (s : GoString) (perm : Nat)
    (h : os_Mkdir fs s perm = .ok fs1) :
    ∃ P, resolve fs s = .ok P ∧ fs.lookup P = none ∧
      fs1 = fs.set P (.dir (maskMode perm fs.umask)) := by
  unfold os_Mkdir at h
  cases hr : resolve fs s with
  | error e => rw [hr] at h; simp at h
  | ok P =>
    rw [hr] at h
    simp only at h
    cases hl : fs.lookup P with
    | some i => rw [hl] at h; simp at h
    | none =>
      rw [hl] at h
      simp only [Except.ok.injEq] at h
      exact ⟨P, rfl, hl, h.symm⟩

theorem not_dir_ne_nil (fs : FS) (P : Path) (h : fs.kind P ≠ some true) : P ≠ [] := by
  rintro rfl
  exact h (root_kind fs)

/-- What `CopyFile` has done when it returned no error: the destination, which held a
regular file or nothing, holds a regular file with the content of the source. -/
theorem CopyFile_ok (fs fs1 : FS) (src dst : GoString)
    (h : CopyFile src dst fs = (none, fs1)) :
    ∃ Ps Pd m1 d, resolve fs src = .ok Ps ∧ resolve fs dst = .ok Pd ∧
      fs.kind Pd ≠ some true ∧
      fs1 = (fs.set Pd (.file m1 [])).set Pd (.file m1 d) ∧
      (∀ m c, fs.lookup Ps = some (.file m c) → Ps ≠ Pd → d = c) ∧
      (fs.lookup Pd = none → m1 = maskMode 0o666 fs.umask) ∧
      (∀ m c, fs.lookup Pd = some (.file m c) → m1 = m) := by
  unfold CopyFile at h
  cases ho : os_Open fs src with
  | error e => rw [ho] at h; simp at h
  | ok Ps =>
    rw [ho] at h
    simp only at h
    cases hc : os_Create fs dst with
    | error e => rw [hc] at h; simp at h
    | ok res =>
      obtain ⟨fsc, Pd⟩ := res
      rw [hc] at h
      simp only at h
      cases hio : io_Copy fsc Pd Ps with
      | error e => rw [hio] at h; simp at h
      | ok fs2 =>
        rw [hio] at h
        simp only [Prod.mk.injEq, true_and] at h
        subst h
        unfold os_Open at ho
        cases hrs : resolve fs src with
        | error e => rw [hrs] at ho; simp at ho
        | ok Ps1 =>
          rw [hrs] at ho
          simp only at ho
          cases hls : fs.lookup Ps1 with
          | none => rw [hls] at ho; simp at ho
          | some i =>
            rw [hls] at ho
            simp only [Except.ok.injEq] at ho
            subst ho
            unfold os_Create at hc
            cases hrd : resolve fs dst with
            | error e => rw [hrd] at hc; simp at hc
            | ok Pd1 =>
              rw [hrd] at hc
              simp only at hc
              have key : ∃ m1, fs.kind Pd1 ≠ some true ∧ fsc = fs.set Pd1 (.file m1 []) ∧
                  Pd = Pd1 ∧ (fs.lookup Pd1 = none → m1 = maskMode 0o666 fs.umask) ∧
                  (∀ m c, fs.lookup Pd1 = some (.file m c) → m1 = m) := by
                cases hld : fs.lookup Pd1 with
                | none =>
                  rw [hld] at hc
                  simp only [Except.ok.injEq, Prod.mk.injEq] at hc
                  exact ⟨_, by simp [FS.kind, hld], hc.1.symm, hc.2.symm, fun _ => rfl,
                    fun m c hh => by simp at hh⟩
                | some j =>
                  rw [hld] at hc
                  cases j with
                  | dir m => simp at hc
                  | file m c =>
                    simp only [Except.ok.injEq, Prod.mk.injEq] at hc
                    refine ⟨m, by simp [FS.kind, hld, Inode.isDir], hc.1.symm, hc.2.symm,
                      fun hh => by simp at hh, ?_⟩
                    intro m2 c2 hh
                    simp only [Option.some.injEq, Inode.file.injEq] at hh
                    exact hh.1
              obtain ⟨m1, hnd, hfsc, hPd, hm1, hm2⟩ := key
              subst hfsc hPd
              have hPdne := not_dir_ne_nil fs Pd hnd
              unfold io_Copy at hio
              cases hl2 : (fs.set Pd (.file m1 [])).lookup Ps1 with
              | none => rw [hl2] at hio; simp at hio
              | some k =>
                rw [hl2] at hio
                cases k with
                | dir m => simp at hio
                | file m d =>
                  simp only at hio
                  rw [lookup_set_self _ _ _ hPdne] at hio
                  simp only [Except.ok.injEq] at hio
                  refine ⟨Ps1, Pd, m1, d, rfl, rfl, hnd, hio.symm, ?_, hm1, hm2⟩
                  intro m0 c0 h0 hne
                  rw [lookup_set_ne _ _ _ _ hne, h0] at hl2
                  simp only [Option.some.injEq, Inode.file.injEq] at hl2
                  exact hl2.2.symm

/-! ### Cleaned path names -/

theorem Clean_eq_cleanStr (path : GoString) :
    Clean path = cleanStr (isRooted path) (cleanSegs path) := rfl

theorem splitPath_cleanStr (r : Bool) (L : List GoString)
    (hL : ∀ x ∈ L, x ≠ [] ∧ sep ∉ x) :
    splitPath (cleanStr r L) =
      if r then (if L = [] then [[], []] else [] :: L)
      else if L = [] then [[dot]] else L := by
  have hne : ∀ x ∈ L, x ≠ [] := fun x hx => (hL x hx).1
  have hns : ∀ x ∈ L, sep ∉ x := fun x hx => (hL x hx).2
  unfold cleanStr
  by_cases hr : r = true
  · rw [if_pos hr, if_pos hr, splitPath_cons_sep]
    by_cases he : L = []
    · rw [if_pos he, he, joinSep_nil]; rfl
    · rw [if_neg he, splitPath_joinSep _ he hns]
  · rw [if_neg hr, if_neg hr]
    by_cases he : L = []
    · rw [if_pos he, he, joinSep_nil, if_pos rfl]; rfl
    · have : joinSep L ≠ [] := fun e => he (joinSep_eq_nil _ hne e)
      rw [if_neg he, if_neg this, splitPath_joinSep _ he hns]

theorem cleanStr_ne_nil (r : Bool) (L : List GoString) : cleanStr r L ≠ [] := by
  unfold cleanStr
  split_ifs with h1 h2
  · simp
  · simp
  · exact h2

/-- A cleaned path name denotes the place its elements lead to. -/
theorem denote_cleanStr (fs : FS) (r : Bool) (L : List GoString)
    (hL : ∀ x ∈ L, x ≠ [] ∧ sep ∉ x) :
    denote fs (cleanStr r L) = resolveFrom fs [] L := by
  rw [denote_eq_resolveFrom fs _ (cleanStr_ne_nil r L), splitPath_cleanStr r L hL]
  have hroot := step_of_dir fs [] [] (root_kind fs)
  have hdot := step_of_dir fs [] [dot] (root_kind fs)
  simp only [true_or, or_true, if_true] at hroot hdot
  split_ifs with h1 h2 h3
  · rw [h2]; simp only [resolveFrom, hroot]
  · simp only [resolveFrom, hroot]
  · rw [h3]; simp only [resolveFrom, hdot]
  · rfl

theorem denote_Clean_eq (fs : FS) (path : GoString) :
    denote fs (Clean path) = resolveFrom fs [] (cleanSegs path) := by
  rw [Clean_eq_cleanStr]
  exact denote_cleanStr fs _ _ (fun x hx =>
    ⟨(cleanSegs_mem path x hx).1, (cleanSegs_mem path x hx).2.2⟩)

theorem cleanStr_single (r : Bool) (n : GoString) (hn : n ≠ []) :
    cleanStr r [n] = if r then sep :: n else n := by
  unfold cleanStr
  rw [joinSep_singleton]
  split_ifs <;> rfl

theorem cleanStr_concat (r : Bool) (A : List GoString) (n : GoString) (hA : A ≠ [])
    (hne : ∀ x ∈ A, x ≠ []) :
    cleanStr r (A ++ [n]) = cleanStr r A ++ sep :: n := by
  have hj : joinSep A ≠ [] := fun e => hA (joinSep_eq_nil _ hne e)
  unfold cleanStr
  rw [joinSep_append_singleton A hA n]
  by_cases hr : r = true
  · rw [if_pos hr, if_pos hr]; simp
  · rw [if_neg hr, if_neg hr, if_neg hj, if_neg (by simp)]

theorem rdropWhile_name (X n : GoString) (h1 : n ≠ []) (h2 : sep ∉ n) :
    (X ++ n).rdropWhile (fun c => decide (c = sep)) = X ++ n := by
  rw [List.rdropWhile_eq_self_iff]
  intro hl
  rw [List.getLast_append_of_ne_nil h1]
  have hmem := List.getLast_mem h1
  intro h
  simp only [decide_eq_true_eq] at h
  exact h2 (h ▸ hmem)

theorem lastSepLoop_append (X n : GoString) (hX : X = [] ∨ ∃ Y, X = Y ++ [sep])
    (hn : sep ∉ n) : ∀ k : Nat, k ≤ n.length → lastSepLoop (X ++ n) (X.length + k) = X.length := by
  intro k
  induction k with
  | zero =>
    intro _
    rcases hX with rfl | ⟨Y, rfl⟩
    · rfl
    · have hget : (Y ++ [sep] ++ n).get? Y.length = some sep := by
        rw [List.get?_eq_getElem?, List.append_assoc, List.getElem?_append_right (le_refl _)]
        simp
      simp only [List.length_append, List.length_singleton, Nat.add_zero, lastSepLoop, hget,
        if_true]
  | succ k ih =>
    intro hk
    have hlt : k < n.length := hk
    have hget : (X ++ n).get? (X.length + k) = some (n.get ⟨k, hlt⟩) := by
      rw [List.get?_eq_getElem?, List.getElem?_append_right (by omega)]
      rw [show X.length + k - X.length = k by omega]
      simp [List.getElem?_eq_getElem hlt]
    have hc : n.get ⟨k, hlt⟩ ≠ sep := fun e => hn (e ▸ List.get_mem _ _ _)
    rw [show X.length + (k + 1) = (X.length + k) + 1 by omega]
    simp only [lastSepLoop, hget, hc, if_false]
    exact ih (by omega)

theorem mkdirAllParent_append (X n : GoString) (hX : X = [] ∨ ∃ Y, X = Y ++ [sep])
    (h1 : n ≠ []) (h2 : sep ∉ n) : mkdirAllParent (X ++ n) = X.dropLast := by
  unfold mkdirAllParent
  simp only [rdropWhile_name X n h1 h2]
  rw [List.length_append, lastSepLoop_append X n hX h2 n.length (le_refl _)]
  rw [List.take_append_of_le_length (by omega), List.dropLast_eq_take]

/-- The parent `os.MkdirAll` computes for a cleaned path name that ends in a name: the
cleaned path name without it, or nothing when the name stands alone. -/
theorem mkdirAllParent_cleanStr (r : Bool) (A : List GoString) (n : GoString)
    (hne : ∀ x ∈ A, x ≠ []) (h1 : n ≠ []) (h2 : sep ∉ n) :
    mkdirAllParent (cleanStr r (A ++ [n])) = if A = [] then [] else cleanStr r A := by
  by_cases hA : A = []
  · subst hA
    rw [if_pos rfl, List.nil_append, cleanStr_single r n h1]
    by_cases hr : r = true
    · rw [if_pos hr]
      have := mkdirAllParent_append [sep] n (Or.inr ⟨[], rfl⟩) h1 h2
      simpa using this
    · rw [if_neg hr]
      have := mkdirAllParent_append [] n (Or.inl rfl) h1 h2
      simpa using this
  · rw [if_neg hA, cleanStr_concat r A n hA hne]
    have := mkdirAllParent_append (cleanStr r A ++ [sep]) n (Or.inr ⟨_, rfl⟩) h1 h2
    rw [List.dropLast_concat, List.append_assoc, List.singleton_append] at this
    exact this

/-! ### `os.MkdirAll` -/

theorem resolveFrom_dotdots (fs : FS) (L : List GoString) (h : ∀ y ∈ L, y = [dot, dot]) :
    resolveFrom fs [] L = .ok [] := by
  induction L with
  | nil => rfl
  | cons y L ih =>
    have hy := h y (List.mem_cons_self _ _)
    subst hy
    have hs := step_of_dir fs [] [dot, dot] (root_kind fs)
    rw [if_neg (by decide), if_pos rfl] at hs
    simp only [resolveFrom, hs, List.dropLast_nil]
    exact ih (fun z hz => h z (List.mem_cons_of_mem _ hz))

theorem mkdirAllLoop_stat_ok (fuel : Nat) (fs : FS) (path : GoString) (perm : Nat)
    (info : FileInfo) (h : os_Stat fs path = .ok info) :
    mkdirAllLoop (fuel + 1) fs path perm = if info.isDir then .ok fs else .error .ENOTDIR := by
  simp only [mkdirAllLoop, h]

/-- What the slow path of `os.MkdirAll` has done when it returned no error. -/
theorem mkdirAllLoop_slow (fuel : Nat) (fs fs1 : FS) (path : GoString) (perm : Nat) (e : Error)
    (hs : os_Stat fs path = .error e)
    (h : mkdirAllLoop (fuel + 1) fs path perm = .ok fs1) :
    ∃ fsm, (if 0 < (mkdirAllParent path).length
        then mkdirAllLoop fuel fs (mkdirAllParent path) perm else .ok fs) = .ok fsm ∧
      (os_Mkdir fsm path perm = .ok fs1 ∨
        (fs1 = fsm ∧ ∃ info, os_Lstat fsm path = .ok info ∧ info.isDir = true)) := by
  simp only [mkdirAllLoop, hs] at h
  cases hm : (if 0 < (mkdirAllParent path).length
      then mkdirAllLoop fuel fs (mkdirAllParent path) perm else .ok fs) with
  | error e1 => rw [hm] at h; simp at h
  | ok fsm =>
    rw [hm] at h
    simp only at h
    refine ⟨fsm, rfl, ?_⟩
    cases hk : os_Mkdir fsm path perm with
    | ok fs2 =>
      rw [hk] at h
      simp only [Except.ok.injEq] at h
      exact Or.inl (by rw [h])
    | error e2 =>
      rw [hk] at h
      simp only at h
      cases hl : os_Lstat fsm path with
      | error e3 => rw [hl] at h; simp at h
      | ok info =>
        rw [hl] at h
        simp only at h
        split_ifs at h with hd
        simp only [Except.ok.injEq] at h
        exact Or.inr ⟨h.symm, info, rfl, hd⟩

theorem cleanStack_good (r : Bool) (L : List GoString) (h : cleanStack r L.reverse) :
    ∀ x ∈ L, x ≠ [] ∧ sep ∉ x := by
  intro x hx
  have := cleanStack_mem r _ h x (List.mem_reverse.2 hx)
  exact ⟨this.1, this.2.2⟩

/-- `os.MkdirAll` on a cleaned path name, when it returned no error: the path name leads to
a directory; the entries that were there are as they were, and an entry that was not there
is a directory on the way to that directory. -/
theorem mkdirAll_clean (perm : Nat) (r : Bool) :
    ∀ (fuel : Nat) (L : List GoString) (fs fs1 : FS), fs.wf → cleanStack r L.reverse →
      mkdirAllLoop fuel fs (cleanStr r L) perm = .ok fs1 →
      ∃ P, resolveFrom fs1 [] L = .ok P ∧ fs1.kind P = some true ∧ fs1.wf ∧
        (∀ q, (fs.lookup q).isSome → fs1.lookup q = fs.lookup q) ∧
        (∀ q, fs.lookup q = none → (fs1.lookup q).isSome →
          q <+: P ∧ fs1.kind q = some true) := by
  intro fuel
  induction fuel with
  | zero =>
    intro L fs fs1 _ _ h
    simp [mkdirAllLoop] at h
  | succ fuel ih =>
    intro L fs fs1 hwf hst h
    have hL := cleanStack_good r L hst
    have hden : ∀ s : FS, denote s (cleanStr r L) = resolveFrom s [] L :=
      fun s => denote_cleanStr s r L hL
    have same : ∀ P, resolveFrom fs [] L = .ok P → fs.kind P = some true → fs1 = fs →
        ∃ P, resolveFrom fs1 [] L = .ok P ∧ fs1.kind P = some true ∧ fs1.wf ∧
          (∀ q, (fs.lookup q).isSome → fs1.lookup q = fs.lookup q) ∧
          (∀ q, fs.lookup q = none → (fs1.lookup q).isSome →
            q <+: P ∧ fs1.kind q = some true) := by
      intro P hP hk he
      subst he
      refine ⟨P, hP, hk, hwf, fun _ _ => rfl, ?_⟩
      intro q hq hq2
      rw [hq] at hq2
      simp at hq2
    cases hstat : os_Stat fs (cleanStr r L) with
    | ok info =>
      rw [mkdirAllLoop_stat_ok fuel fs _ perm info hstat] at h
      split_ifs at h with hd
      simp only [Except.ok.injEq] at h
      obtain ⟨P, hres, hk, _⟩ := os_Lstat_ok fs _ info hstat
      rw [hd] at hk
      have := resolve_denote fs _ P hres
      rw [hden] at this
      exact same P this hk h.symm
    | error e =>
      obtain ⟨fsm, hmade, hfin⟩ := mkdirAllLoop_slow fuel fs fs1 _ perm e hstat h
      -- the path name is short enough, or nothing at all succeeds
      have hlen : (cleanStr r L).length < 4096 := by
        by_contra hl
        have hl2 : 4096 ≤ (cleanStr r L).length := by omega
        rcases hfin with hmk | ⟨_, info, hls, _⟩
        · obtain ⟨P, hres, _⟩ := os_Mkdir_ok fsm fs1 _ perm hmk
          rw [resolve_long fsm _ hl2] at hres
          simp at hres
        · rw [os_Lstat_long fsm _ hl2] at hls
          simp at hls
      rcases List.eq_nil_or_concat L with hnil | ⟨A, n, hAn⟩
      · -- the root or the working directory: `Stat` cannot have failed
        subst hnil
        exfalso
        have hr := hden fs
        simp only [resolveFrom] at hr
        have : os_Lstat fs (cleanStr r []) = .ok ⟨true, 0o755⟩ := by
          simp only [os_Lstat, resolve_of_denote fs _ hlen, hr, FS.lookup, if_true]
        rw [show os_Stat fs (cleanStr r []) = os_Lstat fs (cleanStr r []) from rfl, this] at hstat
        simp at hstat
      · rw [List.concat_eq_append] at hAn
        subst hAn
        rw [List.reverse_append, List.reverse_singleton, List.singleton_append] at hst
        obtain ⟨n1, n2, n3, n4, hstA⟩ := hst
        have hLA : ∀ x ∈ A, x ≠ [] := fun x hx => (hL x (List.mem_append_left _ hx)).1
        by_cases hn : n = [dot, dot]
        · -- only `..` elements: `Stat` cannot have failed
          exfalso
          obtain ⟨_, hall⟩ := n4 hn
          have hall2 : ∀ y ∈ A ++ [n], y = [dot, dot] := by
            intro y hy
            rcases List.mem_append.1 hy with h1 | h1
            · exact hall y (List.mem_reverse.2 h1)
            · rw [List.mem_singleton.1 h1]; exact hn
          have hr := hden fs
          rw [resolveFrom_dotdots fs _ hall2] at hr
          have : os_Lstat fs (cleanStr r (A ++ [n])) = .ok ⟨true, 0o755⟩ := by
            simp only [os_Lstat, resolve_of_denote fs _ hlen, hr, FS.lookup, if_true]
          rw [show os_Stat fs (cleanStr r (A ++ [n])) = os_Lstat fs _ from rfl, this] at hstat
          simp at hstat
        · -- the parent
          have hparent : ∃ PA, resolveFrom fsm [] A = .ok PA ∧ fsm.kind PA = some true ∧
              fsm.wf ∧ (∀ q, (fs.lookup q).isSome → fsm.lookup q = fs.lookup q) ∧
              (∀ q, fs.lookup q = none → (fsm.lookup q).isSome →
                q <+: PA ∧ fsm.kind q = some true) := by
            rw [mkdirAllParent_cleanStr r A n hLA n1 n3] at hmade
            by_cases hA : A = []
            · subst hA
              simp only [if_true, List.length_nil, lt_irrefl, if_false, Except.ok.injEq] at hmade
              subst hmade
              refine ⟨[], rfl, root_kind _, hwf, fun _ _ => rfl, ?_⟩
              intro q hq hq2
              rw [hq] at hq2
              simp at hq2
            · rw [if_neg hA, if_pos (List.length_pos.2 (cleanStr_ne_nil r A))] at hmade
              exact ih A fs fsm hwf hstA hmade
          obtain ⟨PA, hPA, hkPA, hwfm, hfr1, hfr2⟩ := hparent
          -- where the path name leads in the state the parent was made in
          have hstep : denote fsm (cleanStr r (A ++ [n])) = step fsm PA n := by
            rw [hden fsm, resolveFrom_append, hPA]
            simp only
            rw [resolveFrom_singleton]
          have hQ : ∀ Q, resolve fsm (cleanStr r (A ++ [n])) = .ok Q →
              Q = PA ++ [n] ∧ plainName n := by
            intro Q hres
            have hd := resolve_denote fsm _ Q hres
            rw [hstep] at hd
            exact ⟨step_name fsm PA Q n n1 n2 hn hd,
              n1, n3, n2, hn, step_name_length fsm PA Q n n1 n2 hn hd⟩
          rcases hfin with hmk | ⟨he, info, hls, hd⟩
          · obtain ⟨Q, hres, hnone, hfs1⟩ := os_Mkdir_ok fsm fs1 _ perm hmk
            obtain ⟨hQe, hpl⟩ := hQ Q hres
            subst hQe
            have hPne : PA ++ [n] ≠ [] := by simp
            have hwf1 : fs1.wf := by
              rw [hfs1]
              apply wf_set fsm hwfm _ _ hPne
              · intro k hk
                rcases List.mem_append.1 hk with h1 | h1
                · exact wf_names fsm hwfm PA (by rw [hkPA]; rfl) k h1
                · rw [List.mem_singleton.1 h1]; exact hpl
              · rw [List.dropLast_concat]; exact hkPA
              · intro _; rfl
            have hdirs : ∀ q, fsm.kind q = some true → fs1.kind q = some true := by
              intro q hq
              by_cases hqe : q = PA ++ [n]
              · rw [hqe, hfs1, kind_set_self _ _ _ hPne]; rfl
              · rw [hfs1, kind_set_ne _ _ _ _ hqe]; exact hq
            refine ⟨PA ++ [n], ?_, ?_, hwf1, ?_, ?_⟩
            · have := resolve_denote fsm _ _ hres
              rw [hden] at this
              exact resolveFrom_mono fsm fs1 hdirs _ _ _ this
            · rw [hfs1, kind_set_self _ _ _ hPne]; rfl
            · intro q hq
              have hqe : q ≠ PA ++ [n] := by
                rintro rfl
                rw [← hfr1 _ hq, hnone] at hq
                simp at hq
              rw [hfs1, lookup_set_ne _ _ _ _ hqe]
              exact hfr1 q hq
            · intro q hq hq2
              by_cases hqe : q = PA ++ [n]
              · subst hqe
                exact ⟨List.prefix_refl _, by rw [hfs1, kind_set_self _ _ _ hPne]; rfl⟩
              · rw [hfs1, lookup_set_ne _ _ _ _ hqe] at hq2
                obtain ⟨h1, h2⟩ := hfr2 q hq hq2
                exact ⟨h1.trans (List.prefix_append _ _), hdirs q h2⟩
          · subst he
            obtain ⟨Q, hres, hk, _⟩ := os_Lstat_ok fs1 _ info hls
            rw [hd] at hk
            obtain ⟨hQe, _⟩ := hQ Q hres
            subst hQe
            refine ⟨PA ++ [n], ?_, hk, hwfm, hfr1, ?_⟩
            · have := resolve_denote fs1 _ _ hres
              rw [hden] at this
              exact this
            · intro q hq hq2
              obtain ⟨h1, h2⟩ := hfr2 q hq hq2
              exact ⟨h1.trans (List.prefix_append _ _), h2⟩

/-! ### The walk -/

theorem walk_file (fn : WalkFunc) (d : Nat) (p : GoString) (info : FileInfo) (fs : FS)
    (h : info.isDir = false) : walk fn (d + 1) p info fs = some (fn p (some info) none fs) := by
  simp [walk, h]

theorem copyFn_passesErrors (fc : FileConverter) : passesErrors fc.copyFn := by
  intro p i e s
  simp [FileConverter.copyFn]

theorem renameFn_passesErrors (fc : FileConverter) : passesErrors fc.renameFn := by
  intro p i e s
  simp [FileConverter.renameFn]

theorem replaceFn_passesErrors (fc : FileConverter) : passesErrors fc.replaceFn := by
  intro p i e s
  simp [FileConverter.replaceFn]

/-- A walk of a directory that returned no error: the names were read, the function
returned no error on the directory, and the loop over the names returned none. -/
theorem walk_dir_ok (fn : WalkFunc) (herr : passesErrors fn) (d : Nat) (p : GoString)
    (info : FileInfo) (fs fsB : FS) (hdir : info.isDir = true)
    (h : walk fn (d + 1) p info fs = some (none, fsB)) :
    ∃ ns fs1, readDirNames fs p = .ok ns ∧ fn p (some info) none fs = (none, fs1) ∧
      walkNames (fun name fs2 =>
        match os_Lstat fs2 (Join [p, name]) with
        | .error e => some (fn (Join [p, name]) none (some e) fs2)
        | .ok fileInfo => walk fn d (Join [p, name]) fileInfo fs2) ns fs1 = some (none, fsB) := by
  simp only [walk, hdir, Bool.not_true, Bool.false_eq_true, if_false] at h
  cases hn : readDirNames fs p with
  | error e =>
    rw [hn] at h
    simp only at h
    have := herr p (some info) e fs
    cases hf : fn p (some info) (some e) fs with
    | mk err fs1 =>
      rw [hf] at h this
      cases err with
      | none => exact absurd rfl this
      | some e1 => simp at h
  | ok ns =>
    rw [hn] at h
    simp only at h
    cases hf : fn p (some info) none fs with
    | mk err fs1 =>
      rw [hf] at h
      cases err with
      | some e1 => simp at h
      | none => exact ⟨ns, fs1, rfl, rfl, h⟩

/-- A visit of a name that returned no error: `Lstat` succeeded and the walk below the name
returned no error. -/
theorem visit_ok (fn : WalkFunc) (herr : passesErrors fn) (d : Nat) (f : GoString)
    (cur fs2 : FS)
    (h : (match os_Lstat cur f with
      | .error e => some (fn f none (some e) cur)
      | .ok fileInfo => walk fn d f fileInfo cur) = some (none, fs2)) :
    ∃ fi, os_Lstat cur f = .ok fi ∧ walk fn d f fi cur = some (none, fs2) := by
  cases hl : os_Lstat cur f with
  | error e =>
    rw [hl] at h
    simp only [Option.some.injEq] at h
    have := herr f none e cur
    rw [h] at this
    exact absurd rfl this
  | ok fi =>
    rw [hl] at h
    exact ⟨fi, rfl, h⟩

theorem Walk_ok (fn : WalkFunc) (herr : passesErrors fn) (root : GoString) (fs fsB : FS)
    (d : Nat) (h : Walk root fn fs d = some (none, fsB)) :
    ∃ info, os_Lstat fs root = .ok info ∧ walk fn d root info fs = some (none, fsB) := by
  unfold Walk at h
  exact visit_ok fn herr d root fs fsB h

/-- The loop over the names of a directory keeps what every visit keeps. -/
theorem walkNames_inv (visit : GoString → FS → Option (Option Error × FS))
    (I : List GoString → FS → Prop)
    (hstep : ∀ n rest fs fs1, I (n :: rest) fs → visit n fs = some (none, fs1) → I rest fs1) :
    ∀ (names : List GoString) (fs fsB : FS), I names fs →
      walkNames visit names fs = some (none, fsB) → I [] fsB := by
  intro names
  induction names with
  | nil =>
    intro fs fsB hI h
    simp only [walkNames, Option.some.injEq, Prod.mk.injEq, true_and] at h
    subst h; exact hI
  | cons n rest ih =>
    intro fs fsB hI h
    simp only [walkNames] at h
    cases hv : visit n fs with
    | none => rw [hv] at h; simp at h
    | some res =>
      obtain ⟨err, fs1⟩ := res
      cases err with
      | some e => rw [hv] at h; simp at h
      | none =>
        rw [hv] at h
        exact ih fs1 fsB (hstep n rest fs fs1 hI hv) h

/-- A walk keeps what the function keeps on every entry it is called on. -/
theorem walk_keeps (fn : WalkFunc) (herr : passesErrors fn) (I : FS → Prop)
    (hfn : ∀ p info fs fs1, os_Lstat fs p = .ok info → fn p (some info) none fs = (none, fs1) →
      I fs → I fs1) :
    ∀ (d : Nat) (p : GoString) (info : FileInfo) (fs fsB : FS),
      os_Lstat fs p = .ok info → walk fn d p info fs = some (none, fsB) → I fs → I fsB := by
  intro d
  induction d with
  | zero => intro p info fs fsB _ h; simp [walk] at h
  | succ d ih =>
    intro p info fs fsB hl h hI
    cases hdir : info.isDir with
    | false =>
      rw [walk_file _ _ _ _ _ hdir] at h
      simp only [Option.some.injEq] at h
      exact hfn p info fs fsB hl h hI
    | true =>
      obtain ⟨ns, fs1, _, hf, hw⟩ := walk_dir_ok fn herr d p info fs fsB hdir h
      have h1 := hfn p info fs fs1 hl hf hI
      refine walkNames_inv _ (fun _ s => I s) ?_ ns fs1 fsB h1 hw
      intro n rest s s1 hs hv
      obtain ⟨fi, hfi, hwalk⟩ := visit_ok fn herr d _ s s1 hv
      exact ih _ fi s s1 hfi hwalk hs

theorem not_prefix_concat_self (p : Path) (n : GoString) : ¬ (p ++ [n]) <+: p := by
  intro h
  have := h.length_le
  simp at this

theorem prefix_concat_cons (p : Path) (n m : GoString) (x : Path)
    (h : (p ++ [n]) <+: p ++ m :: x) : n = m := by
  have h2 : (p ++ [n]) <+: p ++ ([m] ++ x) := by simpa using h
  rw [List.prefix_append_right_inj] at h2
  have := h2
  simp only [List.singleton_append, List.cons_prefix_cons] at this
  exact this.1

theorem prefix_concat_of_cons (p : Path) (n : GoString) (x : Path) :
    (p ++ [n]) <+: p ++ n :: x := by
  refine ⟨x, ?_⟩
  simp

theorem not_prefix_concat_cons (p : Path) (n m : GoString) (x : Path) (h : n ≠ m) :
    ¬ (p ++ [n]) <+: p ++ m :: x := fun hp => h (prefix_concat_cons p n m x hp)

theorem dropLast_take_prefix (r : Path) (k : Nat) (hk : k < r.length) :
    r.take k <+: r.dropLast := by
  rw [List.dropLast_eq_take]
  exact (List.take_prefix_take_left _ (by omega))

/-- In a well-formed state a place above a directory is a directory. -/
theorem kind_above_dir (fs : FS) (hwf : fs.wf) (q x : Path)
    (h : fs.kind (q ++ x) = some true) : fs.kind q = some true := by
  by_cases hx : x = []
  · subst hx; simpa using h
  · exact wf_above fs hwf q x hx (by rw [h]; rfl)

theorem foldl_cleanStep_plain (rooted : Bool) (r : List GoString)
    (hr : ∀ n ∈ r, plainName n) :
    ∀ st : List GoString, r.foldl (cleanStep rooted) st = r.reverse ++ st := by
  induction r with
  | nil => intro st; rfl
  | cons n r ih =>
    intro st
    have hn := hr n (List.mem_cons_self _ _)
    simp only [List.foldl_cons, List.reverse_cons, List.append_assoc, List.singleton_append]
    rw [cleanStep_push _ _ _ hn.1 hn.2.2.1 hn.2.2.2.1]
    exact ih (fun m hm => hr m (List.mem_cons_of_mem _ hm)) _

theorem cleanSegs_append_names (p : GoString) (r : List GoString) (hp : p ≠ [])
    (hr : ∀ n ∈ r, plainName n) (hne : r ≠ []) :
    cleanSegs (p ++ sep :: joinSep r) = cleanSegs p ++ r := by
  unfold cleanSegs
  rw [isRooted_append p _ hp, splitPath_append_sep,
    splitPath_joinSep r hne (fun n hn => (hr n hn).2.1), List.foldl_append,
    foldl_cleanStep_plain _ r hr, List.reverse_append, List.reverse_reverse]

/-! ### The copy -/

/-- Names followed from a place lead to the place they spell, through directories. -/
theorem resolveFrom_plain (fs : FS) (r : List GoString) :
    ∀ (D Q : Path), (∀ n ∈ r, plainName n) → resolveFrom fs D r = .ok Q →
      Q = D ++ r ∧ ∀ k, k < r.length → fs.kind (D ++ r.take k) = some true := by
  induction r with
  | nil =>
    intro D Q _ h
    simp only [resolveFrom, Except.ok.injEq] at h
    subst h
    exact ⟨by simp, fun k hk => by simp at hk⟩
  | cons n r ih =>
    intro D Q hp h
    simp only [resolveFrom] at h
    cases hs : step fs D n with
    | error e => rw [hs] at h; simp at h
    | ok next =>
      rw [hs] at h
      simp only at h
      have hn := hp n (List.mem_cons_self _ _)
      have hk0 := step_ok_dir fs D next n hs
      have hnext := step_name fs D next n hn.1 hn.2.2.1 hn.2.2.2.1 hs
      subst hnext
      obtain ⟨h1, h2⟩ := ih (D ++ [n]) Q (fun m hm => hp m (List.mem_cons_of_mem _ hm)) h
      refine ⟨by rw [h1]; simp, ?_⟩
      intro k hk
      cases k with
      | zero => simpa using hk0
      | succ k =>
        have := h2 k (by simpa using hk)
        simpa using this

theorem CopySetting.S_exists {fc : FileConverter} {fs0 : FS} {S D : Path}
    (hc : CopySetting fc fs0 S D) : (fs0.kind S).isSome := by
  rw [hc.sdir]; rfl

/-- An entry of the source tree other than the root, and every place below it, is neither
at or above the destination root nor below it. -/
theorem CopySetting.apart_below {fc : FileConverter} {fs0 : FS} {S D : Path}
    (hc : CopySetting fc fs0 S D) (r : Path) (hr : r ≠ []) (h : (fs0.kind (S ++ r)).isSome)
    (y : Path) : ¬ D <+: S ++ r ++ y ∧ ¬ (S ++ r ++ y) <+: D := by
  obtain ⟨h1, h2⟩ := hc.apart r hr h
  constructor
  · intro hp
    rcases List.prefix_or_prefix_of_prefix hp (List.prefix_append (S ++ r) y) with h3 | h3
    · exact h2 h3
    · exact h1 h3
  · intro hp
    exact h1 ((List.prefix_append (S ++ r) y).trans hp)

/-- Where the destination path of the entry at `r` leads, and what the path looks like. -/
theorem copy_dest (fc : FileConverter) (fs0 : FS) (S D : Path) (hc : CopySetting fc fs0 S D)
    (path : GoString) (r : Path)
    (hroot : isRooted path = isRooted fc.SourceDirectory)
    (hsegs : cleanSegs path = cleanSegs fc.SourceDirectory ++ r)
    (hplain : ∀ n ∈ r, plainName n) :
    ∃ rel, Rel fc.SourceDirectory path = .ok rel ∧
      Join [fc.DestinationDirectory, rel] =
        cleanStr (isRooted fc.DestinationDirectory) (cleanSegs fc.DestinationDirectory ++ r) ∧
      cleanStack (isRooted fc.DestinationDirectory)
        (cleanSegs fc.DestinationDirectory ++ r).reverse ∧
      (∀ (cur : FS) (Q : Path),
        resolveFrom cur [] (cleanSegs fc.DestinationDirectory ++ r) = .ok Q → Q = D ++ r) := by
  have hdst := hc.dne
  have hrel := Rel_descendant fc.SourceDirectory path r hroot hsegs
  have hseg2 : cleanSegs (fc.DestinationDirectory ++ sep :: (if r = [] then [dot] else joinSep r))
      = cleanSegs fc.DestinationDirectory ++ r := by
    by_cases hr : r = []
    · rw [if_pos hr, cleanSegs_append_dot _ hdst, hr, List.append_nil]
    · rw [if_neg hr, cleanSegs_append_names _ r hdst hplain hr]
  refine ⟨_, hrel, ?_, ?_, ?_⟩
  · rw [Join_pair _ _ hdst, Clean_eq_cleanStr, isRooted_append _ _ hdst, hseg2]
  · have := cleanStack_cleanSegs
      (fc.DestinationDirectory ++ sep :: (if r = [] then [dot] else joinSep r))
    rw [isRooted_append _ _ hdst, hseg2] at this
    exact this
  · intro cur Q hQ
    rw [resolveFrom_append] at hQ
    obtain ⟨fsx, hx⟩ := hc.dest
    cases hm : resolveFrom cur [] (cleanSegs fc.DestinationDirectory) with
    | error e => rw [hm] at hQ; simp at hQ
    | ok mid =>
      rw [hm] at hQ
      simp only at hQ
      have := resolveFrom_unique cur fsx _ _ _ _ hm hx
      subst this
      exact (resolveFrom_plain cur r mid Q hplain hQ).1

/-- The function of `CopyDirectory` at a directory, when it returned no error: the
destination place holds a directory; the entries that were there are as they were, and an
entry that was not there is a directory on the way to that place. -/
theorem copyFn_dir_ok (fc : FileConverter) (fs0 : FS) (S D : Path) (hc : CopySetting fc fs0 S D)
    (path : GoString) (info : FileInfo) (r : Path) (fsA fsB : FS)
    (hroot : isRooted path = isRooted fc.SourceDirectory)
    (hsegs : cleanSegs path = cleanSegs fc.SourceDirectory ++ r)
    (hplain : ∀ n ∈ r, plainName n) (hinfo : info.isDir = true) (hwfA : fsA.wf)
    (h : fc.copyFn path (some info) none fsA = (none, fsB)) :
    fsB.wf ∧ fsB.kind (D ++ r) = some true ∧
      (∀ q, (fsA.lookup q).isSome → fsB.lookup q = fsA.lookup q) ∧
      (∀ q, fsA.lookup q = none → (fsB.lookup q).isSome →
        q <+: D ++ r ∧ fsB.kind q = some true) := by
  obtain ⟨rel, hrel, hjoin, hst, hplace⟩ := copy_dest fc fs0 S D hc path r hroot hsegs hplain
  simp only [FileConverter.copyFn, hrel, hjoin, hinfo, if_true] at h
  cases hmk : os_MkdirAll fsA (cleanStr (isRooted fc.DestinationDirectory)
      (cleanSegs fc.DestinationDirectory ++ r)) info.mode with
  | error e => rw [hmk] at h; simp at h
  | ok fs1 =>
    rw [hmk] at h
    simp only [Prod.mk.injEq, true_and] at h
    subst h
    unfold os_MkdirAll at hmk
    obtain ⟨P, hP, hk, hwf, hf1, hf2⟩ := mkdirAll_clean info.mode _ _ _ fsA fs1 hwfA hst hmk
    have := hplace fs1 P hP
    subst this
    exact ⟨hwf, hk, hf1, hf2⟩

/-- The function of `CopyDirectory` at a regular file, when it returned no error: the
destination place, which held no directory, holds a regular file with the content of the
source, and nothing else has changed. -/
theorem copyFn_file_ok (fc : FileConverter) (fs0 : FS) (S D : Path) (hc : CopySetting fc fs0 S D)
    (path : GoString) (info : FileInfo) (r : Path) (fsA fsB : FS) (m : Nat) (c : GoString)
    (hroot : isRooted path = isRooted fc.SourceDirectory)
    (hsegs : cleanSegs path = cleanSegs fc.SourceDirectory ++ r)
    (hplain : ∀ n ∈ r, plainName n) (hinfo : info.isDir = false) (hwfA : fsA.wf)
    (hden : denote fsA path = .ok (S ++ r)) (hfile : fsA.lookup (S ++ r) = some (.file m c))
    (hne : S ++ r ≠ D ++ r) (hr : r ≠ [])
    (hpar : fsA.kind (D ++ r).dropLast = some true)
    (h : fc.copyFn path (some info) none fsA = (none, fsB)) :
    fsB.wf ∧ fsA.kind (D ++ r) ≠ some true ∧
      (∃ m1, fsB.lookup (D ++ r) = some (.file m1 c) ∧
        (fsA.lookup (D ++ r) = none → m1 = maskMode 0o666 fsA.umask)) ∧
      (∀ q, q ≠ D ++ r → fsB.lookup q = fsA.lookup q) := by
  obtain ⟨rel, hrel, hjoin, hst, hplace⟩ := copy_dest fc fs0 S D hc path r hroot hsegs hplain
  simp only [FileConverter.copyFn, hrel, hjoin, hinfo, Bool.false_eq_true, if_false] at h
  obtain ⟨Ps, Pd, m1, d, hrs, hrd, hnd, hfs, hdata, hm1, _⟩ := CopyFile_ok fsA fsB _ _ h
  have hPs : Ps = S ++ r := denote_unique fsA fsA path _ _ (resolve_denote _ _ _ hrs) hden
  have hPd : Pd = D ++ r := by
    have := resolve_denote _ _ _ hrd
    rw [denote_cleanStr fsA _ _ (cleanStack_good _ _ hst)] at this
    exact hplace fsA Pd this
  subst hPs hPd
  have hd : d = c := hdata m c hfile hne
  subst hd
  have hP : D ++ r ≠ [] := by simp [hr]
  have hDk : fsA.kind D = some true := by
    rw [List.dropLast_append_of_ne_nil _ hr] at hpar
    exact kind_above_dir fsA hwfA D _ hpar
  have hnames : ∀ k ∈ D ++ r, plainName k := by
    intro k hk
    rcases List.mem_append.1 hk with h1 | h1
    · exact wf_names fsA hwfA D (by rw [hDk]; rfl) k h1
    · exact hplain k h1
  have hdl : (D ++ r).dropLast ≠ D ++ r := by
    intro e
    have := congrArg List.length e
    rw [List.length_dropLast] at this
    have : 0 < (D ++ r).length := List.length_pos.2 hP
    omega
  have hwf1 : (fsA.set (D ++ r) (.file m1 [])).wf := by
    apply wf_set _ hwfA _ _ hP hnames hpar
    intro hh; exact absurd hh hnd
  refine ⟨?_, hnd, ⟨m1, ?_, hm1⟩, ?_⟩
  · rw [hfs]
    apply wf_set _ hwf1 _ _ hP hnames
    · rw [kind_set_ne _ _ _ _ hdl]; exact hpar
    · intro hh; rw [kind_set_self _ _ _ hP] at hh; simp [Inode.isDir] at hh
  · rw [hfs, lookup_set_self _ _ _ hP]
  · intro q hq
    rw [hfs, lookup_set_ne _ _ _ _ hq, lookup_set_ne _ _ _ _ hq]

theorem strict_prefix_dropLast (t r : Path) (h : t <+: r) (hne : t ≠ r) : t <+: r.dropLast := by
  obtain ⟨u, rfl⟩ := h
  have hu : u ≠ [] := by
    rintro rfl
    exact hne (by simp)
  rw [List.dropLast_append_of_ne_nil _ hu]
  exact List.prefix_append _ _

theorem mergeKind_none (old : Option Bool) : mergeKind none old = old := rfl

theorem mergeKind_some (b : Bool) (old : Option Bool) : mergeKind (some b) old = some b := rfl

theorem longer_not_prefix (D x : Path) (hx : x ≠ []) : ¬ (D ++ x) <+: D := by
  intro h
  have := h.length_le
  have : 0 < x.length := List.length_pos.2 hx
  simp only [List.length_append] at *
  omega

/-- The walk of `CopyDirectory` below the place `r` of the source, when it returned no
error: every place at or below `r` of the destination holds an entry of the kind of the
source entry, or what it held when the source has nothing there; directories stay, and
nothing changes at the places that are neither at or below `r` of the destination nor on
the way to the destination root. -/
theorem copy_walk (fc : FileConverter) (fs0 : FS) (S D : Path) (hc : CopySetting fc fs0 S D) :
    ∀ (depth : Nat) (path : GoString) (info : FileInfo) (r : Path) (fsA fsB : FS),
      denote fs0 path = .ok (S ++ r) →
      isRooted path = isRooted fc.SourceDirectory →
      cleanSegs path = cleanSegs fc.SourceDirectory ++ r →
      fs0.kind (S ++ r) = some info.isDir →
      fsA.wf →
      (∀ q, ¬ D <+: q → ¬ q <+: D → fsA.lookup q = fs0.lookup q) →
      (∀ q, fs0.kind q = some true → fsA.kind q = some true) →
      (∀ y, fsA.lookup (S ++ r ++ y) = fs0.lookup (S ++ r ++ y)) →
      (r ≠ [] → fsA.kind (D ++ r).dropLast = some true) →
      (∀ x, fsA.kind (D ++ r ++ x) = fs0.kind (D ++ r ++ x)) →
      walk fc.copyFn depth path info fsA = some (none, fsB) →
      fsB.wf ∧
        (∀ x, fsB.kind (D ++ r ++ x) =
          mergeKind (fs0.kind (S ++ r ++ x)) (fs0.kind (D ++ r ++ x))) ∧
        (∀ q, ¬ (D ++ r) <+: q → ¬ q <+: D → fsB.lookup q = fsA.lookup q) ∧
        (∀ q, fsA.kind q = some true → fsB.kind q = some true) := by
  intro depth
  induction depth with
  | zero =>
    intro path info r fsA fsB _ _ _ _ _ _ _ _ _ _ hwalk
    simp [walk] at hwalk
  | succ depth ih =>
    intro path info r fsA fsB hres hroot hsegs hkind hwfA hF hM hsrc hpar hold hwalk
    have hplain : ∀ n ∈ r, plainName n := fun n hn =>
      wf_names fs0 hc.wf0 (S ++ r) (by rw [hkind]; rfl) n (List.mem_append_right _ hn)
    have hresA : denote fsA path = .ok (S ++ r) := denote_mono fs0 fsA hM _ _ hres
    cases hdir : info.isDir with
    | false =>
      rw [hdir] at hkind
      rw [walk_file _ _ _ _ _ hdir] at hwalk
      simp only [Option.some.injEq] at hwalk
      have hr : r ≠ [] := by
        rintro rfl
        rw [List.append_nil, hc.sdir] at hkind
        simp at hkind
      obtain ⟨m, c, hfile0⟩ := (kind_file_iff fs0 (S ++ r)).1 hkind
      have hfileA : fsA.lookup (S ++ r) = some (.file m c) := by
        have := hsrc []
        rw [List.append_nil] at this
        rw [this]; exact hfile0
      have hne : S ++ r ≠ D ++ r := by
        intro e
        have hex : (fs0.kind (S ++ r)).isSome := by rw [hkind]; rfl
        exact (hc.apart r hr hex).2 (e ▸ List.prefix_append D r)
      obtain ⟨hwfB, hnd, ⟨m1, hl, _⟩, hfr⟩ := copyFn_file_ok fc fs0 S D hc path info r fsA fsB m c
        hroot hsegs hplain hdir hwfA hresA hfileA hne hr (hpar hr) hwalk
      refine ⟨hwfB, ?_, ?_, ?_⟩
      · intro x
        by_cases hx : x = []
        · subst hx
          rw [List.append_nil, List.append_nil, hkind, mergeKind_some, FS.kind, hl]
          rfl
        · have hne2 : D ++ r ++ x ≠ D ++ r := by
            intro e
            have := congrArg List.length e
            simp only [List.length_append] at this
            have : 0 < x.length := List.length_pos.2 hx
            omega
          rw [FS.kind, hfr _ hne2, ← FS.kind, hold x,
            wf_below_none fs0 hc.wf0 (S ++ r) x hx (by rw [hkind]; decide), mergeKind_none]
      · intro q hq _
        exact hfr q (fun e => hq (e ▸ List.prefix_refl _))
      · intro q hq
        have hqe : q ≠ D ++ r := fun e => hnd (e ▸ hq)
        rw [FS.kind, hfr q hqe]; exact hq
    | true =>
      rw [hdir] at hkind
      obtain ⟨ns, fs1, hns, hfn, hw⟩ :=
        walk_dir_ok _ (copyFn_passesErrors fc) depth path info fsA fsB hdir hwalk
      obtain ⟨P1, hP1, _, hnodup, hmem⟩ := readDirNames_ok fsA path ns hwfA hns
      have hP1e : P1 = S ++ r := denote_unique fsA fsA path _ _ (resolve_denote _ _ _ hP1) hresA
      subst hP1e
      have hmem0 : ∀ n, n ∈ ns ↔ (fs0.kind (S ++ r ++ [n])).isSome := by
        intro n
        rw [hmem n, FS.kind, FS.kind, hsrc [n]]
      obtain ⟨hwf1, hk1, hf1, hf2⟩ := copyFn_dir_ok fc fs0 S D hc path info r fsA fs1 hroot
        hsegs hplain hdir hwfA hfn
      -- what the call on the directory has left
      have hA1 : ∀ q, ¬ (D ++ r) <+: q → ¬ q <+: D → fs1.lookup q = fsA.lookup q := by
        intro q hq1 hq2
        cases hl : fsA.lookup q with
        | some i => rw [← hl]; exact hf1 q (by rw [hl]; rfl)
        | none =>
          cases hl1 : fs1.lookup q with
          | none => rfl
          | some j =>
            exfalso
            obtain ⟨hpre, _⟩ := hf2 q hl (by rw [hl1]; rfl)
            rcases List.prefix_or_prefix_of_prefix hpre (List.prefix_append D r) with h3 | h3
            · exact hq2 h3
            · obtain ⟨t, rfl⟩ := h3
              have ht : t <+: r := (List.prefix_append_right_inj D).1 hpre
              have htr : t ≠ r := fun e => hq1 (e ▸ List.prefix_refl _)
              have hr : r ≠ [] := by
                rintro rfl
                exact htr (List.prefix_nil.1 ht)
              obtain ⟨u, hu⟩ := strict_prefix_dropLast t r ht htr
              have hp := hpar hr
              rw [List.dropLast_append_of_ne_nil _ hr, ← hu, ← List.append_assoc] at hp
              have := kind_above_dir fsA hwfA _ u hp
              rw [FS.kind, hl] at this
              simp at this
      have hB1 : ∀ q, fsA.kind q = some true → fs1.kind q = some true := by
        intro q hq
        have hs : (fsA.lookup q).isSome := by
          cases h : fsA.lookup q with
          | none => rw [FS.kind, h] at hq; exact absurd hq (by decide)
          | some i => rfl
        rw [FS.kind, hf1 q hs]
        exact hq
      have hE1 : ∀ n x, fs1.kind (D ++ r ++ n :: x) = fs0.kind (D ++ r ++ n :: x) := by
        intro n x
        rw [← hold (n :: x)]
        cases hl : fsA.lookup (D ++ r ++ n :: x) with
        | some i => rw [FS.kind, FS.kind, hf1 _ (by rw [hl]; rfl)]
        | none =>
          cases hl1 : fs1.lookup (D ++ r ++ n :: x) with
          | none => rw [FS.kind, FS.kind, hl, hl1]
          | some j =>
            exfalso
            obtain ⟨hpre, _⟩ := hf2 _ hl (by rw [hl1]; rfl)
            exact longer_not_prefix (D ++ r) (n :: x) (by simp) hpre
      have key := walkNames_inv _
        (fun todo cur => todo <:+ ns ∧ cur.wf ∧
          (∀ q, ¬ (D ++ r) <+: q → ¬ q <+: D → cur.lookup q = fsA.lookup q) ∧
          (∀ q, fsA.kind q = some true → cur.kind q = some true) ∧
          cur.kind (D ++ r) = some true ∧
          (∀ n x, (n ∈ todo ∨ n ∉ ns) →
            cur.kind (D ++ r ++ n :: x) = fs0.kind (D ++ r ++ n :: x)) ∧
          (∀ n x, n ∈ ns → n ∉ todo → cur.kind (D ++ r ++ n :: x) =
            mergeKind (fs0.kind (S ++ r ++ n :: x)) (fs0.kind (D ++ r ++ n :: x))))
        ?_ ns fs1 fsB ?_ hw
      · obtain ⟨_, hwfB, hAB, hBB, hkB, hEB, hGB⟩ := key
        refine ⟨hwfB, ?_, hAB, hBB⟩
        intro x
        cases x with
        | nil => rw [List.append_nil, List.append_nil, hkB, hkind, mergeKind_some]
        | cons n x =>
          by_cases hn : n ∈ ns
          · exact hGB n x hn (List.not_mem_nil n)
          · rw [hEB n x (Or.inr hn)]
            have h0 : fs0.kind (S ++ r ++ [n]) = none := by
              have := (hmem0 n).not.1 hn
              simpa using this
            have h1 : fs0.kind (S ++ r ++ n :: x) = none := by
              by_cases hx : x = []
              · subst hx; exact h0
              · have := wf_below_none fs0 hc.wf0 (S ++ r ++ [n]) x hx (by rw [h0]; decide)
                rw [List.append_assoc, List.singleton_append] at this
                exact this
            rw [h1, mergeKind_none]
      · -- every visit keeps the invariant
        intro n rest cur fs2 hI hvisit
        obtain ⟨hsuf, hwf, hA, hB, hkd, hE, hG⟩ := hI
        obtain ⟨fi, hfi, hwalk2⟩ := visit_ok _ (copyFn_passesErrors fc) depth _ cur fs2 hvisit
        have hn_mem : n ∈ ns := hsuf.subset (List.mem_cons_self _ _)
        have hnd : (n :: rest).Nodup := hnodup.sublist hsuf.sublist
        have hn_rest : n ∉ rest := (List.nodup_cons.1 hnd).1
        have hk0 := (hmem0 n).1 hn_mem
        have hnplain : plainName n := wf_names fs0 hc.wf0 _ hk0 n (by simp)
        have hrn : r ++ [n] ≠ [] := by simp
        have hk0' : (fs0.kind (S ++ (r ++ [n]))).isSome := by
          rw [← List.append_assoc]; exact hk0
        have hap := hc.apart_below (r ++ [n]) hrn hk0'
        have hFc : ∀ q, ¬ D <+: q → ¬ q <+: D → cur.lookup q = fs0.lookup q := by
          intro q hq1 hq2
          rw [hA q (fun h => hq1 ((List.prefix_append D r).trans h)) hq2]
          exact hF q hq1 hq2
        have hMc : ∀ q, fs0.kind q = some true → cur.kind q = some true :=
          fun q hq => hB q (hM q hq)
        have hres0 : denote fs0 (Join [path, n]) = .ok (S ++ (r ++ [n])) := by
          rw [← List.append_assoc]
          exact denote_Join fs0 path n (S ++ r) hres hkind hnplain
        have hsrc2 : ∀ y, cur.lookup (S ++ (r ++ [n]) ++ y) = fs0.lookup (S ++ (r ++ [n]) ++ y) :=
          fun y => hFc _ (hap y).1 (hap y).2
        obtain ⟨P2, hP2, hkP2, _⟩ := os_Lstat_ok cur _ fi hfi
        have hP2e : P2 = S ++ (r ++ [n]) :=
          denote_unique cur fs0 _ _ _ (resolve_denote _ _ _ hP2) hres0
        subst hP2e
        have hkfi : fs0.kind (S ++ (r ++ [n])) = some fi.isDir := by
          have := hsrc2 []
          rw [List.append_nil] at this
          rw [FS.kind, ← this]; exact hkP2
        have hpath := denote_ne_nil fs0 path _ hres
        have hIH := ih (Join [path, n]) fi (r ++ [n]) cur fs2 hres0
          (by rw [isRooted_Join path n hpath]; exact hroot)
          (by rw [cleanSegs_Join path n hpath hnplain, hsegs, List.append_assoc])
          hkfi hwf hFc hMc hsrc2
          (fun _ => by rw [← List.append_assoc, List.dropLast_concat]; exact hkd)
          (fun x => by
            have := hE n x (Or.inl (List.mem_cons_self _ _))
            simpa using this)
          hwalk2
        obtain ⟨hwf2, hreg2, hfr2, hdirs2⟩ := hIH
        have hsub : (D ++ r) <+: D ++ (r ++ [n]) := by
          rw [← List.append_assoc]; exact List.prefix_append _ _
        refine ⟨(List.suffix_cons n rest).trans hsuf, hwf2, ?_, ?_, ?_, ?_, ?_⟩
        · intro q hq1 hq2
          rw [hfr2 q (fun h => hq1 (hsub.trans h)) hq2]
          exact hA q hq1 hq2
        · exact fun q hq => hdirs2 q (hB q hq)
        · exact hdirs2 _ hkd
        · intro m x hm
          have hmn : n ≠ m := by
            rintro rfl
            rcases hm with h | h
            · exact hn_rest h
            · exact h hn_mem
          have hq1 : ¬ (D ++ (r ++ [n])) <+: D ++ r ++ m :: x := by
            rw [← List.append_assoc]
            exact not_prefix_concat_cons _ _ _ _ hmn
          have hq2 : ¬ (D ++ r ++ m :: x) <+: D := by
            rw [List.append_assoc]
            exact longer_not_prefix D _ (by simp)
          rw [FS.kind, hfr2 _ hq1 hq2, ← FS.kind]
          apply hE m x
          rcases hm with h | h
          · exact Or.inl (List.mem_cons_of_mem _ h)
          · exact Or.inr h
        · intro m x hm hmr
          by_cases hmn : m = n
          · subst hmn
            have := hreg2 x
            simpa using this
          · have hq1 : ¬ (D ++ (r ++ [n])) <+: D ++ r ++ m :: x := by
              rw [← List.append_assoc]
              exact not_prefix_concat_cons _ _ _ _ (fun e => hmn e.symm)
            have hq2 : ¬ (D ++ r ++ m :: x) <+: D := by
              rw [List.append_assoc]
              exact longer_not_prefix D _ (by simp)
            rw [FS.kind, hfr2 _ hq1 hq2, ← FS.kind]
            apply hG m x hm
            intro h
            rcases List.mem_cons.1 h with e | e
            · exact hmn e
            · exact hmr e
      · -- the invariant holds when the loop starts
        refine ⟨List.suffix_refl _, hwf1, hA1, hB1, hk1, fun n x _ => hE1 n x, ?_⟩
        intro n x hn hn2
        exact absurd hn hn2

/-- The copy, when it returned no error: at and below the destination root the kinds are
those of the source tree, or those the destination had where the source has nothing;
directories stay, and nothing changes at the places that are neither at or below the
destination root nor above it. -/
theorem copy_phase (fc : FileConverter) (fs0 : FS) (S D : Path) (hc : CopySetting fc fs0 S D)
    (d : Nat) (fs1 : FS) (h : fc.CopyDirectory fs0 d = some (none, fs1)) :
    fs1.wf ∧
      (∀ x, fs1.kind (D ++ x) = mergeKind (fs0.kind (S ++ x)) (fs0.kind (D ++ x))) ∧
      (∀ q, ¬ D <+: q → ¬ q <+: D → fs1.lookup q = fs0.lookup q) ∧
      (∀ q, fs0.kind q = some true → fs1.kind q = some true) := by
  obtain ⟨info, hinfo, hwalk⟩ := Walk_ok _ (copyFn_passesErrors fc) _ _ _ _ h
  obtain ⟨P, hP, hkP, _⟩ := os_Lstat_ok fs0 _ info hinfo
  have hPe : P = S := denote_unique fs0 fs0 _ _ _ (resolve_denote _ _ _ hP) hc.source
  subst hPe
  have := copy_walk fc fs0 P D hc d fc.SourceDirectory info [] fs0 fs1
    (by rw [List.append_nil]; exact hc.source) rfl (by rw [List.append_nil])
    (by rw [List.append_nil]; exact hkP) hc.wf0 (fun _ _ _ => rfl) (fun _ hq => hq)
    (fun _ => rfl) (fun hr => absurd rfl hr) (fun _ => rfl) hwalk
  simpa using this

/-! ### Converted names -/

theorem drop_append_five (s e : GoString) (he : e.length = 5) :
    (s ++ e).drop ((s ++ e).length - 5) = e := by
  have h : (s ++ e).length - 5 = s.length := by
    simp only [List.length_append, he]; omega
  rw [h, List.drop_left]

theorem take_append_five (s e : GoString) (he : e.length = 5) :
    (s ++ e).take ((s ++ e).length - 5) = s := by
  have h : (s ++ e).length - 5 = s.length := by
    simp only [List.length_append, he]; omega
  rw [h, List.take_left]

/-- A name ends in five given bytes exactly when they are a suffix of it. -/
theorem ends_iff (n e : GoString) (he : e.length = 5) :
    n.drop (n.length - 5) = e ↔ e <:+ n := by
  constructor
  · intro h
    exact ⟨n.take (n.length - 5), by rw [← h, List.take_append_drop]⟩
  · rintro ⟨s, rfl⟩
    exact drop_append_five s e he

theorem suffix_same_length (s e e1 : GoString) (he : e.length = 5) (he1 : e1.length = 5)
    (h : e <:+ s ++ e1) : e = e1 := by
  have h1 := (ends_iff (s ++ e1) e he).2 h
  rw [drop_append_five s e1 he1] at h1
  exact h1.symm

theorem convertedName_wxml (s : GoString) :
    convertedName (s ++ str (".wxml")) = s ++ str (".ttml") := by
  unfold convertedName
  rw [if_pos (drop_append_five s _ (by decide)), take_append_five s _ (by decide)]

theorem convertedName_wxss (s : GoString) :
    convertedName (s ++ str (".wxss")) = s ++ str (".ttss") := by
  unfold convertedName
  have h1 : ¬ (s ++ str (".wxss")).drop ((s ++ str (".wxss")).length - 5) = str (".wxml") := by
    rw [drop_append_five s _ (by decide)]; decide
  rw [if_neg h1, if_pos (drop_append_five s _ (by decide)), take_append_five s _ (by decide)]

theorem convertedName_other (n : GoString) (h1 : ¬ str (".wxml") <:+ n)
    (h2 : ¬ str (".wxss") <:+ n) : convertedName n = n := by
  unfold convertedName
  rw [if_neg (fun h => h1 ((ends_iff n _ (by decide)).1 h)),
    if_neg (fun h => h2 ((ends_iff n _ (by decide)).1 h))]

/-- The three cases of a name: it ends in `.wxml`, it ends in `.wxss`, or it is kept. -/
theorem convertedName_cases (n : GoString) :
    (∃ s, n = s ++ str (".wxml") ∧ convertedName n = s ++ str (".ttml")) ∨
    (∃ s, n = s ++ str (".wxss") ∧ convertedName n = s ++ str (".ttss")) ∨
    (¬ str (".wxml") <:+ n ∧ ¬ str (".wxss") <:+ n ∧ convertedName n = n) := by
  by_cases h1 : str (".wxml") <:+ n
  · obtain ⟨s, rfl⟩ := h1
    exact Or.inl ⟨s, rfl, convertedName_wxml s⟩
  · by_cases h2 : str (".wxss") <:+ n
    · obtain ⟨s, rfl⟩ := h2
      exact Or.inr (Or.inl ⟨s, rfl, convertedName_wxss s⟩)
    · exact Or.inr (Or.inr ⟨h1, h2, convertedName_other n h1 h2⟩)

theorem append_ext_ne (s e e1 : GoString) (h : e ≠ e1) : s ++ e ≠ s ++ e1 :=
  fun he => h (List.append_cancel_left he)

/-- A name is kept exactly when it ends neither in `.wxml` nor in `.wxss`. -/
theorem convertedName_eq_iff (n : GoString) :
    convertedName n = n ↔ ¬ str (".wxml") <:+ n ∧ ¬ str (".wxss") <:+ n := by
  constructor
  · intro h
    rcases convertedName_cases n with ⟨s, rfl, hc⟩ | ⟨s, rfl, hc⟩ | ⟨h1, h2, _⟩
    · rw [hc] at h
      exact absurd h (append_ext_ne s _ _ (by decide))
    · rw [hc] at h
      exact absurd h (append_ext_ne s _ _ (by decide))
    · exact ⟨h1, h2⟩
  · rintro ⟨h1, h2⟩
    exact convertedName_other n h1 h2

theorem convertedName_length (n : GoString) : (convertedName n).length = n.length := by
  rcases convertedName_cases n with ⟨s, rfl, hc⟩ | ⟨s, rfl, hc⟩ | ⟨_, _, hc⟩
  · rw [hc]; simp [str]
  · rw [hc]; simp [str]
  · rw [hc]

/-- A converted name is kept by the conversion. -/
theorem convertedName_fixed (n : GoString) :
    convertedName (convertedName n) = convertedName n := by
  rcases convertedName_cases n with ⟨s, rfl, hc⟩ | ⟨s, rfl, hc⟩ | ⟨_, _, hc⟩
  · rw [hc]
    refine convertedName_other _ ?_ ?_
    · intro h
      exact absurd (suffix_same_length s _ _ (by decide) (by decide) h) (by decide)
    · intro h
      exact absurd (suffix_same_length s _ _ (by decide) (by decide) h) (by decide)
  · rw [hc]
    refine convertedName_other _ ?_ ?_
    · intro h
      exact absurd (suffix_same_length s _ _ (by decide) (by decide) h) (by decide)
    · intro h
      exact absurd (suffix_same_length s _ _ (by decide) (by decide) h) (by decide)
  · rw [hc, hc]

theorem sourceName_ttml (s : GoString) :
    sourceName (s ++ str (".ttml")) = some (s ++ str (".wxml")) := by
  unfold sourceName
  rw [if_pos (drop_append_five s _ (by decide)), take_append_five s _ (by decide)]

theorem sourceName_ttss (s : GoString) :
    sourceName (s ++ str (".ttss")) = some (s ++ str (".wxss")) := by
  unfold sourceName
  have h1 : ¬ (s ++ str (".ttss")).drop ((s ++ str (".ttss")).length - 5) = str (".ttml") := by
    rw [drop_append_five s _ (by decide)]; decide
  rw [if_neg h1, if_pos (drop_append_five s _ (by decide)), take_append_five s _ (by decide)]

/-- The name of the source of a name: the conversion turns it into the name, and it is
another name. -/
theorem sourceName_some (k m : GoString) (h : sourceName k = some m) :
    convertedName m = k ∧ m ≠ k ∧ convertedName k = k := by
  unfold sourceName at h
  split_ifs at h with h1 h2
  · obtain ⟨s, rfl⟩ := (ends_iff k _ (by decide)).1 h1
    rw [take_append_five s _ (by decide)] at h
    simp only [Option.some.injEq] at h
    subst h
    refine ⟨convertedName_wxml s, append_ext_ne s _ _ (by decide), ?_⟩
    rw [← convertedName_wxml s]
    exact convertedName_fixed _
  · obtain ⟨s, rfl⟩ := (ends_iff k _ (by decide)).1 h2
    rw [take_append_five s _ (by decide)] at h
    simp only [Option.some.injEq] at h
    subst h
    refine ⟨convertedName_wxss s, append_ext_ne s _ _ (by decide), ?_⟩
    rw [← convertedName_wxss s]
    exact convertedName_fixed _

/-- The source of a name the conversion produced is the name converted. -/
theorem sourceName_convertedName (n : GoString) (h : convertedName n ≠ n) :
    sourceName (convertedName n) = some n := by
  rcases convertedName_cases n with ⟨s, rfl, hc⟩ | ⟨s, rfl, hc⟩ | ⟨_, _, hc⟩
  · rw [hc]; exact sourceName_ttml s
  · rw [hc]; exact sourceName_ttss s
  · exact absurd hc h

/-- A name that is converted to another name is the source of no name. -/
theorem sourceName_of_converted (n : GoString) (h : convertedName n ≠ n) :
    sourceName n = none := by
  cases hs : sourceName n with
  | none => rfl
  | some m => exact absurd (sourceName_some n m hs).2.2 h

/-! ### The rules of `main` and the converted name -/

theorem Ext_wxml_iff (n : GoString) : Ext n = str (".wxml") ↔ str (".wxml") <:+ n := by
  constructor
  · intro h
    rw [← h]; exact Ext_suffix n
  · rintro ⟨s, rfl⟩
    rw [str_wxml]
    exact Ext_append_dot s [119, 120, 109, 108] (by decide) (by decide)

theorem Ext_wxss_iff (n : GoString) : Ext n = str (".wxss") ↔ str (".wxss") <:+ n := by
  constructor
  · intro h
    rw [← h]; exact Ext_suffix n
  · rintro ⟨s, rfl⟩
    rw [str_wxss]
    exact Ext_append_dot s [119, 120, 115, 115] (by decide) (by decide)

/-- The loop over the rules of `main` in `RenameFiles`: a new name is found exactly for the
names the conversion changes, and it is the converted name. -/
theorem renameTarget_main (n : GoString) :
    renameTarget n (Ext n) mainExtensions =
      if convertedName n = n then none else some (convertedName n) := by
  rcases convertedName_cases n with ⟨s, rfl, hc⟩ | ⟨s, rfl, hc⟩ | ⟨h1, h2, hc⟩
  · have hne : ¬ convertedName (s ++ str (".wxml")) = s ++ str (".wxml") := by
      rw [hc]; exact append_ext_ne s _ _ (by decide)
    rw [if_neg hne, hc]
    have hE := (Ext_wxml_iff (s ++ str (".wxml"))).2 (List.suffix_append _ _)
    simp only [renameTarget, mainExtensions, hE, if_true, TrimSuffix_append]
  · have hne : ¬ convertedName (s ++ str (".wxss")) = s ++ str (".wxss") := by
      rw [hc]; exact append_ext_ne s _ _ (by decide)
    rw [if_neg hne, hc]
    have hE := (Ext_wxss_iff (s ++ str (".wxss"))).2 (List.suffix_append _ _)
    have hE1 : ¬ str (".wxss") = str (".wxml") := by decide
    simp only [renameTarget, mainExtensions, hE, hE1, if_true, if_false, TrimSuffix_append]
  · rw [if_pos hc]
    have hE1 : ¬ Ext n = str (".wxml") := fun h => h1 ((Ext_wxml_iff n).1 h)
    have hE2 : ¬ Ext n = str (".wxss") := fun h => h2 ((Ext_wxss_iff n).1 h)
    simp only [renameTarget, mainExtensions, hE1, hE2, if_false]

theorem plainName_append_ext (stem e : GoString) (hs : sep ∉ stem) (he : sep ∉ e)
    (hlen : 3 ≤ e.length) (hl : (stem ++ e).length ≤ 255) : plainName (stem ++ e) := by
  refine ⟨?_, ?_, ?_, ?_, hl⟩
  · intro h
    have := congrArg List.length h
    simp only [List.length_append, List.length_nil] at this; omega
  · intro h
    rcases List.mem_append.1 h with h | h
    · exact hs h
    · exact he h
  · intro h
    have := congrArg List.length h
    simp only [List.length_append, List.length_cons, List.length_nil] at this; omega
  · intro h
    have := congrArg List.length h
    simp only [List.length_append, List.length_cons, List.length_nil] at this; omega

/-- The converted name of a name is a name. -/
theorem plainName_convertedName (n : GoString) (hn : plainName n) :
    plainName (convertedName n) := by
  have hl := convertedName_length n
  rcases convertedName_cases n with ⟨s, rfl, hc⟩ | ⟨s, rfl, hc⟩ | ⟨_, _, hc⟩
  · rw [hc] at hl ⊢
    have hs : sep ∉ s := fun e => hn.2.1 (List.mem_append_left _ e)
    exact plainName_append_ext s _ hs (by decide) (by decide) (by rw [hl]; exact hn.2.2.2.2)
  · rw [hc] at hl ⊢
    have hs : sep ∉ s := fun e => hn.2.1 (List.mem_append_left _ e)
    exact plainName_append_ext s _ hs (by decide) (by decide) (by rw [hl]; exact hn.2.2.2.2)
  · rw [hc]; exact hn

/-! ### What the renaming leaves in a directory -/

theorem partialEntry_start (fsA : FS) (par : Path) (ns : List GoString) (k : GoString) :
    partialEntry fsA par ns ns k = fsA.lookup (par ++ [k]) := by
  unfold partialEntry
  rw [if_neg (fun h => h.1.2 h.1.1)]
  cases hs : sourceName k with
  | none => rfl
  | some m =>
    simp only
    rw [if_neg (fun h => h.1.2 h.1.1)]

theorem kind_false_isSome (fs : FS) (p : Path) (h : fs.kind p = some false) :
    (fs.kind p).isSome := by
  rw [h]; rfl

theorem partialEntry_end (fsA : FS) (par : Path) (ns : List GoString)
    (hmem : ∀ n, n ∈ ns ↔ (fsA.kind (par ++ [n])).isSome) (k : GoString) :
    partialEntry fsA par ns [] k = renamedEntry fsA par k := by
  unfold partialEntry renamedEntry
  by_cases h1 : convertedName k ≠ k ∧ fsA.kind (par ++ [k]) = some false
  · rw [if_pos h1, if_pos ⟨⟨(hmem k).2 (kind_false_isSome _ _ h1.2), List.not_mem_nil _⟩, h1⟩]
  · rw [if_neg h1, if_neg (fun h => h1 h.2)]
    cases hs : sourceName k with
    | none => rfl
    | some m =>
      simp only
      by_cases h2 : fsA.kind (par ++ [m]) = some false
      · rw [if_pos h2, if_pos ⟨⟨(hmem m).2 (kind_false_isSome _ _ h2), List.not_mem_nil _⟩, h2⟩]
      · rw [if_neg h2, if_neg (fun h => h2 h.2)]

/-- Dealing with the name `n` changes what is at the name `k` only when `n` is a regular
file whose name is converted, and `k` is `n` or its converted name. -/
theorem partialEntry_cons (fsA : FS) (par : Path) (ns : List GoString) (n : GoString)
    (rest : List GoString) (k : GoString)
    (h1 : k = n → ¬ (convertedName n ≠ n ∧ fsA.kind (par ++ [n]) = some false))
    (h2 : sourceName k = some n → fsA.kind (par ++ [n]) ≠ some false) :
    partialEntry fsA par ns rest k = partialEntry fsA par ns (n :: rest) k := by
  unfold partialEntry
  have e1 : ((k ∈ ns ∧ k ∉ rest) ∧ convertedName k ≠ k ∧ fsA.kind (par ++ [k]) = some false) ↔
      ((k ∈ ns ∧ k ∉ n :: rest) ∧ convertedName k ≠ k ∧
        fsA.kind (par ++ [k]) = some false) := by
    constructor
    · rintro ⟨⟨a, b⟩, c⟩
      refine ⟨⟨a, ?_⟩, c⟩
      intro hm
      rcases List.mem_cons.1 hm with e | e
      · subst e; exact h1 rfl c
      · exact b e
    · rintro ⟨⟨a, b⟩, c⟩
      exact ⟨⟨a, fun hm => b (List.mem_cons_of_mem _ hm)⟩, c⟩
  by_cases hc : (k ∈ ns ∧ k ∉ rest) ∧ convertedName k ≠ k ∧ fsA.kind (par ++ [k]) = some false
  · rw [if_pos hc, if_pos (e1.1 hc)]
  · rw [if_neg hc, if_neg (fun h => hc (e1.2 h))]
    cases hs : sourceName k with
    | none => rfl
    | some m =>
      simp only
      have e2 : ((m ∈ ns ∧ m ∉ rest) ∧ fsA.kind (par ++ [m]) = some false) ↔
          ((m ∈ ns ∧ m ∉ n :: rest) ∧ fsA.kind (par ++ [m]) = some false) := by
        constructor
        · rintro ⟨⟨a, b⟩, c⟩
          refine ⟨⟨a, ?_⟩, c⟩
          intro hm
          rcases List.mem_cons.1 hm with e | e
          · subst e; exact h2 hs c
          · exact b e
        · rintro ⟨⟨a, b⟩, c⟩
          exact ⟨⟨a, fun hm => b (List.mem_cons_of_mem _ hm)⟩, c⟩
      by_cases hd : (m ∈ ns ∧ m ∉ rest) ∧ fsA.kind (par ++ [m]) = some false
      · rw [if_pos hd, if_pos (e2.1 hd)]
      · rw [if_neg hd, if_neg (fun h => hd (e2.2 h))]

theorem renamedEntry_congr (cur fsA : FS) (par : Path) (k : GoString)
    (h : ∀ j, cur.lookup (par ++ [j]) = fsA.lookup (par ++ [j])) :
    renamedEntry cur par k = renamedEntry fsA par k := by
  unfold renamedEntry
  simp only [FS.kind, h]

/-- Nothing is left below a place that is not a directory. -/
theorem renamedEntry_none (fsA : FS) (hwf : fsA.wf) (par : Path)
    (hk : fsA.kind par ≠ some true) (k : GoString) : renamedEntry fsA par k = none := by
  have hb : ∀ j, fsA.kind (par ++ [j]) = none := fun j =>
    wf_below_none fsA hwf par [j] (by simp) hk
  have hl : ∀ j, fsA.lookup (par ++ [j]) = none := fun j =>
    (kind_eq_none_iff fsA _).1 (hb j)
  unfold renamedEntry
  rw [if_neg (fun h => by rw [hb k] at h; exact absurd h.2 (by decide))]
  cases hs : sourceName k with
  | none => exact hl k
  | some m =>
    simp only
    rw [if_neg (by rw [hb m]; decide)]
    exact hl k

/-! ### The call `os.Rename` on a regular file -/

/-- A successful `os.Rename` of the regular file at `po` to another place `pn`: no
directory was at `pn`, and the file is moved there. -/
theorem os_Rename_file_ok (cur fs2 : FS) (old new : GoString) (po pn : Path) (m : Nat)
    (d : GoString) (hro : resolve cur old = .ok po) (hl : cur.lookup po = some (.file m d))
    (hrn : resolve cur new = .ok pn) (hne : po ≠ pn)
    (h : os_Rename cur old new = .ok fs2) :
    cur.kind pn ≠ some true ∧ fs2 = (cur.remove po).set pn (.file m d) := by
  have hsys : cur.kind pn ≠ some true →
      sys_rename cur old new = .ok ((cur.remove po).set pn (.file m d)) := by
    intro hk
    simp only [sys_rename, hro, hrn, hl]
    cases hpn : cur.lookup pn with
    | none => simp only [if_neg hne]
    | some i =>
      cases i with
      | file m1 d1 => simp only [if_neg hne]
      | dir m1 =>
        exfalso; apply hk
        rw [FS.kind, hpn]; rfl
  have hLo : os_Lstat cur old = .ok ⟨false, m⟩ := by
    simp only [os_Lstat, hro, hl]
  unfold os_Rename at h
  cases hpn : cur.lookup pn with
  | none =>
    have hk : cur.kind pn ≠ some true := by
      rw [FS.kind, hpn]; simp
    have hL : os_Lstat cur new = .error .ENOENT := by
      simp only [os_Lstat, hrn, hpn]
    rw [hL] at h
    simp only at h
    rw [hsys hk] at h
    simp only [Except.ok.injEq] at h
    exact ⟨hk, h.symm⟩
  | some i =>
    cases i with
    | file m1 d1 =>
      have hk : cur.kind pn ≠ some true := by
        rw [FS.kind, hpn]; simp [Inode.isDir]
      have hL : os_Lstat cur new = .ok ⟨false, m1⟩ := by
        simp only [os_Lstat, hrn, hpn]
      rw [hL] at h
      simp only [Bool.false_eq_true, if_false] at h
      rw [hsys hk] at h
      simp only [Except.ok.injEq] at h
      exact ⟨hk, h.symm⟩
    | dir m1 =>
      exfalso
      have hL : os_Lstat cur new = .ok ⟨true, m1⟩ := by
        simp only [os_Lstat, hrn, hpn]
      have hsame : sameFile cur old new = false := by
        simp only [sameFile, hro, hrn, decide_eq_false_iff_not]
        exact hne
      rw [hL, hLo] at h
      simp only [if_true, hsame, or_true] at h
      exact absurd h (by simp)

theorem concat_ne_concat (P : Path) (a b : GoString) (h : a ≠ b) : P ++ [a] ≠ P ++ [b] := by
  intro e
  have := List.append_cancel_left e
  simp only [List.cons.injEq, and_true] at this
  exact h this

/-- The function of `RenameFiles` at a regular file named `n` of the directory at `P`, with
the rules of `main`, when it returned no error: the file is left as it is when the
conversion keeps its name; else no directory has the converted name, and the file is moved
to that name in the same directory. -/
theorem renameFn_file (fc : FileConverter) (hext : fc.Extensions = mainExtensions)
    (path n : GoString) (P : Path) (info : FileInfo) (cur fs2 : FS) (m : Nat) (d : GoString)
    (hp : path ≠ []) (hn : plainName n)
    (hres : resolve cur (Join [path, n]) = .ok (P ++ [n]))
    (hfile : cur.lookup (P ++ [n]) = some (.file m d)) (hinfo : info.isDir = false)
    (h : fc.renameFn (Join [path, n]) (some info) none cur = (none, fs2)) :
    (convertedName n = n ∧ fs2 = cur) ∨
    (convertedName n ≠ n ∧ cur.kind (P ++ [convertedName n]) ≠ some true ∧
      fs2 = (cur.remove (P ++ [n])).set (P ++ [convertedName n]) (.file m d)) := by
  obtain ⟨X, hX, hXform⟩ := Join_form path n hp hn
  rw [hX] at h hres
  simp only [FileConverter.renameFn, hinfo, hext, renameTarget_append X n hXform,
    Bool.false_eq_true, if_false, renameTarget_main n] at h
  by_cases hc : convertedName n = n
  · rw [if_pos hc] at h
    simp only [Option.map_none', Prod.mk.injEq, true_and] at h
    exact Or.inl ⟨hc, h.symm⟩
  · rw [if_neg hc] at h
    simp only [Option.map_some'] at h
    have hpl := plainName_convertedName n hn
    obtain ⟨P1, hPP, _, hres1⟩ := denote_sibling cur X n (convertedName n) (P ++ [n]) hXform hn
      hpl (resolve_denote _ _ _ hres)
    have hP1 : P1 = P := (List.append_inj_left' hPP rfl).symm
    subst hP1
    have hlen : (X ++ convertedName n).length < 4096 := by
      have := resolve_length _ _ _ hres
      simp only [List.length_append, convertedName_length] at this ⊢
      exact this
    have hresn : resolve cur (X ++ convertedName n) = .ok (P1 ++ [convertedName n]) := by
      rw [resolve_of_denote _ _ hlen]; exact hres1
    cases hr : os_Rename cur (X ++ n) (X ++ convertedName n) with
    | error e => rw [hr] at h; simp at h
    | ok fs3 =>
      rw [hr] at h
      simp only [Prod.mk.injEq, true_and] at h
      subst h
      obtain ⟨hk, hfs⟩ := os_Rename_file_ok cur fs3 _ _ _ _ m d hres hfile hresn
        (concat_ne_concat P1 n _ (fun e => hc e.symm)) hr
      exact Or.inr ⟨hc, hk, hfs⟩

/-! ### The renaming walk -/

/-- Below a name that is not a directory there is nothing, before and after a renaming. -/
theorem below_nondir (fsA : FS) (hwf : fsA.wf) (P : Path) (n : GoString)
    (h : fsA.kind (P ++ [n]) ≠ some true) (x : Path) (j : GoString) :
    fsA.lookup (P ++ n :: (x ++ [j])) = none ∧ renamedEntry fsA (P ++ n :: x) j = none := by
  constructor
  · apply (kind_eq_none_iff fsA _).1
    have := wf_below_none fsA hwf (P ++ [n]) (x ++ [j]) (by simp) h
    simpa using this
  · apply renamedEntry_none fsA hwf
    by_cases hx : x = []
    · subst hx; exact h
    · have := wf_below_none fsA hwf (P ++ [n]) x hx h
      rw [List.append_assoc, List.singleton_append] at this
      rw [this]; simp

theorem partialEntry_todo_converted (fsA : FS) (par : Path) (ns rest : List GoString)
    (n : GoString) (hc : convertedName n ≠ n) :
    partialEntry fsA par ns (n :: rest) n = fsA.lookup (par ++ [n]) := by
  unfold partialEntry
  rw [if_neg (fun h => h.1.2 (List.mem_cons_self _ _)), sourceName_of_converted n hc]

theorem partialEntry_done_converted (fsA : FS) (par : Path) (ns rest : List GoString)
    (n : GoString) (hn : n ∈ ns) (hr : n ∉ rest) (hc : convertedName n ≠ n)
    (hf : fsA.kind (par ++ [n]) = some false) :
    partialEntry fsA par ns rest n = none := by
  unfold partialEntry
  rw [if_pos ⟨⟨hn, hr⟩, hc, hf⟩]

theorem partialEntry_target (fsA : FS) (par : Path) (ns rest : List GoString)
    (n : GoString) (hn : n ∈ ns) (hr : n ∉ rest) (hc : convertedName n ≠ n)
    (hf : fsA.kind (par ++ [n]) = some false) :
    partialEntry fsA par ns rest (convertedName n) = fsA.lookup (par ++ [n]) := by
  unfold partialEntry
  rw [if_neg (fun h => h.2.1 (convertedName_fixed n)), sourceName_convertedName n hc]
  simp only
  rw [if_pos ⟨⟨hn, hr⟩, hf⟩]

theorem not_mem_cons_iff (ns rest : List GoString) (n k : GoString) (hk : k ≠ n) :
    (k ∈ ns ∧ k ∉ n :: rest) ↔ (k ∈ ns ∧ k ∉ rest) := by
  constructor
  · rintro ⟨a, b⟩
    exact ⟨a, fun h => b (List.mem_cons_of_mem _ h)⟩
  · rintro ⟨a, b⟩
    refine ⟨a, fun h => ?_⟩
    rcases List.mem_cons.1 h with e | e
    · exact hk e
    · exact b e

theorem deep_ne_concat (P : Path) (k : GoString) (x : Path) (j a : GoString) :
    P ++ k :: (x ++ [j]) ≠ P ++ [a] := by
  intro e
  have := congrArg List.length e
  simp only [List.length_append, List.length_cons, List.length_nil] at this
  omega

theorem self_ne_concat (P : Path) (a : GoString) : P ≠ P ++ [a] := by
  intro e
  have := congrArg List.length e
  simp only [List.length_append, List.length_cons, List.length_nil] at this
  omega

/-- The walk of `RenameFiles` below the directory at `P`, with the rules of `main`, when
it returned no error: every directory at or below `P` holds, at every name, what
`renamedEntry` describes; directories stay, and nothing changes outside `P`. -/
theorem rename_walk (fc : FileConverter) (hext : fc.Extensions = mainExtensions) :
    ∀ (depth : Nat) (path : GoString) (info : FileInfo) (P : Path) (fsA fsB : FS),
      info.isDir = true → denote fsA path = .ok P → fsA.kind P = some true → fsA.wf →
      walk fc.renameFn depth path info fsA = some (none, fsB) →
      fsB.wf ∧ (∀ q, ¬ P <+: q → fsB.lookup q = fsA.lookup q) ∧
        fsB.lookup P = fsA.lookup P ∧
        (∀ q, fsA.kind q = some true ↔ fsB.kind q = some true) ∧
        (∀ x k, fsB.lookup (P ++ x ++ [k]) = renamedEntry fsA (P ++ x) k) := by
  intro depth
  induction depth with
  | zero =>
    intro path info P fsA fsB _ _ _ _ hwalk
    simp [walk] at hwalk
  | succ depth ih =>
    intro path info P fsA fsB hdir hres hkind hwfA hwalk
    obtain ⟨ns, fs1, hns, hfn, hw⟩ :=
      walk_dir_ok _ (renameFn_passesErrors fc) depth path info fsA fsB hdir hwalk
    have hfs1 : fs1 = fsA := by
      simp only [FileConverter.renameFn, hdir, if_true, Prod.mk.injEq, true_and] at hfn
      exact hfn.symm
    subst hfs1
    obtain ⟨P1, hP1, _, hnodup, hmem⟩ := readDirNames_ok fs1 path ns hwfA hns
    have hP1e : P1 = P := denote_unique fs1 fs1 path _ _ (resolve_denote _ _ _ hP1) hres
    subst hP1e
    have hpne : path ≠ [] := denote_ne_nil fs1 path _ hres
    have key := walkNames_inv _
      (fun todo cur => todo <:+ ns ∧ cur.wf ∧
        (∀ q, ¬ P1 <+: q → cur.lookup q = fs1.lookup q) ∧
        cur.lookup P1 = fs1.lookup P1 ∧
        (∀ q, fs1.kind q = some true ↔ cur.kind q = some true) ∧
        (∀ k, cur.lookup (P1 ++ [k]) = partialEntry fs1 P1 ns todo k) ∧
        (∀ k x j, cur.lookup (P1 ++ k :: (x ++ [j])) =
          if k ∈ ns ∧ k ∉ todo then renamedEntry fs1 (P1 ++ k :: x) j
          else fs1.lookup (P1 ++ k :: (x ++ [j]))))
      ?_ ns fs1 fsB ?_ hw
    · obtain ⟨_, hwfB, hfrB, hPB, hdirsB, hchB, hdeepB⟩ := key
      refine ⟨hwfB, hfrB, hPB, hdirsB, ?_⟩
      intro x k
      cases x with
      | nil =>
        rw [List.append_nil, hchB k]
        exact partialEntry_end fs1 P1 ns hmem k
      | cons k0 x =>
        rw [List.append_assoc, List.cons_append, hdeepB k0 x k]
        by_cases hk0 : k0 ∈ ns
        · rw [if_pos ⟨hk0, List.not_mem_nil _⟩]
        · rw [if_neg (fun h => hk0 h.1)]
          have hnd : fs1.kind (P1 ++ [k0]) ≠ some true := by
            intro h
            exact hk0 ((hmem k0).2 (by rw [h]; rfl))
          obtain ⟨h1, h2⟩ := below_nondir fs1 hwfA P1 k0 hnd x k
          rw [h1, h2]
    · -- every visit keeps the invariant
      intro n rest cur fs2 hI hvisit
      obtain ⟨hsuf, hwf, hfr, hPl, hdirs, hch, hdeep⟩ := hI
      obtain ⟨fi, hfi, hwalk2⟩ := visit_ok _ (renameFn_passesErrors fc) depth _ cur fs2 hvisit
      have hn_mem : n ∈ ns := hsuf.subset (List.mem_cons_self _ _)
      have hnd : (n :: rest).Nodup := hnodup.sublist hsuf.sublist
      have hn_rest : n ∉ rest := (List.nodup_cons.1 hnd).1
      have hEA := (hmem n).1 hn_mem
      have hnplain : plainName n := wf_names fs1 hwfA _ hEA n (by simp)
      have hresc : denote cur path = .ok P1 :=
        denote_mono fs1 cur (fun q hq => (hdirs q).1 hq) _ _ hres
      have hkc : cur.kind P1 = some true := (hdirs P1).1 hkind
      obtain ⟨P2, hP2, hkP2, _⟩ := os_Lstat_ok cur _ fi hfi
      have hJ : denote cur (Join [path, n]) = .ok (P1 ++ [n]) :=
        denote_Join cur path n P1 hresc hkc hnplain
      have hP2e : P2 = P1 ++ [n] := denote_unique cur cur _ _ _ (resolve_denote _ _ _ hP2) hJ
      subst hP2e
      have hn_todo : ¬ (n ∈ ns ∧ n ∉ n :: rest) := fun h => h.2 (List.mem_cons_self _ _)
      have hsuf2 : rest <:+ ns := (List.suffix_cons n rest).trans hsuf
      cases hd : fi.isDir with
      | false =>
        rw [hd] at hkP2
        obtain ⟨m, d, hl⟩ := (kind_file_iff cur (P1 ++ [n])).1 hkP2
        have hfA : fs1.kind (P1 ++ [n]) = some false := by
          cases hk : fs1.kind (P1 ++ [n]) with
          | none => rw [hk] at hEA; exact absurd hEA (by decide)
          | some b =>
            cases b with
            | false => rfl
            | true =>
              have := (hdirs _).1 hk
              rw [hkP2] at this
              exact absurd this (by decide)
        have hfAnd : fs1.kind (P1 ++ [n]) ≠ some true := by rw [hfA]; decide
        have hdeepn : ∀ x j, cur.lookup (P1 ++ n :: (x ++ [j])) =
            renamedEntry fs1 (P1 ++ n :: x) j := by
          intro x j
          obtain ⟨h1, h2⟩ := below_nondir fs1 hwfA P1 n hfAnd x j
          rw [hdeep n x j, if_neg hn_todo, h1, h2]
        have hwalk3 : fc.renameFn (Join [path, n]) (some fi) none cur = (none, fs2) := by
          cases depth with
          | zero => simp [walk] at hwalk2
          | succ d1 =>
            rw [walk_file _ _ _ _ _ hd] at hwalk2
            simpa using hwalk2
        rcases renameFn_file fc hext path n P1 fi cur fs2 m d hpne hnplain hP2 hl hd hwalk3
          with ⟨hc, rfl⟩ | ⟨hc, hk, rfl⟩
        · -- the name is kept
          refine ⟨hsuf2, hwf, hfr, hPl, hdirs, ?_, ?_⟩
          · intro k
            rw [hch k]
            refine (partialEntry_cons fs1 P1 ns n rest k (fun _ h => h.1 hc) ?_).symm
            intro hs
            exact absurd ((sourceName_some k n hs).1.symm.trans hc)
              (fun e => (sourceName_some k n hs).2.1 e.symm)
          · intro k x j
            by_cases hkn : k = n
            · subst hkn
              rw [hdeepn x j, if_pos ⟨hn_mem, hn_rest⟩]
            · rw [hdeep k x j]
              simp only [not_mem_cons_iff ns rest n k hkn]
        · -- the file is moved to its converted name
          have hne1 : P1 ++ [convertedName n] ≠ P1 ++ [n] := concat_ne_concat P1 _ _ hc
          have hlook : ∀ q, q ≠ P1 ++ [convertedName n] → q ≠ P1 ++ [n] →
              ((cur.remove (P1 ++ [n])).set (P1 ++ [convertedName n]) (.file m d)).lookup q
                = cur.lookup q := by
            intro q h1 h2
            rw [lookup_set_ne _ _ _ _ h1, lookup_remove_ne _ _ _ h2]
          have hlA : fs1.lookup (P1 ++ [n]) = some (.file m d) := by
            rw [← partialEntry_todo_converted fs1 P1 ns rest n hc, ← hch n]; exact hl
          refine ⟨hsuf2, ?_, ?_, ?_, ?_, ?_, ?_⟩
          · have hwfr : (cur.remove (P1 ++ [n])).wf :=
              wf_remove cur hwf _ (by rw [hkP2]; decide)
            refine wf_set _ hwfr _ _ (by simp) ?_ ?_ ?_
            · intro k hk1
              rcases List.mem_append.1 hk1 with h | h
              · exact wf_names cur hwf P1 (by rw [hkc]; rfl) k h
              · rw [List.mem_singleton.1 h]; exact plainName_convertedName n hnplain
            · rw [List.dropLast_concat, kind_remove_ne _ _ _ (self_ne_concat P1 n)]
              exact hkc
            · intro h
              rw [kind_remove_ne _ _ _ hne1] at h
              exact absurd h hk
          · intro q hq
            rw [hlook q (fun e => hq (e ▸ List.prefix_append _ _))
              (fun e => hq (e ▸ List.prefix_append _ _))]
            exact hfr q hq
          · rw [hlook P1 (self_ne_concat P1 _) (self_ne_concat P1 _)]
            exact hPl
          · intro q
            by_cases h1 : q = P1 ++ [convertedName n]
            · subst h1
              rw [FS.kind, FS.kind, lookup_set_self _ _ _ (by simp)]
              constructor
              · intro h
                exact absurd ((hdirs _).1 h) hk
              · intro h
                simp [Inode.isDir] at h
            · by_cases h2 : q = P1 ++ [n]
              · subst h2
                rw [hfA, FS.kind, lookup_set_ne _ _ _ _ h1, lookup_remove_self _ _ (by simp)]
                simp
              · rw [FS.kind, FS.kind, hlook q h1 h2]
                exact hdirs q
          · intro k
            by_cases hk1 : k = convertedName n
            · subst hk1
              rw [lookup_set_self _ _ _ (by simp),
                partialEntry_target fs1 P1 ns rest n hn_mem hn_rest hc hfA, hlA]
            · by_cases hk2 : k = n
              · subst hk2
                rw [lookup_set_ne _ _ _ _ (Ne.symm hne1), lookup_remove_self _ _ (by simp),
                  partialEntry_done_converted fs1 P1 ns rest k hn_mem hn_rest hc hfA]
              · rw [hlook _ (concat_ne_concat P1 _ _ hk1) (concat_ne_concat P1 _ _ hk2), hch k]
                refine (partialEntry_cons fs1 P1 ns n rest k (fun e => absurd e hk2) ?_).symm
                intro hs
                exact absurd (sourceName_some k n hs).1.symm hk1
          · intro k x j
            rw [hlook _ (deep_ne_concat P1 k x j _) (deep_ne_concat P1 k x j _)]
            by_cases hkn : k = n
            · subst hkn
              rw [hdeepn x j, if_pos ⟨hn_mem, hn_rest⟩]
            · rw [hdeep k x j]
              simp only [not_mem_cons_iff ns rest n k hkn]
      | true =>
        rw [hd] at hkP2
        have hkA : fs1.kind (P1 ++ [n]) = some true := (hdirs _).2 hkP2
        obtain ⟨hwf2, hfr2, hroot2, hdirs2, hdeep2⟩ :=
          ih (Join [path, n]) fi (P1 ++ [n]) cur fs2 hd hJ hkP2 hwf hwalk2
        have hnf : fs1.kind (P1 ++ [n]) ≠ some false := by rw [hkA]; decide
        refine ⟨hsuf2, hwf2, ?_, ?_, ?_, ?_, ?_⟩
        · intro q hq
          rw [hfr2 q (fun h => hq ((List.prefix_append P1 [n]).trans h))]
          exact hfr q hq
        · rw [hfr2 P1 (not_prefix_concat_self P1 n)]
          exact hPl
        · exact fun q => (hdirs q).trans (hdirs2 q)
        · intro k
          have e : fs2.lookup (P1 ++ [k]) = cur.lookup (P1 ++ [k]) := by
            by_cases hkn : k = n
            · subst hkn; exact hroot2
            · exact hfr2 _ (not_prefix_concat_cons P1 n k [] (fun e => hkn e.symm))
          rw [e, hch k]
          exact (partialEntry_cons fs1 P1 ns n rest k (fun _ h => hnf h.2)
            (fun _ => hnf)).symm
        · intro k x j
          by_cases hkn : k = n
          · subst hkn
            have := hdeep2 x j
            rw [List.append_assoc, List.append_assoc, List.singleton_append] at this
            rw [this, if_pos ⟨hn_mem, hn_rest⟩]
            rw [List.append_assoc, List.singleton_append]
            apply renamedEntry_congr
            intro j1
            have := hdeep k x j1
            rw [if_neg hn_todo] at this
            rw [List.append_assoc, List.cons_append]
            exact this
          · rw [hfr2 _ (not_prefix_concat_cons P1 n k _ (fun e => hkn e.symm)), hdeep k x j]
            simp only [not_mem_cons_iff ns rest n k hkn]
    · -- the invariant holds when the loop starts
      refine ⟨List.suffix_refl _, hwfA, fun _ _ => rfl, rfl, fun _ => Iff.rfl,
        fun k => (partialEntry_start fs1 P1 ns k).symm, ?_⟩
      intro k x j
      rw [if_neg (fun h => h.2 h.1)]

/-! ### The rewriting walk -/

/-- The loop of `ReplaceTextInFiles` on a regular file leaves a well-formed state. -/
theorem replaceInFile_wf (path extension : GoString) (mode : Nat) :
    ∀ (rules : List TextReplacement) (fs : FS) (p : Path) (m : Nat) (content : GoString),
      fs.wf → resolve fs path = .ok p → fs.lookup p = some (.file m content) →
      (replaceInFile path extension mode rules fs).2.wf := by
  intro rules
  induction rules with
  | nil =>
    intro fs p m content hwf _ _
    exact hwf
  | cons r rest ih =>
    intro fs p m content hwf hres hfile
    have hp := file_path_ne_nil fs p m content hfile
    have hex : (fs.kind p).isSome := by rw [FS.kind, hfile]; rfl
    by_cases hx : extension = r.Extension
    · let fs1 := fs.set p (.file m (ReplaceAll content r.OldStr r.NewStr))
      have hkind : ∀ q, (fs1.lookup q).map Inode.isDir = (fs.lookup q).map Inode.isDir := by
        intro q
        by_cases hq : q = p
        · subst hq; simp [fs1, lookup_set_self _ _ _ hp, hfile, Inode.isDir]
        · simp [fs1, lookup_set_ne _ _ _ _ hq]
      have hres1 : resolve fs1 path = .ok p := by
        rw [resolve_congr fs fs1 hkind]; exact hres
      have hwf1 : fs1.wf := by
        refine wf_set fs hwf p _ hp (wf_names fs hwf p hex) (wf_parent fs hwf p hp hex).1 ?_
        intro h
        rw [FS.kind, hfile] at h
        simp [Inode.isDir] at h
      rw [replaceInFile, if_pos hx]
      simp only [ioutil_ReadFile, ioutil_WriteFile, hres, hfile]
      exact ih fs1 p m _ hwf1 hres1 (lookup_set_self _ _ _ hp)
    · rw [replaceInFile, if_neg hx]
      exact ih fs p m content hwf hres hfile

theorem getLastD_cons (k : GoString) (x : Path) (hx : x ≠ []) :
    (k :: x).getLastD [] = x.getLastD [] := by
  cases x with
  | nil => exact absurd rfl hx
  | cons y ys => rfl

theorem rewrittenEntry_isDir (rules : List TextReplacement) (k : GoString) (i : Inode) :
    (rewrittenEntry rules k i).isDir = i.isDir := by
  cases i <;> rfl

/-- The extension of the path name of a name in a directory is that of the name. -/
theorem Ext_Join (path n : GoString) (hp : path ≠ []) (hn : plainName n) :
    Ext (Join [path, n]) = Ext n := by
  obtain ⟨X, hX, hXform⟩ := Join_form path n hp hn
  rw [hX, Ext_append X n hXform]

/-- The walk of `ReplaceTextInFiles` below the directory at `P`, when it returned no
error: every regular file below `P` has the content the rules give for the extension of
its name, every other entry is as it was, and nothing changes outside `P`. -/
theorem replace_walk (fc : FileConverter) :
    ∀ (depth : Nat) (path : GoString) (info : FileInfo) (P : Path) (fsA fsB : FS),
      info.isDir = true → denote fsA path = .ok P → fsA.kind P = some true → fsA.wf →
      walk fc.replaceFn depth path info fsA = some (none, fsB) →
      fsB.wf ∧ (∀ q, ¬ P <+: q → fsB.lookup q = fsA.lookup q) ∧
        fsB.lookup P = fsA.lookup P ∧
        (∀ q, fsB.kind q = fsA.kind q) ∧
        (∀ x, x ≠ [] → fsB.lookup (P ++ x) =
          (fsA.lookup (P ++ x)).map (rewrittenEntry fc.TextReplacements (x.getLastD []))) := by
  intro depth
  induction depth with
  | zero =>
    intro path info P fsA fsB _ _ _ _ hwalk
    simp [walk] at hwalk
  | succ depth ih =>
    intro path info P fsA fsB hdir hres hkind hwfA hwalk
    obtain ⟨ns, fs1, hns, hfn, hw⟩ :=
      walk_dir_ok _ (replaceFn_passesErrors fc) depth path info fsA fsB hdir hwalk
    have hfs1 : fs1 = fsA := by
      simp only [FileConverter.replaceFn, hdir, if_true, Prod.mk.injEq, true_and] at hfn
      exact hfn.symm
    subst hfs1
    obtain ⟨P1, hP1, _, hnodup, hmem⟩ := readDirNames_ok fs1 path ns hwfA hns
    have hP1e : P1 = P := denote_unique fs1 fs1 path _ _ (resolve_denote _ _ _ hP1) hres
    subst hP1e
    have hpne : path ≠ [] := denote_ne_nil fs1 path _ hres
    have key := walkNames_inv _
      (fun todo cur => todo <:+ ns ∧ cur.wf ∧
        (∀ q, ¬ P1 <+: q → cur.lookup q = fs1.lookup q) ∧
        cur.lookup P1 = fs1.lookup P1 ∧
        (∀ q, cur.kind q = fs1.kind q) ∧
        (∀ k x, cur.lookup (P1 ++ k :: x) =
          if k ∈ ns ∧ k ∉ todo then
            (fs1.lookup (P1 ++ k :: x)).map
              (rewrittenEntry fc.TextReplacements ((k :: x).getLastD []))
          else fs1.lookup (P1 ++ k :: x)))
      ?_ ns fs1 fsB ?_ hw
    · obtain ⟨_, hwfB, hfrB, hPB, hkB, hdeepB⟩ := key
      refine ⟨hwfB, hfrB, hPB, hkB, ?_⟩
      intro x hx
      cases x with
      | nil => exact absurd rfl hx
      | cons k x =>
        rw [hdeepB k x]
        by_cases hk0 : k ∈ ns
        · rw [if_pos ⟨hk0, List.not_mem_nil _⟩]
        · rw [if_neg (fun h => hk0 h.1)]
          have hnd : fs1.kind (P1 ++ [k]) ≠ some true := by
            intro h
            exact hk0 ((hmem k).2 (by rw [h]; rfl))
          have hnone : fs1.lookup (P1 ++ k :: x) = none := by
            by_cases hx0 : x = []
            · subst hx0
              apply (kind_eq_none_iff fs1 _).1
              cases hkk : fs1.kind (P1 ++ [k]) with
              | none => rfl
              | some b => exact absurd ((hmem k).2 (by rw [hkk]; rfl)) hk0
            · apply (kind_eq_none_iff fs1 _).1
              have := wf_below_none fs1 hwfA (P1 ++ [k]) x hx0 hnd
              simpa using this
          rw [hnone]; rfl
    · -- every visit keeps the invariant
      intro n rest cur fs2 hI hvisit
      obtain ⟨hsuf, hwf, hfr, hPl, hkinds, hdeep⟩ := hI
      obtain ⟨fi, hfi, hwalk2⟩ := visit_ok _ (replaceFn_passesErrors fc) depth _ cur fs2 hvisit
      have hn_mem : n ∈ ns := hsuf.subset (List.mem_cons_self _ _)
      have hnd : (n :: rest).Nodup := hnodup.sublist hsuf.sublist
      have hn_rest : n ∉ rest := (List.nodup_cons.1 hnd).1
      have hEA := (hmem n).1 hn_mem
      have hnplain : plainName n := wf_names fs1 hwfA _ hEA n (by simp)
      have hresc : denote cur path = .ok P1 :=
        denote_mono fs1 cur (fun q hq => by rw [hkinds q]; exact hq) _ _ hres
      have hkc : cur.kind P1 = some true := by rw [hkinds]; exact hkind
      obtain ⟨P2, hP2, hkP2, _⟩ := os_Lstat_ok cur _ fi hfi
      have hJ : denote cur (Join [path, n]) = .ok (P1 ++ [n]) :=
        denote_Join cur path n P1 hresc hkc hnplain
      have hP2e : P2 = P1 ++ [n] := denote_unique cur cur _ _ _ (resolve_denote _ _ _ hP2) hJ
      subst hP2e
      have hn_todo : ¬ (n ∈ ns ∧ n ∉ n :: rest) := fun h => h.2 (List.mem_cons_self _ _)
      have hsuf2 : rest <:+ ns := (List.suffix_cons n rest).trans hsuf
      have hcurn : ∀ x, cur.lookup (P1 ++ n :: x) = fs1.lookup (P1 ++ n :: x) := by
        intro x
        rw [hdeep n x, if_neg hn_todo]
      cases hd : fi.isDir with
      | false =>
        rw [hd] at hkP2
        obtain ⟨m, d, hl⟩ := (kind_file_iff cur (P1 ++ [n])).1 hkP2
        have hfAnd : fs1.kind (P1 ++ [n]) ≠ some true := by
          rw [← hkinds, hkP2]; decide
        have hwalk3 : fc.replaceFn (Join [path, n]) (some fi) none cur = (none, fs2) := by
          cases depth with
          | zero => simp [walk] at hwalk2
          | succ d1 =>
            rw [walk_file _ _ _ _ _ hd] at hwalk2
            simpa using hwalk2
        obtain ⟨fs3, h1, _, h3, h4, _⟩ := replaceFn_file fc (Join [path, n]) fi hd cur _ m d hP2 hl
        have hwf3 := replaceInFile_wf (Join [path, n]) (Ext (Join [path, n])) fi.mode
          fc.TextReplacements cur _ m d hwf hP2 hl
        have hfn2 : fc.replaceFn (Join [path, n]) (some fi) none cur =
            replaceInFile (Join [path, n]) (Ext (Join [path, n])) fi.mode
              fc.TextReplacements cur := by
          simp only [FileConverter.replaceFn, hd, Bool.false_eq_true, if_false]
        rw [← hfn2, h1] at hwf3
        rw [h1] at hwalk3
        simp only [Prod.mk.injEq, true_and] at hwalk3
        subst hwalk3
        rw [Ext_Join path n hpne hnplain] at h3
        refine ⟨hsuf2, hwf3, ?_, ?_, ?_, ?_⟩
        · intro q hq
          rw [h4 q (fun e => hq (e ▸ List.prefix_append _ _))]
          exact hfr q hq
        · rw [h4 P1 (self_ne_concat P1 n)]
          exact hPl
        · intro q
          by_cases hq : q = P1 ++ [n]
          · subst hq
            rw [← hkinds, hkP2, FS.kind, h3]; rfl
          · rw [FS.kind, h4 q hq]; exact hkinds q
        · intro k x
          by_cases hkn : k = n
          · subst hkn
            rw [if_pos ⟨hn_mem, hn_rest⟩]
            by_cases hx0 : x = []
            · subst hx0
              rw [h3, ← hcurn [], hl]; rfl
            · have hne : P1 ++ k :: x ≠ P1 ++ [k] := by
                intro e
                have := List.append_cancel_left e
                simp only [List.cons.injEq, true_and] at this
                exact hx0 this
              have hnone : fs1.lookup (P1 ++ k :: x) = none := by
                apply (kind_eq_none_iff fs1 _).1
                have := wf_below_none fs1 hwfA (P1 ++ [k]) x hx0 hfAnd
                simpa using this
              rw [h4 _ hne, hcurn x, hnone]; rfl
          · have hne : P1 ++ k :: x ≠ P1 ++ [n] := by
              intro e
              have := List.append_cancel_left e
              simp only [List.cons.injEq] at this
              exact hkn this.1
            rw [h4 _ hne, hdeep k x]
            simp only [not_mem_cons_iff ns rest n k hkn]
      | true =>
        rw [hd] at hkP2
        obtain ⟨hwf2, hfr2, hroot2, hkinds2, hdeep2⟩ :=
          ih (Join [path, n]) fi (P1 ++ [n]) cur fs2 hd hJ hkP2 hwf hwalk2
        refine ⟨hsuf2, hwf2, ?_, ?_, ?_, ?_⟩
        · intro q hq
          rw [hfr2 q (fun h => hq ((List.prefix_append P1 [n]).trans h))]
          exact hfr q hq
        · rw [hfr2 P1 (not_prefix_concat_self P1 n)]
          exact hPl
        · exact fun q => (hkinds2 q).trans (hkinds q)
        · intro k x
          by_cases hkn : k = n
          · subst hkn
            rw [if_pos ⟨hn_mem, hn_rest⟩]
            by_cases hx0 : x = []
            · subst hx0
              rw [hroot2, hcurn []]
              obtain ⟨md, hmd⟩ := (kind_dir_iff fs1 (P1 ++ [k])).1
                (by rw [← hkinds]; exact hkP2)
              rw [hmd]; rfl
            · have := hdeep2 x hx0
              rw [List.append_assoc, List.singleton_append] at this
              rw [this, hcurn x]
              rw [getLastD_cons k x hx0]
          · rw [hfr2 _ (not_prefix_concat_cons P1 n k _ (fun e => hkn e.symm)), hdeep k x]
            simp only [not_mem_cons_iff ns rest n k hkn]
    · -- the invariant holds when the loop starts
      refine ⟨List.suffix_refl _, hwfA, fun _ _ => rfl, rfl, fun _ => rfl, ?_⟩
      intro k x
      rw [if_neg (fun h => h.2 h.1)]

/-! ### A destination tree that lies deep -/

theorem length_joinSep (L : List GoString) (hL : L ≠ []) :
    (joinSep L).length + 1 = (L.map (fun x => x.length + 1)).sum := by
  induction L with
  | nil => exact absurd rfl hL
  | cons a rest ih =>
    cases rest with
    | nil => simp [joinSep_singleton]
    | cons b rest =>
      have := ih (by simp)
      rw [joinSep_cons_cons]
      simp only [List.length_append, List.length_cons, List.map_cons, List.sum_cons] at this ⊢
      omega

theorem cleanSegs_joinSep (L : List GoString) (hL : L ≠ []) (hpl : ∀ x ∈ L, plainName x) :
    cleanSegs (joinSep L) = L := by
  unfold cleanSegs
  rw [splitPath_joinSep L hL (fun x hx => (hpl x hx).2.1), foldl_cleanStep_plain _ L hpl,
    List.append_nil, List.reverse_reverse]

/-- The path name `Join` builds from a clean relative path name and a name. -/
theorem Join_joinSep (L : List GoString) (n : GoString) (hL : L ≠ [])
    (hpl : ∀ x ∈ L, plainName x) (hn : plainName n) (hroot : isRooted (joinSep L) = false) :
    Join [joinSep L, n] = joinSep (L ++ [n]) := by
  have hp : joinSep L ≠ [] := fun e => hL (joinSep_eq_nil L (fun x hx => (hpl x hx).1) e)
  rw [Join_pair _ _ hp, Clean_eq_cleanStr, isRooted_append _ _ hp, hroot,
    cleanSegs_append_name _ n hp hn, cleanSegs_joinSep L hL hpl]
  unfold cleanStr
  have hne : joinSep (L ++ [n]) ≠ [] := by
    rw [joinSep_append_singleton L hL n]; simp
  simp only [Bool.false_eq_true, if_false, if_neg hne]

set_option maxRecDepth 1000000 in
theorem deepRoot_plain : ∀ x ∈ deepRoot, plainName x := by decide

set_option maxRecDepth 1000000 in
theorem deepRoot_dirs :
    ∀ k, k < deepRoot.length → deepTree.kind ([] ++ deepRoot.take k) = some true := by decide

set_option maxRecDepth 1000000 in
theorem deepRoot_length : (deepRoot.map (fun x => x.length + 1)).sum = 3848 := by decide

set_option maxRecDepth 1000000 in
theorem deepChild_length :
    ((deepRoot ++ [longName 98]).map (fun x => x.length + 1)).sum = 4104 := by decide

set_option maxRecDepth 1000000 in
theorem deepRoot_lookup : deepTree.lookup deepRoot = some (.dir 0o755) := by decide

set_option maxRecDepth 1000000 in
theorem deepRoot_names :
    (childNames deepTree.entries deepRoot).insertionSort (fun a b => strLe a b = true)
      = [longName 98, str ("z.js"), str ("z.ttml")] := by decide

set_option maxRecDepth 1000000 in
theorem deepRoot_not_rooted : isRooted (joinSep deepRoot) = false := by decide

set_option maxRecDepth 1000000 in
theorem longName_plain : plainName (longName 98) := by decide

theorem deepRoot_ne_nil : deepRoot ≠ [] := by
  unfold deepRoot; simp

theorem deepRoot_resolve : resolve deepTree (joinSep deepRoot) = .ok deepRoot := by
  have hlen := length_joinSep deepRoot deepRoot_ne_nil
  rw [deepRoot_length] at hlen
  have hne : joinSep deepRoot ≠ [] := by
    intro e; rw [e] at hlen; simp at hlen
  rw [resolve_of_denote _ _ (by omega), denote_eq_resolveFrom _ _ hne,
    splitPath_joinSep deepRoot deepRoot_ne_nil (fun x hx => (deepRoot_plain x hx).2.1),
    resolveFrom_names deepTree deepRoot [] deepRoot_plain deepRoot_dirs, List.nil_append]

theorem deepChild_long :
    os_Lstat deepTree (Join [joinSep deepRoot, longName 98]) = .error .ENAMETOOLONG := by
  apply os_Lstat_long
  rw [Join_joinSep deepRoot _ deepRoot_ne_nil deepRoot_plain longName_plain
    deepRoot_not_rooted]
  have hlen := length_joinSep (deepRoot ++ [longName 98]) (by simp)
  rw [deepChild_length] at hlen
  omega

/-- On the deep tree a walk from the destination root stops at the first name: the path
name of the directory with the long name does not fit in `PATH_MAX` bytes, `Lstat` fails,
and the function of the walk hands the error back.  The state is left as it was. -/
theorem deep_walk_fails (fn : WalkFunc) (d : Nat)
    (hdir : ∀ info : FileInfo, info.isDir = true →
      fn (joinSep deepRoot) (some info) none deepTree = (none, deepTree))
    (herr : ∀ p e, fn p none (some e) deepTree = (some e, deepTree)) :
    Walk (joinSep deepRoot) fn deepTree (d + 1) = some (some .ENAMETOOLONG, deepTree) := by
  have hL : os_Lstat deepTree (joinSep deepRoot) = .ok ⟨true, 0o755⟩ := by
    simp only [os_Lstat, deepRoot_resolve, deepRoot_lookup]
  have hN : readDirNames deepTree (joinSep deepRoot)
      = .ok [longName 98, str ("z.js"), str ("z.ttml")] := by
    simp only [readDirNames, deepRoot_resolve, deepRoot_lookup, deepRoot_names]
  simp only [Walk, hL, walk, Bool.not_true, Bool.false_eq_true, if_false, hN,
    hdir ⟨true, 0o755⟩ rfl, walkNames, deepChild_long, herr]

theorem deep_replace_fails (d : Nat) :
    deepConverter.ReplaceTextInFiles deepTree (d + 1)
      = some ⟨[], some .ENAMETOOLONG, deepTree⟩ := by
  have h := deep_walk_fails deepConverter.replaceFn d
    (fun info hi => by simp [FileConverter.replaceFn, hi])
    (fun p e => by simp [FileConverter.replaceFn])
  have hd : deepConverter.DestinationDirectory = joinSep deepRoot := rfl
  simp only [FileConverter.ReplaceTextInFiles, hd, h]

/-! ### The phases, from their results -/

theorem RenameFiles_ok (fc : FileConverter) (fsA fsB : FS) (d : Nat) (out : List Msg)
    (h : fc.RenameFiles fsA d = some ⟨out, none, fsB⟩) :
    Walk fc.DestinationDirectory fc.renameFn fsA d = some (none, fsB) := by
  unfold FileConverter.RenameFiles at h
  split at h
  · simp at h
  · simp at h
  · rename_i fs1 heq
    simp only [Option.some.injEq, Outcome.mk.injEq, true_and] at h
    rw [heq, h.2]

theorem ReplaceTextInFiles_ok (fc : FileConverter) (fsA fsB : FS) (d : Nat) (out : List Msg)
    (h : fc.ReplaceTextInFiles fsA d = some ⟨out, none, fsB⟩) :
    Walk fc.DestinationDirectory fc.replaceFn fsA d = some (none, fsB) := by
  unfold FileConverter.ReplaceTextInFiles at h
  split at h
  · simp at h
  · simp at h
  · rename_i fs1 heq
    simp only [Option.some.injEq, Outcome.mk.injEq, true_and] at h
    rw [heq, h.2]

/-- A walk that returned no error started at an entry. -/
theorem walk_root (fn : WalkFunc) (herr : passesErrors fn) (root : GoString) (fsA fsB : FS)
    (d : Nat) (h : Walk root fn fsA d = some (none, fsB)) :
    ∃ D info, resolve fsA root = .ok D ∧ fsA.kind D = some info.isDir ∧
      walk fn d root info fsA = some (none, fsB) := by
  obtain ⟨info, hinfo, hwalk⟩ := Walk_ok fn herr root fsA fsB d h
  obtain ⟨D, hD, hk, _⟩ := os_Lstat_ok fsA root info hinfo
  exact ⟨D, info, hD, hk, hwalk⟩

/-- A regular file below the root of a walk: the root is a directory. -/
theorem root_is_dir (fs : FS) (hwf : fs.wf) (D q : Path) (n : GoString) (m : Nat)
    (c : GoString) (b : Bool) (hk : fs.kind D = some b)
    (hfile : fs.lookup (D ++ q ++ [n]) = some (.file m c)) : b = true := by
  cases b with
  | true => rfl
  | false =>
    have := wf_below_none fs hwf D (q ++ [n]) (by simp) (by rw [hk]; decide)
    rw [← List.append_assoc, FS.kind, hfile] at this
    simp at this

/-! ### What `renamedEntry` says of a name -/

theorem renamedEntry_moved (fsA : FS) (par : Path) (n : GoString)
    (hc : convertedName n ≠ n) (hf : fsA.kind (par ++ [n]) = some false) :
    renamedEntry fsA par n = none := by
  unfold renamedEntry
  rw [if_pos ⟨hc, hf⟩]

theorem renamedEntry_target (fsA : FS) (par : Path) (n : GoString)
    (hc : convertedName n ≠ n) (hf : fsA.kind (par ++ [n]) = some false) :
    renamedEntry fsA par (convertedName n) = fsA.lookup (par ++ [n]) := by
  unfold renamedEntry
  rw [if_neg (fun h => h.1 (convertedName_fixed n)), sourceName_convertedName n hc]
  simp only
  rw [if_pos hf]

theorem sourceName_cases (k m : GoString) (h : sourceName k = some m) :
    (∃ s, k = s ++ str (".ttml") ∧ m = s ++ str (".wxml")) ∨
    (∃ s, k = s ++ str (".ttss") ∧ m = s ++ str (".wxss")) := by
  unfold sourceName at h
  split_ifs at h with h1 h2
  · obtain ⟨s, rfl⟩ := (ends_iff k _ (by decide)).1 h1
    rw [take_append_five s _ (by decide)] at h
    simp only [Option.some.injEq] at h
    exact Or.inl ⟨s, rfl, h.symm⟩
  · obtain ⟨s, rfl⟩ := (ends_iff k _ (by decide)).1 h2
    rw [take_append_five s _ (by decide)] at h
    simp only [Option.some.injEq] at h
    exact Or.inr ⟨s, rfl, h.symm⟩

/-- A regular file whose name is kept: a regular file is at the name afterwards, and it is
the file itself unless a regular file beside it was given the name. -/
theorem renamedEntry_kept (fsA : FS) (par : Path) (n : GoString) (m : Nat) (c : GoString)
    (hc : convertedName n = n) (hfile : fsA.lookup (par ++ [n]) = some (.file m c)) :
    (renamedEntry fsA par n).map Inode.isDir = some false ∧
      ((∀ s, n = s ++ str (".ttml") → fsA.kind (par ++ [s ++ str (".wxml")]) ≠ some false) →
        (∀ s, n = s ++ str (".ttss") → fsA.kind (par ++ [s ++ str (".wxss")]) ≠ some false) →
        renamedEntry fsA par n = some (.file m c)) := by
  unfold renamedEntry
  rw [if_neg (fun h => h.1 hc)]
  cases hs : sourceName n with
  | none =>
    simp only
    rw [hfile]
    exact ⟨rfl, fun _ _ => rfl⟩
  | some m1 =>
    simp only
    by_cases hf : fsA.kind (par ++ [m1]) = some false
    · rw [if_pos hf]
      refine ⟨hf, ?_⟩
      intro h1 h2
      exfalso
      rcases sourceName_cases n m1 hs with ⟨s, hn, hm⟩ | ⟨s, hn, hm⟩
      · exact h1 s hn (hm ▸ hf)
      · exact h2 s hn (hm ▸ hf)
    · rw [if_neg hf, hfile]
      exact ⟨rfl, fun _ _ => rfl⟩

theorem kind_of_file (fs : FS) (p : Path) (m : Nat) (c : GoString)
    (h : fs.lookup p = some (.file m c)) : fs.kind p = some false := by
  rw [FS.kind, h]; rfl

/-- C1, amended: with the rule table of `main`, after a run of `RenameFiles` that returns
no error, every regular file that was in the destination tree is where the claim says: a
file whose extension is exactly `.wxml` is, with its mode and content, at the same path
with that suffix replaced by `.ttml`, and the old path holds nothing; likewise for `.wxss`
and `.ttss`; and the path of a file with any other extension (none, or a case variant such
as `.WXML`) still holds a regular file, which is the file itself unless a file beside it was
renamed to that path. -/
theorem C1_rename_run (fc : FileConverter) (hext : fc.Extensions = mainExtensions)
    (fsA fsB : FS) (d : Nat) (out : List Msg) (hwf : fsA.wf)
    (hrun : fc.RenameFiles fsA d = some ⟨out, none, fsB⟩) :
    ∃ D, resolve fsA fc.DestinationDirectory = .ok D ∧
      ∀ (q : Path) (n : GoString) (m : Nat) (c : GoString),
        fsA.lookup (D ++ q ++ [n]) = some (.file m c) →
        (Ext n = str (".wxml") →
          ∃ s, n = s ++ str (".wxml") ∧
            fsB.lookup (D ++ q ++ [s ++ str (".ttml")]) = some (.file m c) ∧
            fsB.lookup (D ++ q ++ [n]) = none) ∧
        (Ext n = str (".wxss") →
          ∃ s, n = s ++ str (".wxss") ∧
            fsB.lookup (D ++ q ++ [s ++ str (".ttss")]) = some (.file m c) ∧
            fsB.lookup (D ++ q ++ [n]) = none) ∧
        (Ext n ≠ str (".wxml") → Ext n ≠ str (".wxss") →
          fsB.kind (D ++ q ++ [n]) = some false ∧
          ((∀ s, n = s ++ str (".ttml") →
              fsA.kind (D ++ q ++ [s ++ str (".wxml")]) ≠ some false) →
            (∀ s, n = s ++ str (".ttss") →
              fsA.kind (D ++ q ++ [s ++ str (".wxss")]) ≠ some false) →
            fsB.lookup (D ++ q ++ [n]) = some (.file m c))) := by
  obtain ⟨D, info, hD, hkD, hwalk⟩ := walk_root _ (renameFn_passesErrors fc) _ _ _ _
    (RenameFiles_ok fc fsA fsB d out hrun)
  refine ⟨D, hD, ?_⟩
  intro q n m c hfile
  have hdir : info.isDir = true := root_is_dir fsA hwf D q n m c _ hkD hfile
  rw [hdir] at hkD
  obtain ⟨_, _, _, _, hre⟩ := rename_walk fc hext d _ info D fsA fsB hdir
    (resolve_denote _ _ _ hD) hkD hwf hwalk
  have hkf := kind_of_file _ _ _ _ hfile
  refine ⟨?_, ?_, ?_⟩
  · intro hE
    obtain ⟨s, hs⟩ := (Ext_wxml_iff n).1 hE
    subst hs
    have hc : convertedName (s ++ str (".wxml")) ≠ s ++ str (".wxml") := by
      rw [convertedName_wxml]; exact append_ext_ne s _ _ (by decide)
    refine ⟨s, rfl, ?_, ?_⟩
    · rw [hre q, ← convertedName_wxml s, renamedEntry_target fsA _ _ hc hkf]
      exact hfile
    · rw [hre q, renamedEntry_moved fsA _ _ hc hkf]
  · intro hE
    obtain ⟨s, hs⟩ := (Ext_wxss_iff n).1 hE
    subst hs
    have hc : convertedName (s ++ str (".wxss")) ≠ s ++ str (".wxss") := by
      rw [convertedName_wxss]; exact append_ext_ne s _ _ (by decide)
    refine ⟨s, rfl, ?_, ?_⟩
    · rw [hre q, ← convertedName_wxss s, renamedEntry_target fsA _ _ hc hkf]
      exact hfile
    · rw [hre q, renamedEntry_moved fsA _ _ hc hkf]
  · intro h1 h2
    have hc : convertedName n = n :=
      convertedName_other n (fun h => h1 ((Ext_wxml_iff n).2 h))
        (fun h => h2 ((Ext_wxss_iff n).2 h))
    obtain ⟨hk, hcont⟩ := renamedEntry_kept fsA (D ++ q) n m c hc hfile
    rw [FS.kind, hre q]
    exact ⟨hk, hcont⟩

/-! ### The converted path -/

theorem eq_nil_or_append (q : Path) : q = [] ∨ ∃ x k, q = x ++ [k] := by
  rcases List.eq_nil_or_concat q with h | ⟨x, k, h⟩
  · exact Or.inl h
  · exact Or.inr ⟨x, k, by simpa using h⟩

theorem convertedPath_false (q : Path) : convertedPath false q = q := by
  simp [convertedPath]

theorem convertedPath_nil (b : Bool) : convertedPath b [] = [] := by
  cases b <;> rfl

theorem convertedPath_concat (x : Path) (k : GoString) :
    convertedPath true (x ++ [k]) = x ++ [convertedName k] := by
  simp [convertedPath]

theorem mergeKind_eq_some (a o : Option Bool) (b : Bool) :
    mergeKind a o = some b ↔ (a = some b ∨ (a = none ∧ o = some b)) := by
  cases a <;> simp [mergeKind]

/-- A regular file is at a name after the renaming exactly when the name is the converted
name of a regular file that was in the directory. -/
theorem renamedEntry_file_iff (fsA : FS) (par : Path) (k : GoString) :
    (renamedEntry fsA par k).map Inode.isDir = some false ↔
      ∃ k0, fsA.kind (par ++ [k0]) = some false ∧ k = convertedName k0 := by
  constructor
  · unfold renamedEntry
    by_cases h1 : convertedName k ≠ k ∧ fsA.kind (par ++ [k]) = some false
    · rw [if_pos h1]
      intro h
      simp at h
    · rw [if_neg h1]
      have hself : (fsA.lookup (par ++ [k])).map Inode.isDir = some false →
          ∃ k0, fsA.kind (par ++ [k0]) = some false ∧ k = convertedName k0 := by
        intro h
        refine ⟨k, h, ?_⟩
        by_contra hne
        exact h1 ⟨fun e => hne e.symm, h⟩
      cases hs : sourceName k with
      | none => exact hself
      | some m1 =>
        simp only
        by_cases hf : fsA.kind (par ++ [m1]) = some false
        · rw [if_pos hf]
          intro _
          exact ⟨m1, hf, (sourceName_some k m1 hs).1.symm⟩
        · rw [if_neg hf]
          exact hself
  · rintro ⟨k0, hk0, rfl⟩
    by_cases hc : convertedName k0 = k0
    · rw [hc]
      obtain ⟨m, c, hl⟩ := (kind_file_iff fsA _).1 hk0
      exact (renamedEntry_kept fsA par k0 m c hc hl).1
    · rw [renamedEntry_target fsA par k0 hc hk0]
      exact hk0

/-- C6, amended: for a source tree rooted at a directory and a destination root such that
no entry of the source tree other than its root lies at, above or below the destination
root, after a successful run of `CopyDirectory` followed by `RenameFiles` (with the rule
table of `main`) the destination tree holds a directory exactly at the relative paths of
the directories of the source tree and of the directories the destination held before the
run, and a regular file exactly at the converted relative paths (a name ending in `.wxml`
or `.wxss` ending in `.ttml` or `.ttss` instead) of the regular files of the source tree and
of the entries the destination held before the run at paths where the source tree has
nothing. -/
theorem C6_destination_mirrors_source (fc : FileConverter)
    (hext : fc.Extensions = mainExtensions) (fs fs1 fs2 : FS) (S D : Path) (d1 d2 : Nat)
    (out : List Msg) (hwf : fs.wf)
    (hS : resolve fs fc.SourceDirectory = .ok S) (hSdir : fs.kind S = some true)
    (hcopy : fc.CopyDirectory fs d1 = some (none, fs1))
    (hren : fc.RenameFiles fs1 d2 = some ⟨out, none, fs2⟩)
    (hD : resolve fs1 fc.DestinationDirectory = .ok D)
    (hapart : ∀ x, x ≠ [] → (fs.kind (S ++ x)).isSome →
      ¬ (S ++ x) <+: D ∧ ¬ D <+: S ++ x) :
    ∀ (q : Path) (b : Bool), fs2.kind (D ++ q) = some b ↔
      ∃ q0, (fs.kind (S ++ q0) = some b ∨
          (fs.kind (S ++ q0) = none ∧ fs.kind (D ++ q0) = some b)) ∧
        q = convertedPath (!b) q0 := by
  have hDd := resolve_denote _ _ _ hD
  have hc : CopySetting fc fs S D :=
    ⟨hwf, resolve_denote _ _ _ hS, hSdir, denote_ne_nil fs1 _ _ hDd,
      ⟨fs1, by rw [← denote_Clean_eq]; exact denote_Clean fs1 _ D hDd⟩, hapart⟩
  obtain ⟨hwf1, hreg, _, _⟩ := copy_phase fc fs S D hc d1 fs1 hcopy
  have hkD1 : fs1.kind D = some true := by
    have := hreg []
    rw [List.append_nil, List.append_nil, hSdir] at this
    exact this
  obtain ⟨D1, info, hD1, hkD, hwalk⟩ := walk_root _ (renameFn_passesErrors fc) _ _ _ _
    (RenameFiles_ok fc fs1 fs2 d2 out hren)
  have hDe : D1 = D := by
    rw [hD] at hD1
    simp only [Except.ok.injEq] at hD1
    exact hD1.symm
  subst hDe
  have hdir : info.isDir = true := by
    rw [hkD1] at hkD
    simp only [Option.some.injEq] at hkD
    exact hkD.symm
  obtain ⟨_, _, _, hdirs, hre⟩ := rename_walk fc hext d2 _ info D1 fs1 fs2 hdir hDd hkD1
    hwf1 hwalk
  have hmerge : ∀ (q0 : Path) (b : Bool), fs1.kind (D1 ++ q0) = some b ↔
      (fs.kind (S ++ q0) = some b ∨
        (fs.kind (S ++ q0) = none ∧ fs.kind (D1 ++ q0) = some b)) := by
    intro q0 b
    rw [hreg q0]
    exact mergeKind_eq_some _ _ _
  intro q b
  cases b with
  | true =>
    simp only [Bool.not_true, convertedPath_false]
    rw [← hdirs (D1 ++ q)]
    constructor
    · intro h
      exact ⟨q, (hmerge q true).1 h, rfl⟩
    · rintro ⟨q0, h, he⟩
      rw [he]
      exact (hmerge q0 true).2 h
  | false =>
    simp only [Bool.not_false]
    rcases eq_nil_or_append q with rfl | ⟨x, k, rfl⟩
    · rw [List.append_nil, (hdirs D1).1 hkD1]
      constructor
      · intro h
        exact absurd h (by decide)
      · rintro ⟨q0, h, he⟩
        exfalso
        rcases eq_nil_or_append q0 with rfl | ⟨x0, k0, rfl⟩
        · rw [List.append_nil, hSdir] at h
          rcases h with h | ⟨h, _⟩
          · exact absurd h (by decide)
          · exact absurd h (by decide)
        · rw [convertedPath_concat] at he
          exact absurd he.symm (by simp)
    · rw [← List.append_assoc, FS.kind, hre x k, renamedEntry_file_iff]
      constructor
      · rintro ⟨k0, hk0, rfl⟩
        refine ⟨x ++ [k0], (hmerge _ false).1 ?_, (convertedPath_concat x k0).symm⟩
        rw [← List.append_assoc]; exact hk0
      · rintro ⟨q0, h, he⟩
        rcases eq_nil_or_append q0 with rfl | ⟨x0, k0, rfl⟩
        · rw [convertedPath_nil] at he
          exact absurd he (by simp)
        · rw [convertedPath_concat] at he
          obtain ⟨hx, hk⟩ := List.append_inj' he rfl
          subst hx
          simp only [List.cons.injEq, and_true] at hk
          refine ⟨k0, ?_, hk⟩
          have := (hmerge _ false).2 h
          rw [← List.append_assoc] at this
          exact this

/-! ### The rewriting of a whole tree -/

theorem rewriteContent_no_match (e : GoString) :
    ∀ (rules : List TextReplacement) (content : GoString),
      (∀ r ∈ rules, r.Extension ≠ e) → rewriteContent e rules content = content := by
  intro rules
  induction rules with
  | nil => intro content _; rfl
  | cons r rest ih =>
    intro content h
    have hx : ¬ e = r.Extension := fun he => h r (List.mem_cons_self _ _) he.symm
    rw [rewriteContent, if_neg hx]
    exact ih content (fun r1 hr1 => h r1 (List.mem_cons_of_mem _ hr1))

/-- After a run of `ReplaceTextInFiles` that returned no error, every regular file that
was below the destination root has its mode, and the content the loop over the rules
computes for the extension of its name. -/
theorem replace_run (fc : FileConverter) (fsA fsB : FS) (d : Nat) (out : List Msg)
    (hwf : fsA.wf) (hrun : fc.ReplaceTextInFiles fsA d = some ⟨out, none, fsB⟩) :
    ∃ D, resolve fsA fc.DestinationDirectory = .ok D ∧
      ∀ (q : Path) (n : GoString) (m : Nat) (C : GoString),
        fsA.lookup (D ++ q ++ [n]) = some (.file m C) →
        fsB.lookup (D ++ q ++ [n])
          = some (.file m (rewriteContent (Ext n) fc.TextReplacements C)) := by
  obtain ⟨D, info, hD, hkD, hwalk⟩ := walk_root _ (replaceFn_passesErrors fc) _ _ _ _
    (ReplaceTextInFiles_ok fc fsA fsB d out hrun)
  refine ⟨D, hD, ?_⟩
  intro q n m C hfile
  have hdir : info.isDir = true := root_is_dir fsA hwf D q n m C _ hkD hfile
  rw [hdir] at hkD
  obtain ⟨_, _, _, _, hre⟩ := replace_walk fc d _ info D fsA fsB hdir
    (resolve_denote _ _ _ hD) hkD hwf hwalk
  have := hre (q ++ [n]) (by simp)
  rw [← List.append_assoc, hfile] at this
  rw [this]
  simp [rewrittenEntry]

/-- C9, amended: for every table of text rules, after a run of `ReplaceTextInFiles` that
returns no error, the content of every regular file that was in the destination tree, its
name having the extension `e`, is the left fold, in list order, over exactly the rules
whose `Extension` is `e`, of replacing every occurrence of `OldStr` by `NewStr` in the
content reached so far; a file whose extension matches no rule keeps its content. -/
theorem C9_rules_fold_run (fc : FileConverter) (fsA fsB : FS) (d : Nat) (out : List Msg)
    (hwf : fsA.wf) (hrun : fc.ReplaceTextInFiles fsA d = some ⟨out, none, fsB⟩) :
    ∃ D, resolve fsA fc.DestinationDirectory = .ok D ∧
      ∀ (q : Path) (n : GoString) (m : Nat) (C : GoString),
        fsA.lookup (D ++ q ++ [n]) = some (.file m C) →
        fsB.lookup (D ++ q ++ [n])
            = some (.file m (foldMatchingRules fc.TextReplacements (Ext n) C)) ∧
          ((∀ r ∈ fc.TextReplacements, r.Extension ≠ Ext n) →
            fsB.lookup (D ++ q ++ [n]) = some (.file m C)) := by
  obtain ⟨D, hD, h⟩ := replace_run fc fsA fsB d out hwf hrun
  refine ⟨D, hD, ?_⟩
  intro q n m C hfile
  have h1 := h q n m C hfile
  refine ⟨?_, ?_⟩
  · rw [← rewriteContent_eq_fold]; exact h1
  · intro hall
    rw [h1, rewriteContent_no_match _ _ _ hall]

/-- C2, amended: with the rule table of `main`, after a run of `ReplaceTextInFiles` that
returns no error, the content of every `.ttml` file that was in the destination tree is its
content with every `wx:` replaced by `tt:` and then every `.wxml` by `.ttml`; it contains
no occurrence of `wx:` and no occurrence of `.wxml`. -/
theorem C2_ttml_rewrite_run (fc : FileConverter)
    (hfc : fc.TextReplacements = mainTextReplacements) (fsA fsB : FS) (d : Nat)
    (out : List Msg) (hwf : fsA.wf)
    (hrun : fc.ReplaceTextInFiles fsA d = some ⟨out, none, fsB⟩) :
    ∃ D, resolve fsA fc.DestinationDirectory = .ok D ∧
      ∀ (q : Path) (n : GoString) (m : Nat) (C : GoString),
        fsA.lookup (D ++ q ++ [n]) = some (.file m C) → Ext n = str (".ttml") →
        fsB.lookup (D ++ q ++ [n]) = some (.file m
            (ReplaceAll (ReplaceAll C (str ("wx:")) (str ("tt:"))) (str (".wxml"))
              (str (".ttml")))) ∧
          ¬ str ("wx:") <:+: ReplaceAll (ReplaceAll C (str ("wx:")) (str ("tt:")))
            (str (".wxml")) (str (".ttml")) ∧
          ¬ str (".wxml") <:+: ReplaceAll (ReplaceAll C (str ("wx:")) (str ("tt:")))
            (str (".wxml")) (str (".ttml")) := by
  obtain ⟨D, hD, h⟩ := replace_run fc fsA fsB d out hwf hrun
  refine ⟨D, hD, ?_⟩
  intro q n m C hfile hE
  have h1 := h q n m C hfile
  rw [hfc, hE, rewriteContent_ttml] at h1
  exact ⟨h1, no_wx_colon_after_second _ (no_wx_colon_after_first C), no_wxml_after_second _⟩

/-- C3, amended: with the rule table of `main`, after a run of `ReplaceTextInFiles` that
returns no error, the content of every `.js` or `.ts` file that was in the destination tree
is its content with every `wx.` replaced by `tt.`; it contains no occurrence of `wx.`, and
a content without an occurrence of `wx.` is left exactly as it was. -/
theorem C3_js_ts_rewrite_run (fc : FileConverter)
    (hfc : fc.TextReplacements = mainTextReplacements) (fsA fsB : FS) (d : Nat)
    (out : List Msg) (hwf : fsA.wf)
    (hrun : fc.ReplaceTextInFiles fsA d = some ⟨out, none, fsB⟩) :
    ∃ D, resolve fsA fc.DestinationDirectory = .ok D ∧
      ∀ (q : Path) (n : GoString) (m : Nat) (C : GoString),
        fsA.lookup (D ++ q ++ [n]) = some (.file m C) →
        (Ext n = str (".js") ∨ Ext n = str (".ts")) →
        fsB.lookup (D ++ q ++ [n])
            = some (.file m (ReplaceAll C (str ("wx.")) (str ("tt.")))) ∧
          ¬ str ("wx.") <:+: ReplaceAll C (str ("wx.")) (str ("tt.")) ∧
          (¬ str ("wx.") <:+: C → fsB.lookup (D ++ q ++ [n]) = some (.file m C)) := by
  obtain ⟨D, hD, h⟩ := replace_run fc fsA fsB d out hwf hrun
  refine ⟨D, hD, ?_⟩
  intro q n m C hfile hE
  have h1 := h q n m C hfile
  have h2 : fsB.lookup (D ++ q ++ [n])
      = some (.file m (ReplaceAll C (str ("wx.")) (str ("tt.")))) := by
    rcases hE with hE | hE
    · rw [hfc, hE, rewriteContent_js] at h1; exact h1
    · rw [hfc, hE, rewriteContent_ts] at h1; exact h1
  refine ⟨h2, no_wx_dot_after C, ?_⟩
  intro hno
  rw [h2, ReplaceAll_absent _ _ _ hno]

/-! ### The scenarios -/

/-- The condition on the source tree and the destination root, checked entry by entry. -/
theorem apart_of_entries (fs : FS) (S D : Path)
    (h : ∀ e ∈ fs.entries, S <+: e.1 → e.1 ≠ S → ¬ e.1 <+: D ∧ ¬ D <+: e.1) :
    ∀ x, x ≠ [] → (fs.kind (S ++ x)).isSome → ¬ (S ++ x) <+: D ∧ ¬ D <+: S ++ x := by
  intro x hx hk
  have hne : S ++ x ≠ [] := by simp [hx]
  obtain ⟨e, he, hep⟩ := List.mem_map.1 ((kind_isSome_iff fs _ hne).1 hk)
  have hneS : e.1 ≠ S := by
    rw [hep]
    intro e2
    have := congrArg List.length e2
    have hpos : 0 < x.length := List.length_pos.2 hx
    simp only [List.length_append] at this
    omega
  have := h e he (hep ▸ List.prefix_append S x) hneS
  rw [hep] at this
  exact this

/-- No entry of the tree at `S` corresponds to the relative path `t`, checked entry by
entry. -/
theorem no_source_of (fs : FS) (S t : Path) (hS : S ≠ [])
    (h : ∀ e ∈ fs.entries, ∀ b : Bool, S <+: e.1 → t ≠ convertedPath b (e.1.drop S.length)) :
    ¬ ∃ q0 b, (fs.lookup (S ++ q0)).isSome ∧ t = convertedPath b q0 := by
  rintro ⟨q0, b, hE, he⟩
  have hne : S ++ q0 ≠ [] := by simp [hS]
  obtain ⟨e, hem, hep⟩ := List.mem_map.1 ((lookup_isSome_iff fs _ hne).1 hE)
  have := h e hem b (hep ▸ List.prefix_append S q0)
  rw [hep, List.drop_left] at this
  exact this he

set_option maxRecDepth 100000 in
/-- C1 amended, at a destination tree with names of every kind: the run returns no error;
`a/index.wxml` is at `a/index.ttml`, `b.wxss` at `b.ttss`, `README.WXML` and `Makefile` are
where they were, and `x.ttml` holds what `x.wxml` held. -/
theorem C1_rename_run_witness :
    (demoNames.wf ∧
      demoConverter.RenameFiles demoNames 3
        = some ⟨[.renamingCompleted], none, demoNamesRenamed⟩ ∧
      demoNames.lookup [str ("proj_tt"), str ("a"), str ("index.wxml")]
        = some (.file 0o644 (str ("<view wx:if=\x22x\x22></view>"))) ∧
      demoNamesRenamed.lookup [str ("proj_tt"), str ("a"), str ("index.ttml")]
        = some (.file 0o644 (str ("<view wx:if=\x22x\x22></view>"))) ∧
      demoNamesRenamed.lookup [str ("proj_tt"), str ("a"), str ("index.wxml")] = none ∧
      demoNamesRenamed.lookup [str ("proj_tt"), str ("b.ttss")]
        = some (.file 0o600 (str (".a \x7b\x7d"))) ∧
      demoNamesRenamed.lookup [str ("proj_tt"), str ("b.wxss")] = none ∧
      demoNamesRenamed.lookup [str ("proj_tt"), str ("README.WXML")]
        = some (.file 0o644 (str ("wx notes"))) ∧
      demoNamesRenamed.lookup [str ("proj_tt"), str ("Makefile")]
        = some (.file 0o644 (str ("all:"))) ∧
      demoNamesRenamed.lookup [str ("proj_tt"), str ("x.ttml")]
        = some (.file 0o644 (str ("new"))) ∧
      demoNamesRenamed.lookup [str ("proj_tt"), str ("x.wxml")] = none) ∧
    ∃ D, resolve demoNames demoConverter.DestinationDirectory = .ok D ∧
      ∀ (q : Path) (n : GoString) (m : Nat) (c : GoString),
        demoNames.lookup (D ++ q ++ [n]) = some (.file m c) →
        (Ext n = str (".wxml") →
          ∃ s, n = s ++ str (".wxml") ∧
            demoNamesRenamed.lookup (D ++ q ++ [s ++ str (".ttml")]) = some (.file m c) ∧
            demoNamesRenamed.lookup (D ++ q ++ [n]) = none) ∧
        (Ext n = str (".wxss") →
          ∃ s, n = s ++ str (".wxss") ∧
            demoNamesRenamed.lookup (D ++ q ++ [s ++ str (".ttss")]) = some (.file m c) ∧
            demoNamesRenamed.lookup (D ++ q ++ [n]) = none) ∧
        (Ext n ≠ str (".wxml") → Ext n ≠ str (".wxss") →
          demoNamesRenamed.kind (D ++ q ++ [n]) = some false ∧
          ((∀ s, n = s ++ str (".ttml") →
              demoNames.kind (D ++ q ++ [s ++ str (".wxml")]) ≠ some false) →
            (∀ s, n = s ++ str (".ttss") →
              demoNames.kind (D ++ q ++ [s ++ str (".wxss")]) ≠ some false) →
            demoNamesRenamed.lookup (D ++ q ++ [n]) = some (.file m c))) :=
  ⟨by decide,
   C1_rename_run demoConverter rfl demoNames demoNamesRenamed 3 [.renamingCompleted]
    (by decide) (by decide)⟩

set_option maxRecDepth 100000 in
/-- C1 as stated fails: in a destination tree where the file `z.wxml` lies beside a
directory named `z.ttml`, `os.Rename` refuses to replace the directory, `RenameFiles`
returns the error, and `z.wxml`, whose extension is exactly `.wxml`, is still at its path,
the path `z.ttml` being the directory; `a.wxml`, met before, has been renamed. -/
theorem C1_rename_stops_at_directory :
    demoClash.wf ∧
    demoClash.lookup [str ("proj_tt"), str ("z.wxml")] = some (.file 0o644 (str ("<view/>"))) ∧
    demoClash.lookup [str ("proj_tt"), str ("z.ttml")] = some (.dir 0o755) ∧
    Ext (str ("z.wxml")) = str (".wxml") ∧
    demoConverter.Extensions = mainExtensions ∧
    demoConverter.RenameFiles demoClash 3 = some ⟨[], some .EEXIST, demoClashRenamed⟩ ∧
    demoClashRenamed.lookup [str ("proj_tt"), str ("z.wxml")]
      = some (.file 0o644 (str ("<view/>"))) ∧
    demoClashRenamed.lookup [str ("proj_tt"), str ("z.ttml")] = some (.dir 0o755) ∧
    demoClashRenamed.lookup [str ("proj_tt"), str ("a.ttml")]
      = some (.file 0o644 (str ("<text/>"))) := by
  decide

set_option maxRecDepth 100000 in
/-- C2 amended, at the destination tree of the scenarios after the renaming: the run
returns no error, and `a/index.ttml` holds `<view tt:if="x"></view>`. -/
theorem C2_ttml_rewrite_run_witness :
    (demoConverted.wf ∧
      demoConverter.ReplaceTextInFiles demoConverted 3
        = some ⟨[.replacementCompleted], none, demoRewritten⟩ ∧
      demoConverted.lookup [str ("proj_tt"), str ("a"), str ("index.ttml")]
        = some (.file 0o644 (str ("<view wx:if=\x22x\x22></view>"))) ∧
      demoRewritten.lookup [str ("proj_tt"), str ("a"), str ("index.ttml")]
        = some (.file 0o644 (str ("<view tt:if=\x22x\x22></view>")))) ∧
    ∃ D, resolve demoConverted demoConverter.DestinationDirectory = .ok D ∧
      ∀ (q : Path) (n : GoString) (m : Nat) (C : GoString),
        demoConverted.lookup (D ++ q ++ [n]) = some (.file m C) → Ext n = str (".ttml") →
        demoRewritten.lookup (D ++ q ++ [n]) = some (.file m
            (ReplaceAll (ReplaceAll C (str ("wx:")) (str ("tt:"))) (str (".wxml"))
              (str (".ttml")))) ∧
          ¬ str ("wx:") <:+: ReplaceAll (ReplaceAll C (str ("wx:")) (str ("tt:")))
            (str (".wxml")) (str (".ttml")) ∧
          ¬ str (".wxml") <:+: ReplaceAll (ReplaceAll C (str ("wx:")) (str ("tt:")))
            (str (".wxml")) (str (".ttml")) :=
  ⟨by decide,
   C2_ttml_rewrite_run demoConverter rfl demoConverted demoRewritten 3 [.replacementCompleted]
    (by decide) (by decide)⟩

set_option maxRecDepth 1000000 in
/-- C2 as stated fails: in a destination tree whose root lies deep, the path name of the
first entry of the root does not fit in `PATH_MAX` bytes, `ReplaceTextInFiles` returns the
error of `Lstat`, and the `.ttml` file `z.ttml` of the root still holds `wx:`. -/
theorem C2_deep_ttml_not_rewritten :
    deepTree.wf ∧
    deepConverter.TextReplacements = mainTextReplacements ∧
    deepTree.lookup (deepRoot ++ [str ("z.ttml")])
      = some (.file 0o644 (str ("<view wx:if=\x22x\x22></view>"))) ∧
    Ext (str ("z.ttml")) = str (".ttml") ∧
    str ("wx:") <:+: str ("<view wx:if=\x22x\x22></view>") ∧
    deepConverter.ReplaceTextInFiles deepTree 3
      = some ⟨[], some .ENAMETOOLONG, deepTree⟩ :=
  ⟨by decide, rfl, by decide, by decide, by decide, deep_replace_fails 2⟩

set_option maxRecDepth 100000 in
/-- C3 amended, at the destination tree of the scenarios after the renaming: the run
returns no error, and `app.js` holds `tt.request({})`. -/
theorem C3_js_ts_rewrite_run_witness :
    (demoConverted.wf ∧
      demoConverter.ReplaceTextInFiles demoConverted 3
        = some ⟨[.replacementCompleted], none, demoRewritten⟩ ∧
      demoConverted.lookup [str ("proj_tt"), str ("app.js")]
        = some (.file 0o644 (str ("wx.request(\x7b\x7d)"))) ∧
      demoRewritten.lookup [str ("proj_tt"), str ("app.js")]
        = some (.file 0o644 (str ("tt.request(\x7b\x7d)"))) ∧
      ReplaceAll (str ("wxy wx")) (str ("wx.")) (str ("tt.")) = str ("wxy wx")) ∧
    ∃ D, resolve demoConverted demoConverter.DestinationDirectory = .ok D ∧
      ∀ (q : Path) (n : GoString) (m : Nat) (C : GoString),
        demoConverted.lookup (D ++ q ++ [n]) = some (.file m C) →
        (Ext n = str (".js") ∨ Ext n = str (".ts")) →
        demoRewritten.lookup (D ++ q ++ [n])
            = some (.file m (ReplaceAll C (str ("wx.")) (str ("tt.")))) ∧
          ¬ str ("wx.") <:+: ReplaceAll C (str ("wx.")) (str ("tt.")) ∧
          (¬ str ("wx.") <:+: C →
            demoRewritten.lookup (D ++ q ++ [n]) = some (.file m C)) :=
  ⟨by decide,
   C3_js_ts_rewrite_run demoConverter rfl demoConverted demoRewritten 3 [.replacementCompleted]
    (by decide) (by decide)⟩

set_option maxRecDepth 1000000 in
/-- C3 as stated fails: on the deep destination tree `ReplaceTextInFiles` returns the
error of `Lstat` at the first entry, and the file `z.js` of the root still holds `wx.`. -/
theorem C3_deep_js_not_rewritten :
    deepTree.wf ∧
    deepConverter.TextReplacements = mainTextReplacements ∧
    deepTree.lookup (deepRoot ++ [str ("z.js")])
      = some (.file 0o644 (str ("wx.request(\x7b\x7d)"))) ∧
    Ext (str ("z.js")) = str (".js") ∧
    str ("wx.") <:+: str ("wx.request(\x7b\x7d)") ∧
    deepConverter.ReplaceTextInFiles deepTree 3
      = some ⟨[], some .ENAMETOOLONG, deepTree⟩ :=
  ⟨by decide, rfl, by decide, by decide, by decide, deep_replace_fails 2⟩

set_option maxRecDepth 100000 in
/-- C9 amended, at a table in which the order matters: in `notes.txt` the rule `a`→`b` and
then the rule `b`→`c` turn `ab #` into `cc #`, the rule for `.md` files being left out;
`README`, whose extension matches no rule, keeps `ab #`. -/
theorem C9_rules_fold_run_witness :
    (demoDocs.wf ∧
      docsConverter.ReplaceTextInFiles demoDocs 3
        = some ⟨[.replacementCompleted], none, demoDocsRewritten⟩ ∧
      demoDocs.lookup [str ("docs"), str ("notes.txt")] = some (.file 0o644 (str ("ab #"))) ∧
      foldMatchingRules docsConverter.TextReplacements (Ext (str ("notes.txt"))) (str ("ab #"))
        = str ("cc #") ∧
      demoDocsRewritten.lookup [str ("docs"), str ("notes.txt")]
        = some (.file 0o644 (str ("cc #"))) ∧
      demoDocs.lookup [str ("docs"), str ("README")] = some (.file 0o644 (str ("ab #"))) ∧
      (∀ r ∈ docsConverter.TextReplacements, r.Extension ≠ Ext (str ("README"))) ∧
      demoDocsRewritten.lookup [str ("docs"), str ("README")]
        = some (.file 0o644 (str ("ab #")))) ∧
    ∃ D, resolve demoDocs docsConverter.DestinationDirectory = .ok D ∧
      ∀ (q : Path) (n : GoString) (m : Nat) (C : GoString),
        demoDocs.lookup (D ++ q ++ [n]) = some (.file m C) →
        demoDocsRewritten.lookup (D ++ q ++ [n])
            = some (.file m (foldMatchingRules docsConverter.TextReplacements (Ext n) C)) ∧
          ((∀ r ∈ docsConverter.TextReplacements, r.Extension ≠ Ext n) →
            demoDocsRewritten.lookup (D ++ q ++ [n]) = some (.file m C)) :=
  ⟨by decide,
   C9_rules_fold_run docsConverter demoDocs demoDocsRewritten 3 [.replacementCompleted]
    (by decide) (by decide)⟩

set_option maxRecDepth 1000000 in
/-- C9 as stated fails: on the deep destination tree `ReplaceTextInFiles` returns the
error of `Lstat` at the first entry, and the content left in `z.js` is not the fold of the
rules for `.js` over its content. -/
theorem C9_deep_fold_not_applied :
    deepTree.wf ∧
    deepTree.lookup (deepRoot ++ [str ("z.js")])
      = some (.file 0o644 (str ("wx.request(\x7b\x7d)"))) ∧
    foldMatchingRules deepConverter.TextReplacements (Ext (str ("z.js")))
        (str ("wx.request(\x7b\x7d)")) = str ("tt.request(\x7b\x7d)") ∧
    str ("tt.request(\x7b\x7d)") ≠ str ("wx.request(\x7b\x7d)") ∧
    deepConverter.ReplaceTextInFiles deepTree 3
      = some ⟨[], some .ENAMETOOLONG, deepTree⟩ :=
  ⟨by decide, by decide, by decide, by decide, deep_replace_fails 2⟩

set_option maxRecDepth 100000 in
/-- C6 amended, at three runs that succeed: the source tree of the scenarios copied to a
destination that does not exist; a source tree copied to a destination that holds
`old.txt` from an earlier run; and the source tree of the scenarios copied from `proj/`,
to the destination `proj/proj_tt` inside it. -/
theorem C6_destination_mirrors_source_witness :
    ((demoSource.wf ∧ demoConverter.CopyDirectory demoSource 3 = some (none, demoCopied) ∧
        demoConverter.RenameFiles demoCopied 3
          = some ⟨[.renamingCompleted], none, demoConverted⟩ ∧
        demoConverted.kind [str ("proj_tt"), str ("a"), str ("index.ttml")] = some false) ∧
      ∀ (q : Path) (b : Bool), demoConverted.kind ([str ("proj_tt")] ++ q) = some b ↔
        ∃ q0, (demoSource.kind ([str ("proj")] ++ q0) = some b ∨
            (demoSource.kind ([str ("proj")] ++ q0) = none ∧
              demoSource.kind ([str ("proj_tt")] ++ q0) = some b)) ∧
          q = convertedPath (!b) q0) ∧
    ((demoStale.wf ∧ demoConverter.CopyDirectory demoStale 3 = some (none, demoStaleCopied) ∧
        demoConverter.RenameFiles demoStaleCopied 3
          = some ⟨[.renamingCompleted], none, demoStaleConverted⟩ ∧
        demoStaleConverted.kind [str ("proj_tt"), str ("old.txt")] = some false ∧
        demoStaleConverted.kind [str ("proj_tt"), str ("tpl.wxml")] = some true ∧
        demoStaleConverted.kind [str ("proj_tt"), str ("tpl.wxml"), str ("x.ttml")]
          = some false) ∧
      ∀ (q : Path) (b : Bool), demoStaleConverted.kind ([str ("proj_tt")] ++ q) = some b ↔
        ∃ q0, (demoStale.kind ([str ("proj")] ++ q0) = some b ∨
            (demoStale.kind ([str ("proj")] ++ q0) = none ∧
              demoStale.kind ([str ("proj_tt")] ++ q0) = some b)) ∧
          q = convertedPath (!b) q0) ∧
    ((nestedConverter.CopyDirectory demoSource 3 = some (none, demoInsideCopied) ∧
        nestedConverter.RenameFiles demoInsideCopied 3
          = some ⟨[.renamingCompleted], none, demoInsideConverted⟩ ∧
        demoInsideConverted.kind
          [str ("proj"), str ("proj_tt"), str ("a"), str ("index.ttml")] = some false) ∧
      ∀ (q : Path) (b : Bool),
        demoInsideConverted.kind ([str ("proj"), str ("proj_tt")] ++ q) = some b ↔
        ∃ q0, (demoSource.kind ([str ("proj")] ++ q0) = some b ∨
            (demoSource.kind ([str ("proj")] ++ q0) = none ∧
              demoSource.kind ([str ("proj"), str ("proj_tt")] ++ q0) = some b)) ∧
          q = convertedPath (!b) q0) :=
  ⟨⟨by decide,
    C6_destination_mirrors_source demoConverter rfl demoSource demoCopied demoConverted
      [str ("proj")] [str ("proj_tt")] 3 3 [.renamingCompleted] (by decide) rfl (by decide)
      (by decide) (by decide) rfl (apart_of_entries _ _ _ (by decide))⟩,
   ⟨by decide,
    C6_destination_mirrors_source demoConverter rfl demoStale demoStaleCopied
      demoStaleConverted [str ("proj")] [str ("proj_tt")] 3 3 [.renamingCompleted]
      (by decide) rfl (by decide) (by decide) (by decide) rfl
      (apart_of_entries _ _ _ (by decide))⟩,
   ⟨by decide,
    C6_destination_mirrors_source nestedConverter rfl demoSource demoInsideCopied
      demoInsideConverted [str ("proj")] [str ("proj"), str ("proj_tt")] 3 3
      [.renamingCompleted] (by decide) rfl (by decide) (by decide) (by decide) rfl
      (apart_of_entries _ _ _ (by decide))⟩⟩

set_option maxRecDepth 100000 in
/-- C6 as stated fails.  When the destination holds `old.txt` from an earlier run, the
copy and the renaming succeed, and the destination still holds `old.txt`, which
corresponds to no path of the source tree; the directory `tpl.wxml` of the source tree is
`tpl.wxml` in the destination, not `tpl.ttml`, while the file `x.wxml` in it is `x.ttml`.
When the source tree holds the destination of an earlier run, as for the source path
`proj/`, both phases succeed and the destination holds `proj_tt/a.ttml`, a copy of a copy
that corresponds to no path of the source tree. -/
theorem C6_destination_keeps_other_entries :
    (demoStale.wf ∧
      demoConverter.CopyDirectory demoStale 3 = some (none, demoStaleCopied) ∧
      demoConverter.RenameFiles demoStaleCopied 3
        = some ⟨[.renamingCompleted], none, demoStaleConverted⟩ ∧
      (demoStaleConverted.lookup [str ("proj_tt"), str ("old.txt")]).isSome = true ∧
      (¬ ∃ q0 b, (demoStale.lookup ([str ("proj")] ++ q0)).isSome ∧
        [str ("old.txt")] = convertedPath b q0) ∧
      demoStale.kind [str ("proj"), str ("tpl.wxml")] = some true ∧
      demoStaleConverted.kind [str ("proj_tt"), str ("tpl.wxml")] = some true ∧
      demoStaleConverted.lookup [str ("proj_tt"), str ("tpl.ttml")] = none ∧
      demoStaleConverted.kind [str ("proj_tt"), str ("tpl.wxml"), str ("x.ttml")]
        = some false) ∧
    (demoNested.wf ∧
      nestedConverter.CopyDirectory demoNested 4 = some (none, demoNestedCopied) ∧
      nestedConverter.RenameFiles demoNestedCopied 4
        = some ⟨[.renamingCompleted], none, demoNestedConverted⟩ ∧
      (demoNestedConverted.lookup
        [str ("proj"), str ("proj_tt"), str ("proj_tt"), str ("a.ttml")]).isSome = true ∧
      ¬ ∃ q0 b, (demoNested.lookup ([str ("proj")] ++ q0)).isSome ∧
        [str ("proj_tt"), str ("a.ttml")] = convertedPath b q0) :=
  ⟨⟨by decide, by decide, by decide, by decide,
      no_source_of demoStale [str ("proj")] [str ("old.txt")] (by simp) (by decide),
      by decide, by decide, by decide, by decide⟩,
   ⟨by decide, by decide, by decide, by decide,
      no_source_of demoNested [str ("proj")] [str ("proj_tt"), str ("a.ttml")] (by simp)
        (by decide)⟩⟩

end Wx2tt
